import Mathlib

/-!
Verification of the ECS storage core (sparse index, dense component table,
stable component table, entity allocator) of the Kube-Framework ECS module.

The C++ sources are shallowly embedded: 32-bit entity identifiers are
modelled as Nat (the sentinel 0xFFFFFFFF is the explicit constant
NullEntity; the only place where unsigned wrap-around is observable on
valid states is the descending compaction cursor of removeRange/pack,
which is modelled with Int exactly as the source comment describes the
re-overflow).  Vectors are Lean lists, the paged sparse set is a map
from entity to optional index (a missing page or a NULL_INDEX slot both
read as none), and paged component storage is a slot-indexed list
(page p, slot c corresponds to flat index p * PageSize + c).
-/

namespace KubeECS

/-! ### List access helper lemmas -/

theorem getD_set_self {α : Type _} (l : List α) (i : Nat) (v d : α) (h : i < l.length) :
    (l.set i v).getD i d = v := by
  simp [List.getD_eq_getElem?_getD, List.getElem?_set, h]

theorem getD_set_ne {α : Type _} (l : List α) (i j : Nat) (v d : α) (h : i ≠ j) :
    (l.set i v).getD j d = l.getD j d := by
  simp [List.getD_eq_getElem?_getD, List.getElem?_set_ne h]

theorem getD_dropLast {α : Type _} (l : List α) (i : Nat) (d : α) (h : i < l.length - 1) :
    l.dropLast.getD i d = l.getD i d := by
  have h2 : i < l.dropLast.length := by simp [List.length_dropLast]; omega
  rw [List.getD_eq_getElem?_getD, List.getD_eq_getElem?_getD]
  rw [List.getElem?_eq_getElem h2, List.getElem?_eq_getElem (by omega)]
  simp [List.getElem_dropLast]

theorem set_dropLast_comm {α : Type _} (l : List α) (i : Nat) (v : α) (h : i < l.length - 1) :
    (l.set i v).dropLast = l.dropLast.set i v := by
  apply List.ext_getElem?
  intro j
  by_cases hj : j < l.length - 1
  · rw [List.getElem?_eq_getElem (by simp; omega), List.getElem?_eq_getElem (by simp; omega)]
    by_cases hij : i = j <;> simp [List.getElem_dropLast, List.getElem_set, hij]
  · rw [List.getElem?_eq_none (by simp; omega), List.getElem?_eq_none (by simp; omega)]

theorem getLastD_eq_getD {α : Type _} (l : List α) (d : α) :
    l.getLastD d = l.getD (l.length - 1) d := by
  rw [List.getLastD_eq_getLast?, List.getLast?_eq_getElem?]
  rw [List.getD_eq_getElem?_getD]

theorem getD_of_len_le {α : Type _} (l : List α) (i : Nat) (d : α) (h : l.length ≤ i) :
    l.getD i d = d := by
  simp [List.getD_eq_getElem?_getD, List.getElem?_eq_none h]

theorem getD_take {α : Type _} (l : List α) (n i : Nat) (d : α) (h : i < n) :
    (l.take n).getD i d = l.getD i d := by
  by_cases hl : i < l.length
  · rw [List.getD_eq_getElem?_getD, List.getD_eq_getElem?_getD, List.getElem?_take]
    simp [h]
  · have h1 : l.length ≤ i := by omega
    have h2 : (l.take n).length ≤ i := le_trans (by simp) h1
    rw [getD_of_len_le _ _ _ h2, getD_of_len_le _ _ _ h1]

theorem getD_append_left {α : Type _} (l l2 : List α) (i : Nat) (d : α) (h : i < l.length) :
    (l ++ l2).getD i d = l.getD i d := by
  rw [List.getD_eq_getElem?_getD, List.getD_eq_getElem?_getD, List.getElem?_append_left h]

theorem getD_append_right {α : Type _} (l l2 : List α) (i : Nat) (d : α) (h : l.length ≤ i) :
    (l ++ l2).getD i d = l2.getD (i - l.length) d := by
  rw [List.getD_eq_getElem?_getD, List.getD_eq_getElem?_getD, List.getElem?_append_right h]

theorem getD_mem {α : Type _} (l : List α) (i : Nat) (d : α) (h : i < l.length) :
    l.getD i d ∈ l := by
  rw [List.getD_eq_getElem?_getD, List.getElem?_eq_getElem h]
  exact List.getElem_mem h

theorem mem_iff_getD {α : Type _} (l : List α) (e d : α) :
    e ∈ l ↔ ∃ i, i < l.length ∧ l.getD i d = e := by
  constructor
  · intro h
    obtain ⟨i, hi, hget⟩ := List.mem_iff_getElem.1 h
    exact ⟨i, hi, by rw [List.getD_eq_getElem?_getD, List.getElem?_eq_getElem hi]; exact hget⟩
  · rintro ⟨i, hi, rfl⟩
    exact getD_mem l i d hi

/-! ### Basic ECS types (src/Base.hpp) -/

/- Entity identifiers and dense entity indices (both std::uint32_t in
src/Base.hpp) are modelled directly as Nat below; the omega tactic of
this toolchain does not look through type synonyms. -/

/-- Special null index, ~static_cast of 0 at 32 bits. -/
def NullEntityIndex : Nat := 4294967295

/-- Special null entity (same 32-bit pattern as NullEntityIndex). -/
def NullEntity : Nat := 4294967295

/-- Half-open range of entity identifiers. The source fields are named
begin and end; those are Lean keywords, hence the trailing underscores. -/
structure EntityRange where
  begin_ : Nat
  end_ : Nat
deriving DecidableEq, Repr

/-! ### Sparse index set (Core::SparseSet of Nat with NullEntityIndex initializer)

The paged sparse set used by both tables stores one optional Nat
per entity: an absent page and a NULL_INDEX slot are modelled alike as
none.  SparseSet itself lives in the Kube Core library, outside this
repository; its operational contract is modelled from the spec (section
4.1: insert requires a null slot, remove requires a non-null slot,
extract is get followed by remove). -/

def SparseIndex := Nat → Option Nat

/-- Empty sparse set (all slots NULL_INDEX). -/
def SparseIndex.empty : SparseIndex := fun _ => none

/-- Store a value in the slot of an entity (SparseSet::add). -/
def SparseIndex.add (s : SparseIndex) (e : Nat) (i : Nat) : SparseIndex :=
  fun x => if x = e then some i else s x

/-- Read of the reference SparseSet::at as used by the tables: the raw
slot value, NULL_INDEX when nothing was stored. -/
def SparseIndex.atRead (s : SparseIndex) (e : Nat) : Nat :=
  (s e).getD NullEntityIndex

/-- Write through the reference SparseSet::at (overwrites the slot). -/
def SparseIndex.setAt (s : SparseIndex) (e : Nat) (i : Nat) : SparseIndex :=
  fun x => if x = e then some i else s x

/-- Reset the slot of an entity to NULL_INDEX (SparseSet::remove, release
semantics: the debug precondition that the slot is non-null is modelled
separately by removeChecked). -/
def SparseIndex.remove (s : SparseIndex) (e : Nat) : SparseIndex :=
  fun x => if x = e then none else s x

/-- Modelled from the spec: SparseSet::remove debug-checks that the slot
is currently non-null (spec section 4.1); none models the failed
assertion branch. -/
def SparseIndex.removeChecked (s : SparseIndex) (e : Nat) : Option SparseIndex :=
  if (s e).isSome then some (s.remove e) else none

/-- Extract returns the previous slot value and resets the slot
(SparseSet::extract = get followed by remove). -/
def SparseIndex.extract (s : SparseIndex) (e : Nat) : Nat × SparseIndex :=
  (s.atRead e, s.remove e)

theorem SparseIndex.add_eq (s : SparseIndex) (e : Nat) (i : Nat) :
    s.add e i e = some i := by simp [SparseIndex.add]

theorem SparseIndex.add_ne (s : SparseIndex) (e : Nat) (i : Nat) (x : Nat)
    (h : x ≠ e) : s.add e i x = s x := by simp [SparseIndex.add, h]

theorem SparseIndex.setAt_eq (s : SparseIndex) (e : Nat) (i : Nat) :
    s.setAt e i e = some i := by simp [SparseIndex.setAt]

theorem SparseIndex.setAt_ne (s : SparseIndex) (e : Nat) (i : Nat) (x : Nat)
    (h : x ≠ e) : s.setAt e i x = s x := by simp [SparseIndex.setAt, h]

theorem SparseIndex.remove_eq (s : SparseIndex) (e : Nat) :
    s.remove e e = none := by simp [SparseIndex.remove]

theorem SparseIndex.remove_ne (s : SparseIndex) (e : Nat) (x : Nat) (h : x ≠ e) :
    s.remove e x = s x := by simp [SparseIndex.remove, h]

/-! ### Nat allocator (ECS::Internal::ASystem, src/System.cpp)

Only the entity-allocation state of ASystem is modelled: the id high-water
mark _lastEntity and the free-range list _freeEntities.  Nat stands in
for the 32-bit Nat; the computations below never wrap on the states
reachable under the documented preconditions (ids start at 1, freed
ranges keep begin at least 1). -/

structure ASystem where
  lastEntity : Nat
  freeEntities : List EntityRange
deriving DecidableEq, Repr

/-- Fresh allocator: _lastEntity zero-initialized, no free ranges. -/
def ASystem.init : ASystem := { lastEntity := 0, freeEntities := [] }

/-- ASystem::add: take from the front free range if any, else ++_lastEntity. -/
def ASystem.add (a : ASystem) : Nat × ASystem :=
  match a.freeEntities with
  | [] => (a.lastEntity + 1, { a with lastEntity := a.lastEntity + 1 })
  | r :: rest =>
    if r.begin_ + 1 = r.end_ then (r.begin_, { a with freeEntities := rest })
    else (r.begin_, { a with freeEntities := ⟨r.begin_ + 1, r.end_⟩ :: rest })

/-- Scan loop of ASystem::addRange: first free range holding count ids,
returning the allocated range and the updated free list. -/
def allocScan (count : Nat) : List EntityRange → Option (EntityRange × List EntityRange)
  | [] => none
  | r :: rest =>
    if r.end_ - r.begin_ < count then
      match allocScan count rest with
      | none => none
      | some (rg, rest') => some (rg, r :: rest')
    else if r.begin_ + count = r.end_ then
      some (⟨r.begin_, r.begin_ + count⟩, rest)
    else
      some (⟨r.begin_, r.begin_ + count⟩, ⟨r.begin_ + count, r.end_⟩ :: rest)

/-- ASystem::addRange: serve from the first large-enough free range, else
extend past _lastEntity. -/
def ASystem.addRange (a : ASystem) (count : Nat) : EntityRange × ASystem :=
  match allocScan count a.freeEntities with
  | some (rg, fr) => (rg, { a with freeEntities := fr })
  | none =>
    (⟨a.lastEntity + 1, a.lastEntity + 1 + count⟩,
      { a with lastEntity := a.lastEntity + count })

/-- Scan loop of ASystem::remove: find a free range adjacent to the
entity and extend it by one; none when no range is adjacent.  The test
freeRange.begin - 1 != entity is u32 arithmetic in the source; on states
where every free begin is at least 1 and the removed entity is at least
1 the Nat truncation below agrees with it. -/
def removeScan (e : Nat) : List EntityRange → Option (List EntityRange)
  | [] => none
  | r :: rest =>
    if r.begin_ - 1 ≠ e ∧ r.end_ ≠ e then
      match removeScan e rest with
      | none => none
      | some rest' => some (r :: rest')
    else if r.end_ = e then some (⟨r.begin_, r.end_ + 1⟩ :: rest)
    else some (⟨r.begin_ - 1, r.end_⟩ :: rest)

/-- ASystem::remove: unwind _lastEntity, or extend an adjacent free
range, or push a fresh single-id range at the back. -/
def ASystem.remove (a : ASystem) (e : Nat) : ASystem :=
  if e = a.lastEntity then { a with lastEntity := a.lastEntity - 1 }
  else
    match removeScan e a.freeEntities with
    | some fr => { a with freeEntities := fr }
    | none => { a with freeEntities := a.freeEntities ++ [⟨e, e + 1⟩] }

/-- Scan loop of ASystem::removeRange: find a free range adjacent to the
released range and extend it; none when no range is adjacent. -/
def removeRangeScan (rg : EntityRange) : List EntityRange → Option (List EntityRange)
  | [] => none
  | r :: rest =>
    if r.begin_ ≠ rg.end_ ∧ r.end_ ≠ rg.begin_ then
      match removeRangeScan rg rest with
      | none => none
      | some rest' => some (r :: rest')
    else if r.end_ = rg.begin_ then some (⟨r.begin_, rg.end_⟩ :: rest)
    else some (⟨rg.begin_, r.end_⟩ :: rest)

/-- ASystem::removeRange: unwind _lastEntity, or extend an adjacent free
range, or push the released range at the back. -/
def ASystem.removeRange (a : ASystem) (rg : EntityRange) : ASystem :=
  if rg.end_ - 1 = a.lastEntity then { a with lastEntity := rg.begin_ - 1 }
  else
    match removeRangeScan rg a.freeEntities with
    | some fr => { a with freeEntities := fr }
    | none => { a with freeEntities := a.freeEntities ++ [rg] }

/-- One allocator operation. -/
inductive AllocOp where
  | add : AllocOp
  | addRange (count : Nat) : AllocOp
  | remove (e : Nat) : AllocOp
  | removeRange (rg : EntityRange) : AllocOp
deriving DecidableEq, Repr

/-- Apply one allocator operation, discarding the returned id or range. -/
def AllocOp.apply (a : ASystem) : AllocOp → ASystem
  | .add => (ASystem.add a).2
  | .addRange count => (ASystem.addRange a count).2
  | .remove e => ASystem.remove a e
  | .removeRange rg => ASystem.removeRange a rg

/-- Run a list of allocator operations from a state. -/
def allocRun (a : ASystem) (ops : List AllocOp) : ASystem :=
  ops.foldl AllocOp.apply a

/-- An id is live when it was issued (in (0, last]) and is not sitting in
any free range: the documented precondition of ASystem::remove. -/
def allocLive (a : ASystem) (e : Nat) : Prop :=
  1 ≤ e ∧ e ≤ a.lastEntity ∧ ∀ r ∈ a.freeEntities, ¬(r.begin_ ≤ e ∧ e < r.end_)

instance (a : ASystem) (e : Nat) : Decidable (allocLive a e) := by
  unfold allocLive; infer_instance

/-- Precondition of each allocator operation (spec section 4.4: only live
ids may be released; a released range is wholly live and non-empty). -/
def AllocOp.pre (a : ASystem) : AllocOp → Prop
  | .add => True
  | .addRange _ => True
  | .remove e => allocLive a e
  | .removeRange rg =>
      1 ≤ rg.begin_ ∧ rg.begin_ < rg.end_ ∧ rg.end_ ≤ a.lastEntity + 1 ∧
        ∀ r ∈ a.freeEntities, rg.end_ ≤ r.begin_ ∨ r.end_ ≤ rg.begin_

instance (a : ASystem) (op : AllocOp) : Decidable (op.pre a) := by
  cases op <;> (unfold AllocOp.pre; infer_instance)

/-- All preconditions hold along a run. -/
def allocPreOk (a : ASystem) : List AllocOp → Prop
  | [] => True
  | op :: ops => op.pre a ∧ allocPreOk (op.apply a) ops

instance : ∀ (a : ASystem) (ops : List AllocOp), Decidable (allocPreOk a ops)
  | _, [] => .isTrue trivial
  | a, op :: ops =>
    have : Decidable (allocPreOk (op.apply a) ops) := instDecidableAllocPreOk _ _
    by unfold allocPreOk; infer_instance

/-- Two free ranges are disjoint as sets of ids. -/
def rangeDisjoint (r1 r2 : EntityRange) : Prop :=
  r1.end_ ≤ r2.begin_ ∨ r2.end_ ≤ r1.begin_

/-- Free-list invariant that the code actually maintains: every free
range is non-empty, starts past 0, stays within the issued ids, and the
ranges are pairwise disjoint.  (Sortedness and non-adjacency are NOT
maintained, see the C2 counterexample.) -/
def AllocInv (a : ASystem) : Prop :=
  (∀ r ∈ a.freeEntities, 1 ≤ r.begin_ ∧ r.begin_ < r.end_ ∧ r.end_ ≤ a.lastEntity + 1) ∧
  a.freeEntities.Pairwise rangeDisjoint

/-- The normalization property claimed by the spec: sorted by begin,
non-empty, disjoint and non-adjacent. -/
def NormalizedFree (l : List EntityRange) : Prop :=
  (∀ r ∈ l, r.begin_ < r.end_) ∧
  l.Pairwise (fun r1 r2 => r1.end_ < r2.begin_)

instance (l : List EntityRange) : Decidable (NormalizedFree l) := by
  unfold NormalizedFree; infer_instance

theorem getD_eq_getElem {α : Type _} (l : List α) (i : Nat) (d : α) (h : i < l.length) :
    l.getD i d = l[i] := by
  rw [List.getD_eq_getElem?_getD, List.getElem?_eq_getElem h]; rfl

theorem pairwise_set_compat {α : Type _} {R : α → α → Prop} (l : List α) (i : Nat) (v : α)
    (hp : l.Pairwise R) (hi : i < l.length)
    (h1 : ∀ j, (hj : j < l.length) → j ≠ i → R l[i] l[j] → R v l[j])
    (h2 : ∀ j, (hj : j < l.length) → j ≠ i → R l[j] l[i] → R l[j] v) :
    (l.set i v).Pairwise R := by
  rw [List.pairwise_iff_getElem] at hp ⊢
  intro a b ha hb hab
  simp only [List.length_set] at ha hb
  simp only [List.getElem_set]
  rcases eq_or_ne i a with rfl | hai
  · have hbi : i ≠ b := by omega
    rw [if_pos rfl, if_neg hbi]
    exact h1 b hb (by omega) (hp i b ha hb hab)
  · rcases eq_or_ne i b with rfl | hbi
    · rw [if_neg hai, if_pos rfl]
      exact h2 a ha (by omega) (hp a i ha hb hab)
    · rw [if_neg hai, if_neg hbi]
      exact hp a b ha hb hab

theorem removeScan_some (e : Nat) :
    ∀ (fr fr' : List EntityRange), removeScan e fr = some fr' →
    ∃ i, ∃ h : i < fr.length,
      ((fr[i].end_ = e ∧ fr' = fr.set i ⟨fr[i].begin_, fr[i].end_ + 1⟩) ∨
       (fr[i].end_ ≠ e ∧ fr[i].begin_ - 1 = e ∧ fr' = fr.set i ⟨fr[i].begin_ - 1, fr[i].end_⟩))
  | [], _, h => by simp [removeScan] at h
  | r :: rest, fr', h => by
    unfold removeScan at h
    by_cases hc : r.begin_ - 1 ≠ e ∧ r.end_ ≠ e
    · rw [if_pos hc] at h
      match hrec : removeScan e rest with
      | none => rw [hrec] at h; exact absurd h (by simp)
      | some rest' =>
        rw [hrec] at h
        obtain rfl : r :: rest' = fr' := by simpa using h
        obtain ⟨i, hi, hcase⟩ := removeScan_some e rest rest' hrec
        refine ⟨i + 1, by simpa using Nat.succ_lt_succ hi, ?_⟩
        simpa using hcase
    · rw [if_neg hc] at h
      by_cases he : r.end_ = e
      · rw [if_pos he] at h
        obtain rfl : (⟨r.begin_, r.end_ + 1⟩ : EntityRange) :: rest = fr' := by simpa using h
        exact ⟨0, by simp, Or.inl ⟨he, by simp⟩⟩
      · rw [if_neg he] at h
        obtain rfl : (⟨r.begin_ - 1, r.end_⟩ : EntityRange) :: rest = fr' := by simpa using h
        have hb : r.begin_ - 1 = e := by
          by_contra hb
          exact hc ⟨hb, he⟩
        exact ⟨0, by simp, Or.inr ⟨he, hb, by simp⟩⟩

theorem removeRangeScan_some (rg : EntityRange) :
    ∀ (fr fr' : List EntityRange), removeRangeScan rg fr = some fr' →
    ∃ i, ∃ h : i < fr.length,
      ((fr[i].end_ = rg.begin_ ∧ fr' = fr.set i ⟨fr[i].begin_, rg.end_⟩) ∨
       (fr[i].end_ ≠ rg.begin_ ∧ fr[i].begin_ = rg.end_ ∧
         fr' = fr.set i ⟨rg.begin_, fr[i].end_⟩))
  | [], _, h => by simp [removeRangeScan] at h
  | r :: rest, fr', h => by
    unfold removeRangeScan at h
    by_cases hc : r.begin_ ≠ rg.end_ ∧ r.end_ ≠ rg.begin_
    · rw [if_pos hc] at h
      match hrec : removeRangeScan rg rest with
      | none => rw [hrec] at h; exact absurd h (by simp)
      | some rest' =>
        rw [hrec] at h
        obtain rfl : r :: rest' = fr' := by simpa using h
        obtain ⟨i, hi, hcase⟩ := removeRangeScan_some rg rest rest' hrec
        refine ⟨i + 1, by simpa using Nat.succ_lt_succ hi, ?_⟩
        simpa using hcase
    · rw [if_neg hc] at h
      by_cases he : r.end_ = rg.begin_
      · rw [if_pos he] at h
        obtain rfl : (⟨r.begin_, rg.end_⟩ : EntityRange) :: rest = fr' := by simpa using h
        exact ⟨0, by simp, Or.inl ⟨he, by simp⟩⟩
      · rw [if_neg he] at h
        obtain rfl : (⟨rg.begin_, r.end_⟩ : EntityRange) :: rest = fr' := by simpa using h
        have hb : r.begin_ = rg.end_ := by
          by_contra hb
          exact hc ⟨hb, he⟩
        exact ⟨0, by simp, Or.inr ⟨he, hb, by simp⟩⟩

theorem allocScan_some (count : Nat) :
    ∀ (fr : List EntityRange) (rg : EntityRange) (fr' : List EntityRange),
    allocScan count fr = some (rg, fr') →
    ∃ i, ∃ h : i < fr.length,
      ¬(fr[i].end_ - fr[i].begin_ < count) ∧
      rg = ⟨fr[i].begin_, fr[i].begin_ + count⟩ ∧
      ((fr[i].begin_ + count = fr[i].end_ ∧ fr' = fr.eraseIdx i) ∨
       (fr[i].begin_ + count ≠ fr[i].end_ ∧
         fr' = fr.set i ⟨fr[i].begin_ + count, fr[i].end_⟩))
  | [], _, _, h => by simp [allocScan] at h
  | r :: rest, rg, fr', h => by
    unfold allocScan at h
    by_cases hc : r.end_ - r.begin_ < count
    · rw [if_pos hc] at h
      match hrec : allocScan count rest with
      | none => rw [hrec] at h; exact absurd h (by simp)
      | some (rg0, rest') =>
        rw [hrec] at h
        have hinj := Option.some.inj h
        obtain ⟨rfl, rfl⟩ : rg0 = rg ∧ r :: rest' = fr' :=
          ⟨congrArg Prod.fst hinj, congrArg Prod.snd hinj⟩
        obtain ⟨i, hi, hfit, hrg, hcase⟩ := allocScan_some count rest rg0 rest' hrec
        refine ⟨i + 1, by simpa using Nat.succ_lt_succ hi, by simpa using hfit,
          by simpa using hrg, ?_⟩
        rcases hcase with ⟨hx, rfl⟩ | ⟨hx, rfl⟩
        · exact Or.inl ⟨by simpa using hx, by simp⟩
        · exact Or.inr ⟨by simpa using hx, by simp⟩
    · rw [if_neg hc] at h
      by_cases he : r.begin_ + count = r.end_
      · rw [if_pos he] at h
        have hinj := Option.some.inj h
        obtain ⟨rfl, rfl⟩ : (⟨r.begin_, r.begin_ + count⟩ : EntityRange) = rg ∧ rest = fr' :=
          ⟨congrArg Prod.fst hinj, congrArg Prod.snd hinj⟩
        exact ⟨0, by simp, hc, by simp, Or.inl ⟨he, by simp [List.eraseIdx]⟩⟩
      · rw [if_neg he] at h
        have hinj := Option.some.inj h
        obtain ⟨rfl, rfl⟩ :
            (⟨r.begin_, r.begin_ + count⟩ : EntityRange) = rg ∧
              (⟨r.begin_ + count, r.end_⟩ : EntityRange) :: rest = fr' :=
          ⟨congrArg Prod.fst hinj, congrArg Prod.snd hinj⟩
        exact ⟨0, by simp, hc, by simp, Or.inr ⟨he, by simp⟩⟩

theorem allocInv_bounds_mono (l : List EntityRange) (n n' : Nat) (h : n ≤ n')
    (hb : ∀ r ∈ l, 1 ≤ r.begin_ ∧ r.begin_ < r.end_ ∧ r.end_ ≤ n + 1) :
    ∀ r ∈ l, 1 ≤ r.begin_ ∧ r.begin_ < r.end_ ∧ r.end_ ≤ n' + 1 := by
  intro r hr
  obtain ⟨h1, h2, h3⟩ := hb r hr
  exact ⟨h1, h2, by omega⟩

theorem allocInv_add (a : ASystem) (h : AllocInv a) : AllocInv (ASystem.add a).2 := by
  obtain ⟨hb, hp⟩ := h
  unfold ASystem.add
  split
  next heq =>
    exact ⟨allocInv_bounds_mono a.freeEntities a.lastEntity (a.lastEntity + 1)
      (Nat.le_succ _) hb, hp⟩
  next r rest heq =>
    rw [heq] at hb hp
    obtain ⟨hr0, hrest⟩ := List.pairwise_cons.1 hp
    by_cases hone : r.begin_ + 1 = r.end_
    · rw [if_pos hone]
      exact ⟨fun x hx => hb x (List.mem_cons_of_mem r hx), hrest⟩
    · rw [if_neg hone]
      refine ⟨?_, ?_⟩
      · intro x hx
        rcases List.mem_cons.1 hx with rfl | hx
        · obtain ⟨h1, h2, h3⟩ := hb r (List.mem_cons_self r rest)
          exact ⟨by dsimp only; omega, by dsimp only; omega, by dsimp only; omega⟩
        · exact hb x (List.mem_cons_of_mem r hx)
      · refine List.pairwise_cons.2 ⟨fun x hx => ?_, hrest⟩
        rcases hr0 x hx with h1 | h1
        · exact Or.inl (by dsimp only; omega)
        · exact Or.inr (by dsimp only; omega)

theorem allocInv_addRange (a : ASystem) (count : Nat) (h : AllocInv a) :
    AllocInv (ASystem.addRange a count).2 := by
  obtain ⟨hb, hp⟩ := h
  unfold ASystem.addRange
  split
  case h_2 hscan =>
    exact ⟨allocInv_bounds_mono a.freeEntities a.lastEntity (a.lastEntity + count)
      (Nat.le_add_right _ _) hb, hp⟩
  case h_1 rg fr' hscan =>
    obtain ⟨i, hi, hfit, hrg, hcase⟩ := allocScan_some count a.freeEntities rg fr' hscan
    rcases hcase with ⟨hfull, rfl⟩ | ⟨hpart, rfl⟩
    · refine ⟨fun x hx => hb x ((List.eraseIdx_sublist a.freeEntities i).subset hx), ?_⟩
      exact hp.sublist (List.eraseIdx_sublist a.freeEntities i)
    · have hmemi := List.getElem_mem hi
      obtain ⟨hb1, hb2, hb3⟩ := hb _ hmemi
      refine ⟨?_, ?_⟩
      · intro x hx
        rcases List.mem_or_eq_of_mem_set hx with hx | rfl
        · exact hb x hx
        · exact ⟨by dsimp only; omega, by dsimp only; omega, by dsimp only; omega⟩
      · refine pairwise_set_compat _ i _ hp hi ?_ ?_
        · intro j hj hji hR
          rcases hR with h1 | h1
          · exact Or.inl (by dsimp only; omega)
          · exact Or.inr (by dsimp only; omega)
        · intro j hj hji hR
          rcases hR with h1 | h1
          · exact Or.inl (by dsimp only; omega)
          · exact Or.inr (by dsimp only; omega)

theorem allocInv_remove (a : ASystem) (e : Nat) (h : AllocInv a)
    (hpre : allocLive a e) : AllocInv (ASystem.remove a e) := by
  obtain ⟨hb, hp⟩ := h
  obtain ⟨he1, he2, he3⟩ := hpre
  unfold ASystem.remove
  by_cases hlast : e = a.lastEntity
  · rw [if_pos hlast]
    refine ⟨fun r hr => ?_, hp⟩
    obtain ⟨h1, h2, h3⟩ := hb r hr
    have h4 := he3 r hr
    simp only
    omega
  · rw [if_neg hlast]
    split
    next fr' hscan =>
      obtain ⟨i, hi, hcase⟩ := removeScan_some e a.freeEntities fr' hscan
      have hmemi := List.getElem_mem hi
      obtain ⟨hb1, hb2, hb3⟩ := hb _ hmemi
      have hnoti := he3 _ hmemi
      rcases hcase with ⟨hend, rfl⟩ | ⟨hend, hstart, rfl⟩
      · refine ⟨?_, ?_⟩
        · intro x hx
          rcases List.mem_or_eq_of_mem_set hx with hx | rfl
          · exact hb x hx
          · exact ⟨by dsimp only; omega, by dsimp only; omega, by dsimp only; omega⟩
        · refine pairwise_set_compat _ i _ hp hi ?_ ?_
          · intro j hj hji hR
            have hmemj := List.getElem_mem hj
            obtain ⟨hc1, hc2, hc3⟩ := hb _ hmemj
            have hnotj := he3 _ hmemj
            rcases hR with h1 | h1
            · exact Or.inl (by dsimp only; omega)
            · exact Or.inr (by dsimp only; omega)
          · intro j hj hji hR
            have hmemj := List.getElem_mem hj
            obtain ⟨hc1, hc2, hc3⟩ := hb _ hmemj
            have hnotj := he3 _ hmemj
            rcases hR with h1 | h1
            · exact Or.inl (by dsimp only; omega)
            · exact Or.inr (by dsimp only; omega)
      · refine ⟨?_, ?_⟩
        · intro x hx
          rcases List.mem_or_eq_of_mem_set hx with hx | rfl
          · exact hb x hx
          · exact ⟨by dsimp only; omega, by dsimp only; omega, by dsimp only; omega⟩
        · refine pairwise_set_compat _ i _ hp hi ?_ ?_
          · intro j hj hji hR
            have hmemj := List.getElem_mem hj
            obtain ⟨hc1, hc2, hc3⟩ := hb _ hmemj
            have hnotj := he3 _ hmemj
            rcases hR with h1 | h1
            · exact Or.inl (by dsimp only; omega)
            · exact Or.inr (by dsimp only; omega)
          · intro j hj hji hR
            have hmemj := List.getElem_mem hj
            obtain ⟨hc1, hc2, hc3⟩ := hb _ hmemj
            have hnotj := he3 _ hmemj
            rcases hR with h1 | h1
            · exact Or.inl (by dsimp only; omega)
            · exact Or.inr (by dsimp only; omega)
    next hscan =>
      refine ⟨?_, ?_⟩
      · intro x hx
        rcases List.mem_append.1 hx with hx | hx
        · exact hb x hx
        · obtain rfl : x = ⟨e, e + 1⟩ := by simpa using hx
          exact ⟨he1, by dsimp only; omega, by dsimp only; omega⟩
      · rw [List.pairwise_append]
        refine ⟨hp, by simp [rangeDisjoint], fun x hx y hy => ?_⟩
        obtain rfl : y = ⟨e, e + 1⟩ := by simpa using hy
        obtain ⟨hc1, hc2, hc3⟩ := hb x hx
        have hnot := he3 x hx
        simp only [rangeDisjoint]
        omega

theorem allocInv_removeRange (a : ASystem) (rg : EntityRange) (h : AllocInv a)
    (hpre : 1 ≤ rg.begin_ ∧ rg.begin_ < rg.end_ ∧ rg.end_ ≤ a.lastEntity + 1 ∧
      ∀ r ∈ a.freeEntities, rg.end_ ≤ r.begin_ ∨ r.end_ ≤ rg.begin_) :
    AllocInv (ASystem.removeRange a rg) := by
  obtain ⟨hb, hp⟩ := h
  obtain ⟨hg1, hg2, hg3, hg4⟩ := hpre
  unfold ASystem.removeRange
  by_cases hlast : rg.end_ - 1 = a.lastEntity
  · rw [if_pos hlast]
    refine ⟨fun r hr => ?_, hp⟩
    obtain ⟨h1, h2, h3⟩ := hb r hr
    rcases hg4 r hr with h4 | h4 <;> (simp only; omega)
  · rw [if_neg hlast]
    split
    next fr' hscan =>
      obtain ⟨i, hi, hcase⟩ := removeRangeScan_some rg a.freeEntities fr' hscan
      have hmemi := List.getElem_mem hi
      obtain ⟨hb1, hb2, hb3⟩ := hb _ hmemi
      have hdisji := hg4 _ hmemi
      rcases hcase with ⟨hend, rfl⟩ | ⟨hend, hstart, rfl⟩
      · refine ⟨?_, ?_⟩
        · intro x hx
          rcases List.mem_or_eq_of_mem_set hx with hx | rfl
          · exact hb x hx
          · exact ⟨by dsimp only; omega, by dsimp only; omega, by dsimp only; omega⟩
        · refine pairwise_set_compat _ i _ hp hi ?_ ?_
          · intro j hj hji hR
            have hmemj := List.getElem_mem hj
            obtain ⟨hc1, hc2, hc3⟩ := hb _ hmemj
            have hdisjj := hg4 _ hmemj
            rcases hR with h1 | h1 <;> rcases hdisjj with h2 | h2
            · exact Or.inl (by dsimp only; omega)
            · exact Or.inl (by dsimp only; omega)
            · exact Or.inl (by dsimp only; omega)
            · exact Or.inr (by dsimp only; omega)
          · intro j hj hji hR
            have hmemj := List.getElem_mem hj
            obtain ⟨hc1, hc2, hc3⟩ := hb _ hmemj
            have hdisjj := hg4 _ hmemj
            rcases hR with h1 | h1 <;> rcases hdisjj with h2 | h2
            · exact Or.inl (by dsimp only; omega)
            · exact Or.inl (by dsimp only; omega)
            · exact Or.inr (by dsimp only; omega)
            · exact Or.inr (by dsimp only; omega)
      · refine ⟨?_, ?_⟩
        · intro x hx
          rcases List.mem_or_eq_of_mem_set hx with hx | rfl
          · exact hb x hx
          · exact ⟨by dsimp only; omega, by dsimp only; omega, by dsimp only; omega⟩
        · refine pairwise_set_compat _ i _ hp hi ?_ ?_
          · intro j hj hji hR
            have hmemj := List.getElem_mem hj
            obtain ⟨hc1, hc2, hc3⟩ := hb _ hmemj
            have hdisjj := hg4 _ hmemj
            rcases hR with h1 | h1 <;> rcases hdisjj with h2 | h2
            · exact Or.inl (by dsimp only; omega)
            · exact Or.inl (by dsimp only; omega)
            · exact Or.inl (by dsimp only; omega)
            · exact Or.inr (by dsimp only; omega)
          · intro j hj hji hR
            have hmemj := List.getElem_mem hj
            obtain ⟨hc1, hc2, hc3⟩ := hb _ hmemj
            have hdisjj := hg4 _ hmemj
            rcases hR with h1 | h1 <;> rcases hdisjj with h2 | h2
            · exact Or.inl (by dsimp only; omega)
            · exact Or.inl (by dsimp only; omega)
            · exact Or.inr (by dsimp only; omega)
            · exact Or.inr (by dsimp only; omega)
    next hscan =>
      refine ⟨?_, ?_⟩
      · intro x hx
        rcases List.mem_append.1 hx with hx | hx
        · exact hb x hx
        · obtain rfl : x = rg := by simpa using hx
          exact ⟨hg1, hg2, by dsimp only; omega⟩
      · rw [List.pairwise_append]
        refine ⟨hp, by simp [rangeDisjoint], fun x hx y hy => ?_⟩
        obtain rfl : y = rg := by simpa using hy
        rcases hg4 x hx with h4 | h4
        · exact Or.inr h4
        · exact Or.inl h4

theorem allocInv_apply (a : ASystem) (op : AllocOp) (h : AllocInv a) (hpre : op.pre a) :
    AllocInv (op.apply a) := by
  cases op with
  | add => exact allocInv_add a h
  | addRange count => exact allocInv_addRange a count h
  | remove e => exact allocInv_remove a e h hpre
  | removeRange rg => exact allocInv_removeRange a rg h hpre

theorem allocInv_run : ∀ (ops : List AllocOp) (a : ASystem),
    AllocInv a → allocPreOk a ops → AllocInv (allocRun a ops)
  | [], _, h, _ => h
  | op :: ops, a, h, hpre =>
    allocInv_run ops (op.apply a) (allocInv_apply a op h hpre.1) hpre.2

/-- C2 counterexample: on the fresh allocator, issue ids 1..6, then
release 3, 5 and finally 4.  Releasing 4 extends the free range [3,4)
to [3,5), leaving it adjacent to the already-free [5,6) without merging
the two, so the free list is not normalized.  A second valid sequence
(release 4 then 2) leaves the free list out of order by begin.  Both
sequences satisfy every operation precondition. -/
theorem allocator_free_list_not_normalized_counterexample :
    (allocPreOk ASystem.init
        [AllocOp.add, AllocOp.add, AllocOp.add, AllocOp.add, AllocOp.add, AllocOp.add,
          AllocOp.remove 3, AllocOp.remove 5, AllocOp.remove 4] ∧
      (allocRun ASystem.init
        [AllocOp.add, AllocOp.add, AllocOp.add, AllocOp.add, AllocOp.add, AllocOp.add,
          AllocOp.remove 3, AllocOp.remove 5, AllocOp.remove 4]).freeEntities =
        [⟨3, 5⟩, ⟨5, 6⟩] ∧
      ¬ NormalizedFree (allocRun ASystem.init
        [AllocOp.add, AllocOp.add, AllocOp.add, AllocOp.add, AllocOp.add, AllocOp.add,
          AllocOp.remove 3, AllocOp.remove 5, AllocOp.remove 4]).freeEntities) ∧
    (allocPreOk ASystem.init
        [AllocOp.add, AllocOp.add, AllocOp.add, AllocOp.add, AllocOp.add, AllocOp.add,
          AllocOp.remove 4, AllocOp.remove 2] ∧
      (allocRun ASystem.init
        [AllocOp.add, AllocOp.add, AllocOp.add, AllocOp.add, AllocOp.add, AllocOp.add,
          AllocOp.remove 4, AllocOp.remove 2]).freeEntities = [⟨4, 5⟩, ⟨2, 3⟩] ∧
      ¬ (allocRun ASystem.init
        [AllocOp.add, AllocOp.add, AllocOp.add, AllocOp.add, AllocOp.add, AllocOp.add,
          AllocOp.remove 4, AllocOp.remove 2]).freeEntities.Pairwise
          (fun r1 r2 => r1.begin_ ≤ r2.begin_)) := by
  decide

/-- C2 (amended): after every entity-allocator operation (add, addRange,
remove, removeRange) whose precondition holds, the free-range list keeps
every range non-empty, within the issued ids, and pairwise disjoint; the
list is however neither kept sorted by begin nor non-adjacent, and
neighboring ranges that become adjacent are never merged. -/
theorem allocator_free_ranges_stay_disjoint (ops : List AllocOp)
    (h : allocPreOk ASystem.init ops) :
    AllocInv (allocRun ASystem.init ops) :=
  allocInv_run ops ASystem.init
    ⟨fun r hr => absurd hr (List.not_mem_nil r), List.Pairwise.nil⟩ h

theorem allocator_free_ranges_stay_disjoint_witness :
    allocPreOk ASystem.init
      [AllocOp.add, AllocOp.add, AllocOp.add, AllocOp.remove 2, AllocOp.remove 1] ∧
    AllocInv (allocRun ASystem.init
      [AllocOp.add, AllocOp.add, AllocOp.add, AllocOp.remove 2, AllocOp.remove 1]) :=
  ⟨by decide, allocator_free_ranges_stay_disjoint _ (by decide)⟩

/-- C7: on a fresh entity allocator, five adds return 1,2,3,4,5 (never
0); after remove(3) and remove(4) the freed ids coalesce into the range
[3,5), and the next two adds return 3 then 4, shrinking that range from
the front; a subsequent remove(5) decrements last to 4 directly, leaving
the (empty) free list untouched. -/
theorem allocator_recycling_scenario :
    (ASystem.init.add.1 = 1 ∧ ASystem.init.add.2.add.1 = 2 ∧
      ASystem.init.add.2.add.2.add.1 = 3 ∧ ASystem.init.add.2.add.2.add.2.add.1 = 4 ∧
      ASystem.init.add.2.add.2.add.2.add.2.add.1 = 5) ∧
    (((ASystem.init.add.2.add.2.add.2.add.2.add.2.remove 3).remove 4).freeEntities =
        [⟨3, 5⟩] ∧
      ((ASystem.init.add.2.add.2.add.2.add.2.add.2.remove 3).remove 4).add.1 = 3 ∧
      ((ASystem.init.add.2.add.2.add.2.add.2.add.2.remove 3).remove 4).add.2.add.1 = 4 ∧
      ((ASystem.init.add.2.add.2.add.2.add.2.add.2.remove 3).remove 4).add.2.add.2.freeEntities
        = []) ∧
    ((((ASystem.init.add.2.add.2.add.2.add.2.add.2.remove 3).remove 4).add.2.add.2.remove 5).lastEntity = 4 ∧
      (((ASystem.init.add.2.add.2.add.2.add.2.add.2.remove 3).remove 4).add.2.add.2.remove 5).freeEntities =
        ((ASystem.init.add.2.add.2.add.2.add.2.add.2.remove 3).remove 4).add.2.add.2.freeEntities) := by
  decide

/-! ### Dense component table (kF::ECS::ComponentTable, src/ComponentTable.hpp/.ipp)

The table owns the sparse index set, the packed entity list and the
packed component list; components are parametrized over an arbitrary
inhabited payload type (Inhabited stands in for the uninitialized reads
that back() would perform on an empty vector, which the preconditions
rule out). -/

structure DenseTable (α : Type _) where
  indexSet : SparseIndex
  entities : List Nat
  components : List α

/-- Default-constructed table. -/
def DenseTable.empty {α : Type _} : DenseTable α :=
  ⟨SparseIndex.empty, [], []⟩

/-- ComponentTable::count: the number of stored components. -/
def DenseTable.count {α : Type _} (t : DenseTable α) : Nat :=
  t.entities.length

/-- ComponentTable::exists: linear find of the entity in _entities. -/
def DenseTable.existsEntity {α : Type _} (t : DenseTable α) (e : Nat) : Prop :=
  e ∈ t.entities

instance {α : Type _} (t : DenseTable α) (e : Nat) : Decidable (t.existsEntity e) := by
  unfold DenseTable.existsEntity; infer_instance

/-- ComponentTable::findIndex: the position of the entity in _entities,
none standing for NullEntityIndex. -/
def DenseTable.findIndex {α : Type _} (t : DenseTable α) (e : Nat) : Option Nat :=
  List.findIdx? (fun x => x == e) t.entities

/-- ComponentTable::get: _components.at(_indexSet.at(entity)). -/
def DenseTable.get {α : Type _} [Inhabited α] (t : DenseTable α) (e : Nat) : α :=
  t.components.getD (t.indexSet.atRead e) default

/-- ComponentTable::addImpl: record the next dense index for the entity,
push the entity, push the component. -/
def DenseTable.addImpl {α : Type _} (t : DenseTable α) (e : Nat) (v : α) : DenseTable α :=
  { indexSet := t.indexSet.add e t.entities.length
    entities := t.entities ++ [e]
    components := t.components ++ [v] }

/-- ComponentTable::add; the kFAssert precondition (entity not present)
is debug-only, release semantics forward to addImpl. -/
def DenseTable.add {α : Type _} (t : DenseTable α) (e : Nat) (v : α) : DenseTable α :=
  t.addImpl e v

/-- ComponentTable::tryAdd (component overload): overwrite through get
when the entity is present, else addImpl. -/
def DenseTable.tryAdd {α : Type _} (t : DenseTable α) (e : Nat) (v : α) : DenseTable α :=
  match t.findIndex e with
  | some _ => { t with components := t.components.set (t.indexSet.atRead e) v }
  | none => t.addImpl e v

/-- ComponentTable::addRange: append the entities of the range, register
their indices starting at the old size, and append copies of the
component. -/
def DenseTable.addRange {α : Type _} (t : DenseTable α) (r : EntityRange) (v : α) :
    DenseTable α :=
  { indexSet := (List.range (r.end_ - r.begin_)).foldl
      (fun s i => s.add (r.begin_ + i) (t.entities.length + i)) t.indexSet
    entities := t.entities ++ (List.range (r.end_ - r.begin_)).map (fun i => r.begin_ + i)
    components := t.components ++ List.replicate (r.end_ - r.begin_) v }

/-- ComponentTable::removeImpl: unless the entity holds the last dense
slot, move the last entity/component pair into its slot and repoint the
sparse index of that moved entity; then reset the removed entity's slot
and pop both tails. -/
def DenseTable.removeImpl {α : Type _} [Inhabited α] (t : DenseTable α) (e : Nat) (ci : Nat) :
    DenseTable α :=
  if t.components.length ≠ ci + 1 then
    { indexSet := (t.indexSet.setAt (t.entities.getLastD NullEntity) ci).remove e
      entities := (t.entities.set ci (t.entities.getLastD NullEntity)).dropLast
      components := (t.components.set ci (t.components.getLastD default)).dropLast }
  else
    { indexSet := t.indexSet.remove e
      entities := t.entities.dropLast
      components := t.components.dropLast }

/-- ComponentTable::remove: removeImpl at the index extracted from the
sparse set (note: removeImpl resets the already-reset slot once more). -/
def DenseTable.remove {α : Type _} [Inhabited α] (t : DenseTable α) (e : Nat) : DenseTable α :=
  DenseTable.removeImpl { t with indexSet := (t.indexSet.extract e).2 } e
    (t.indexSet.extract e).1

/-- ComponentTable::tryRemove: false on a missing entity, else removeImpl
at the linear-scan index and true. -/
def DenseTable.tryRemove {α : Type _} [Inhabited α] (t : DenseTable α) (e : Nat) :
    Bool × DenseTable α :=
  match t.findIndex e with
  | some i => (true, t.removeImpl e i)
  | none => (false, t)

/-- ComponentTable::extract: read the component at the extracted index,
swap-remove without the extra slot reset, and return the value. -/
def DenseTable.extract {α : Type _} [Inhabited α] (t : DenseTable α) (e : Nat) :
    α × DenseTable α :=
  (t.components.getD (t.indexSet.atRead e) default,
    if t.components.length ≠ t.indexSet.atRead e + 1 then
      { indexSet := (t.indexSet.remove e).setAt (t.entities.getLastD NullEntity)
          (t.indexSet.atRead e)
        entities := (t.entities.set (t.indexSet.atRead e) (t.entities.getLastD NullEntity)).dropLast
        components :=
          (t.components.set (t.indexSet.atRead e) (t.components.getLastD default)).dropLast }
    else
      { indexSet := t.indexSet.remove e
        entities := t.entities.dropLast
        components := t.components.dropLast })

/-- ComponentTable::clear: clearUnsafe the sparse pages (every slot back
to NULL_INDEX), clear both vectors. -/
def DenseTable.clear {α : Type _} (_t : DenseTable α) : DenseTable α :=
  ⟨SparseIndex.empty, [], []⟩

/-- Well-formedness of a dense table: dense arrays in lockstep, sparse
index aligned with the entity positions, and a null slot for every
absent entity. -/
def DenseWf {α : Type _} (t : DenseTable α) : Prop :=
  t.entities.length = t.components.length ∧
  (∀ i, i < t.entities.length → t.indexSet (t.entities.getD i NullEntity) = some i) ∧
  (∀ e, e ∉ t.entities → t.indexSet e = none)

theorem denseWf_empty {α : Type _} : DenseWf (DenseTable.empty (α := α)) := by
  refine ⟨rfl, fun i hi => absurd hi (by simp [DenseTable.empty]), fun e _ => rfl⟩

theorem DenseWf.getD_injective {α : Type _} {t : DenseTable α} (h : DenseWf t)
    {i j : Nat} (hi : i < t.entities.length) (hj : j < t.entities.length)
    (heq : t.entities.getD i NullEntity = t.entities.getD j NullEntity) : i = j := by
  have h1 := h.2.1 i hi
  have h2 := h.2.1 j hj
  rw [heq] at h1
  exact Option.some.inj (h1.symm.trans h2)

theorem DenseWf.nodup {α : Type _} {t : DenseTable α} (h : DenseWf t) : t.entities.Nodup := by
  rw [List.nodup_iff_injective_getElem]
  intro ⟨i, hi⟩ ⟨j, hj⟩ heq
  have heqD : t.entities.getD i NullEntity = t.entities.getD j NullEntity := by
    rw [getD_eq_getElem _ _ _ hi, getD_eq_getElem _ _ _ hj]
    exact heq
  exact Fin.ext (h.getD_injective hi hj heqD)

theorem DenseWf.index_of_mem {α : Type _} {t : DenseTable α} (h : DenseWf t) {e : Nat}
    (hmem : e ∈ t.entities) :
    ∃ i, i < t.entities.length ∧ t.entities.getD i NullEntity = e ∧
      t.indexSet e = some i := by
  obtain ⟨i, hi, rfl⟩ := (mem_iff_getD t.entities e NullEntity).1 hmem
  exact ⟨i, hi, rfl, h.2.1 i hi⟩

theorem DenseWf.index_unique {α : Type _} {t : DenseTable α} (h : DenseWf t) {e : Nat} {i : Nat}
    (hidx : t.indexSet e = some i) :
    i < t.entities.length ∧ t.entities.getD i NullEntity = e := by
  by_cases hmem : e ∈ t.entities
  · obtain ⟨j, hj, hget, hj2⟩ := h.index_of_mem hmem
    obtain rfl : j = i := Option.some.inj (hj2.symm.trans hidx)
    exact ⟨hj, hget⟩
  · rw [h.2.2 e hmem] at hidx
    exact absurd hidx (by simp)

theorem DenseTable.findIndex_some {α : Type _} {t : DenseTable α} {e : Nat} {i : Nat}
    (h : t.findIndex e = some i) :
    i < t.entities.length ∧ t.entities.getD i NullEntity = e := by
  obtain ⟨hlt, hp, _⟩ := List.findIdx?_eq_some_iff_getElem.1 h
  refine ⟨hlt, ?_⟩
  rw [getD_eq_getElem _ _ _ hlt]
  exact Nat.eq_of_beq_eq_true (by simpa using hp)

theorem DenseTable.findIndex_none {α : Type _} {t : DenseTable α} {e : Nat}
    (h : t.findIndex e = none) : e ∉ t.entities := by
  intro hmem
  have := List.findIdx?_eq_none_iff.1 h e hmem
  simp at this

theorem DenseTable.findIndex_of_mem {α : Type _} {t : DenseTable α} {e : Nat}
    (hmem : e ∈ t.entities) : ∃ i, t.findIndex e = some i := by
  match hf : t.findIndex e with
  | some i => exact ⟨i, rfl⟩
  | none => exact absurd hmem (DenseTable.findIndex_none hf)

/-! ### Preservation of well-formedness by the dense-table operations -/

theorem foldRangeAdd_ne (b len : Nat) :
    ∀ (n : Nat) (s : SparseIndex) (x : Nat), (∀ j, j < n → x ≠ b + j) →
    ((List.range n).foldl (fun s i => s.add (b + i) (len + i)) s) x = s x
  | 0, s, x, _ => rfl
  | n + 1, s, x, hx => by
    rw [List.range_succ, List.foldl_append]
    have hstep : ∀ s' : SparseIndex,
        List.foldl (fun s i => s.add (b + i) (len + i)) s' [n] = s'.add (b + n) (len + n) :=
      fun s' => rfl
    rw [hstep, SparseIndex.add_ne _ _ _ _ (hx n (by omega))]
    exact foldRangeAdd_ne b len n s x fun j hj => hx j (by omega)

theorem foldRangeAdd_eq (b len : Nat) :
    ∀ (n : Nat) (s : SparseIndex) (j : Nat), j < n →
    ((List.range n).foldl (fun s i => s.add (b + i) (len + i)) s) (b + j) = some (len + j)
  | 0, _, _, hj => absurd hj (by omega)
  | n + 1, s, j, hj => by
    rw [List.range_succ, List.foldl_append]
    have hstep : ∀ s' : SparseIndex,
        List.foldl (fun s i => s.add (b + i) (len + i)) s' [n] = s'.add (b + n) (len + n) :=
      fun s' => rfl
    rw [hstep]
    by_cases hjn : j = n
    · subst hjn
      exact SparseIndex.add_eq _ _ _
    · rw [SparseIndex.add_ne _ _ _ _ (by omega)]
      exact foldRangeAdd_eq b len n s j (by omega)

theorem nodup_getD_inj {α : Type _} {l : List α} (h : l.Nodup) {i j : Nat} (d : α)
    (hi : i < l.length) (hj : j < l.length) (heq : l.getD i d = l.getD j d) : i = j := by
  rw [List.nodup_iff_injective_getElem] at h
  have hfin : (⟨i, hi⟩ : Fin l.length) = ⟨j, hj⟩ := by
    apply h
    rw [getD_eq_getElem _ _ _ hi, getD_eq_getElem _ _ _ hj] at heq
    exact heq
  exact congrArg Fin.val hfin

theorem getD_map_range_add (b n j d : Nat) (hj : j < n) :
    ((List.range n).map (fun i => b + i)).getD j d = b + j := by
  rw [getD_eq_getElem _ _ _ (by simpa using hj)]
  simp

theorem denseWf_addImpl {α : Type _} {t : DenseTable α} (h : DenseWf t) {e : Nat}
    (he : e ∉ t.entities) (v : α) : DenseWf (t.addImpl e v) := by
  obtain ⟨hlen, halign, habsent⟩ := h
  refine ⟨by simp [DenseTable.addImpl, hlen], ?_, ?_⟩
  · intro i hi
    simp only [DenseTable.addImpl, List.length_append, List.length_cons,
      List.length_nil] at hi ⊢
    by_cases hilt : i < t.entities.length
    · rw [getD_append_left _ _ _ _ hilt]
      have hne : t.entities.getD i NullEntity ≠ e := fun hcontra =>
        he (hcontra ▸ getD_mem _ _ _ hilt)
      rw [SparseIndex.add_ne _ _ _ _ hne]
      exact halign i hilt
    · have hieq : i = t.entities.length := by omega
      subst hieq
      rw [getD_append_right _ _ _ _ (le_refl _), Nat.sub_self]
      exact SparseIndex.add_eq _ _ _
  · intro x hx
    simp only [DenseTable.addImpl, List.mem_append, List.mem_singleton] at hx ⊢
    push_neg at hx
    rw [SparseIndex.add_ne _ _ _ _ hx.2]
    exact habsent x hx.1

theorem denseWf_add {α : Type _} {t : DenseTable α} (h : DenseWf t) {e : Nat}
    (he : e ∉ t.entities) (v : α) : DenseWf (t.add e v) :=
  denseWf_addImpl h he v

theorem denseWf_tryAdd {α : Type _} {t : DenseTable α} (h : DenseWf t) (e : Nat) (v : α) :
    DenseWf (t.tryAdd e v) := by
  unfold DenseTable.tryAdd
  match hf : t.findIndex e with
  | some i =>
    obtain ⟨hlen, halign, habsent⟩ := h
    exact ⟨by simpa using hlen, halign, habsent⟩
  | none =>
    exact denseWf_addImpl h (DenseTable.findIndex_none hf) v

theorem denseWf_addRange {α : Type _} {t : DenseTable α} (h : DenseWf t) {r : EntityRange}
    (hpre : ∀ x ∈ t.entities, x < r.begin_ ∨ r.end_ ≤ x) (v : α) :
    DenseWf (t.addRange r v) := by
  obtain ⟨hlen, halign, habsent⟩ := h
  have hnotin : ∀ x ∈ t.entities, ∀ j, j < r.end_ - r.begin_ → x ≠ r.begin_ + j := by
    intro x hx j hj
    rcases hpre x hx with h1 | h1 <;> omega
  refine ⟨by simp [DenseTable.addRange, hlen], ?_, ?_⟩
  · intro i hi
    simp only [DenseTable.addRange, List.length_append, List.length_map,
      List.length_range] at hi ⊢
    by_cases hilt : i < t.entities.length
    · rw [getD_append_left _ _ _ _ hilt]
      rw [foldRangeAdd_ne _ _ _ _ _ (hnotin _ (getD_mem _ _ _ hilt))]
      exact halign i hilt
    · have hj : i - t.entities.length < r.end_ - r.begin_ := by omega
      rw [getD_append_right _ _ _ _ (by omega), getD_map_range_add _ _ _ _ hj]
      rw [foldRangeAdd_eq _ _ _ _ _ hj]
      congr 1
      omega
  · intro x hx
    simp only [DenseTable.addRange, List.mem_append, List.mem_map,
      List.mem_range] at hx ⊢
    push_neg at hx
    rw [foldRangeAdd_ne _ _ _ _ x (fun j hj heq => hx.2 j hj heq.symm)]
    exact habsent x hx.1

theorem denseWf_removeImpl {α : Type _} [Inhabited α] (t : DenseTable α) (e : Nat) (ci : Nat)
    (hlen : t.entities.length = t.components.length)
    (hci : ci < t.entities.length)
    (hent : t.entities.getD ci NullEntity = e)
    (halign : ∀ i, i < t.entities.length → i ≠ ci →
      t.indexSet (t.entities.getD i NullEntity) = some i)
    (habsent : ∀ x, x ∉ t.entities → t.indexSet x = none)
    (hnodup : t.entities.Nodup) :
    DenseWf (t.removeImpl e ci) := by
  unfold DenseTable.removeImpl
  by_cases hcond : t.components.length ≠ ci + 1
  · rw [if_pos hcond]
    have hlast : ci ≠ t.entities.length - 1 := by omega
    have hlastlt : t.entities.length - 1 < t.entities.length := by omega
    set lastE := t.entities.getLastD NullEntity with hlastE
    have hlastD : lastE = t.entities.getD (t.entities.length - 1) NullEntity :=
      getLastD_eq_getD _ _
    have hlne : lastE ≠ e := by
      rw [hlastD, ← hent]
      intro hcontra
      exact hlast (nodup_getD_inj hnodup NullEntity hlastlt hci hcontra).symm
    have hmem' : ∀ x, x ∈ (t.entities.set ci lastE).dropLast ↔
        ∃ i, i < t.entities.length - 1 ∧ (t.entities.set ci lastE).getD i NullEntity = x := by
      intro x
      rw [mem_iff_getD _ x NullEntity]
      constructor
      · rintro ⟨i, hi, hx⟩
        rw [List.length_dropLast, List.length_set] at hi
        rw [getD_dropLast _ _ _ (by simpa using hi)] at hx
        exact ⟨i, hi, hx⟩
      · rintro ⟨i, hi, hx⟩
        refine ⟨i, by simpa using hi, ?_⟩
        rw [getD_dropLast _ _ _ (by simpa using hi)]
        exact hx
    refine ⟨?_, ?_, ?_⟩
    · simp only [List.length_dropLast, List.length_set]
      omega
    · intro i hi
      simp only [List.length_dropLast, List.length_set] at hi
      rw [getD_dropLast _ _ _ (by simpa using hi)]
      by_cases hici : i = ci
      · subst hici
        rw [getD_set_self _ _ _ _ hci]
        dsimp only
        rw [SparseIndex.remove_ne _ _ _ hlne, SparseIndex.setAt_eq]
      · rw [getD_set_ne _ _ _ _ _ (fun hcontra => hici hcontra.symm)]
        have hxe : t.entities.getD i NullEntity ≠ e := by
          rw [← hent]
          intro hcontra
          exact hici (nodup_getD_inj hnodup NullEntity (by omega) hci hcontra)
        have hxl : t.entities.getD i NullEntity ≠ lastE := by
          rw [hlastD]
          intro hcontra
          exact absurd (nodup_getD_inj hnodup NullEntity (by omega) hlastlt hcontra) (by omega)
        dsimp only
        rw [SparseIndex.remove_ne _ _ _ hxe, SparseIndex.setAt_ne _ _ _ _ hxl]
        exact halign i (by omega) hici
    · intro x hx
      rw [hmem'] at hx
      push_neg at hx
      by_cases hxe : x = e
      · subst hxe
        exact SparseIndex.remove_eq _ _
      · dsimp only
        have hxl : x ≠ lastE := by
          intro hcontra
          subst hcontra
          exact absurd (getD_set_self t.entities ci lastE NullEntity hci)
            (fun hc => (hx ci (by omega)) hc)
        rw [SparseIndex.remove_ne _ _ _ hxe, SparseIndex.setAt_ne _ _ _ _ hxl]
        refine habsent x ?_
        intro hmem
        obtain ⟨j, hj, hget⟩ := (mem_iff_getD t.entities x NullEntity).1 hmem
        rcases eq_or_ne j (t.entities.length - 1) with rfl | hjlast
        · exact hxl (hlastD.trans hget).symm
        · rcases eq_or_ne j ci with rfl | hjci
          · exact hxe (hget.symm.trans hent)
          · refine hx j (by omega) ?_
            rw [getD_set_ne _ _ _ _ _ (fun hcontra => hjci hcontra.symm)]
            exact hget
  · rw [if_neg hcond]
    have hcieq : ci = t.entities.length - 1 := by omega
    refine ⟨?_, ?_, ?_⟩
    · simp only [List.length_dropLast]
      omega
    · intro i hi
      simp only [List.length_dropLast] at hi
      rw [getD_dropLast _ _ _ hi]
      have hxe : t.entities.getD i NullEntity ≠ e := by
        rw [← hent]
        intro hcontra
        exact absurd (nodup_getD_inj hnodup NullEntity (by omega) hci hcontra) (by omega)
      dsimp only
      rw [SparseIndex.remove_ne _ _ _ hxe]
      exact halign i (by omega) (by omega)
    · intro x hx
      by_cases hxe : x = e
      · subst hxe
        exact SparseIndex.remove_eq _ _
      · dsimp only
        rw [SparseIndex.remove_ne _ _ _ hxe]
        refine habsent x ?_
        intro hmem
        obtain ⟨j, hj, hget⟩ := (mem_iff_getD t.entities x NullEntity).1 hmem
        by_cases hjlast : j = t.entities.length - 1
        · subst hjlast
          rw [← hcieq] at hget
          exact hxe (hget ▸ hent.symm ▸ rfl)
        · refine hx ?_
          rw [mem_iff_getD _ x NullEntity]
          refine ⟨j, ?_, ?_⟩
          · rw [List.length_dropLast]
            omega
          · rw [getD_dropLast _ _ _ (by omega)]
            exact hget

theorem DenseWf.findIndex_eq {α : Type _} {t : DenseTable α} (h : DenseWf t) {e ci : Nat}
    (hidx : t.indexSet e = some ci) : t.findIndex e = some ci := by
  obtain ⟨hci, hget⟩ := h.index_unique hidx
  apply List.findIdx?_eq_some_iff_getElem.2
  refine ⟨hci, ?_, ?_⟩
  · simp only [beq_iff_eq]
    rw [← getD_eq_getElem _ _ NullEntity hci]
    exact hget
  · intro j hj hc
    have hc2 : t.entities.getD j NullEntity = e := by
      rw [getD_eq_getElem _ _ NullEntity (by omega)]
      exact Nat.eq_of_beq_eq_true (by simpa using hc)
    exact absurd (h.getD_injective (by omega) hci (hc2.trans hget.symm)) (by omega)

theorem denseWf_remove {α : Type _} [Inhabited α] {t : DenseTable α} (h : DenseWf t) {e : Nat}
    (hmem : e ∈ t.entities) : DenseWf (t.remove e) := by
  obtain ⟨ci, hci, hget, hidx⟩ := h.index_of_mem hmem
  unfold DenseTable.remove
  have hp1 : (t.indexSet.extract e).1 = ci := by
    simp [SparseIndex.extract, SparseIndex.atRead, hidx]
  rw [hp1]
  refine denseWf_removeImpl
    { t with indexSet := (t.indexSet.extract e).2 } e ci h.1 hci hget ?_ ?_ h.nodup
  · intro i hi hici
    have hne : t.entities.getD i NullEntity ≠ e := by
      intro hc
      exact hici (h.getD_injective hi hci (hc.trans hget.symm))
    show (t.indexSet.remove e) (t.entities.getD i NullEntity) = some i
    rw [SparseIndex.remove_ne _ _ _ hne]
    exact h.2.1 i hi
  · intro x hx
    by_cases hxe : x = e
    · subst hxe
      exact SparseIndex.remove_eq _ _
    · show (t.indexSet.remove e) x = none
      rw [SparseIndex.remove_ne _ _ _ hxe]
      exact h.2.2 x hx

theorem denseWf_tryRemove {α : Type _} [Inhabited α] {t : DenseTable α} (h : DenseWf t)
    (e : Nat) : DenseWf (t.tryRemove e).2 := by
  unfold DenseTable.tryRemove
  cases hf : t.findIndex e with
  | some i =>
    obtain ⟨hlt, hget⟩ := DenseTable.findIndex_some hf
    exact denseWf_removeImpl t e i h.1 hlt hget (fun j hj _ => h.2.1 j hj) h.2.2 h.nodup
  | none => exact h

theorem DenseTable.extract_snd {α : Type _} [Inhabited α] {t : DenseTable α} (h : DenseWf t)
    {e : Nat} (hmem : e ∈ t.entities) : (t.extract e).2 = t.remove e := by
  obtain ⟨ci, hci, hget, hidx⟩ := h.index_of_mem hmem
  have hp1 : t.indexSet.atRead e = ci := by
    simp [SparseIndex.atRead, hidx]
  unfold DenseTable.extract DenseTable.remove DenseTable.removeImpl
  simp only [SparseIndex.extract]
  rw [hp1]
  by_cases hcond : t.components.length ≠ ci + 1
  · rw [if_pos hcond, if_pos hcond]
    have hlast : ci ≠ t.entities.length - 1 := by
      have := h.1
      omega
    have hlne : t.entities.getLastD NullEntity ≠ e := by
      rw [getLastD_eq_getD, ← hget]
      intro hcontra
      exact hlast (h.getD_injective (by have := h.1; omega) hci hcontra).symm
    congr 1
    funext x
    by_cases hxe : x = e
    · subst hxe
      rw [SparseIndex.remove_eq]
      rw [SparseIndex.setAt_ne _ _ _ _ (fun hc => hlne hc.symm)]
      exact SparseIndex.remove_eq _ _
    · rw [SparseIndex.remove_ne _ _ _ hxe]
  · rw [if_neg hcond, if_neg hcond]
    congr 1
    funext x
    by_cases hxe : x = e
    · subst hxe
      rw [SparseIndex.remove_eq, SparseIndex.remove_eq]
    · rw [SparseIndex.remove_ne _ _ _ hxe, SparseIndex.remove_ne _ _ _ hxe,
        SparseIndex.remove_ne _ _ _ hxe]

theorem denseWf_extract {α : Type _} [Inhabited α] {t : DenseTable α} (h : DenseWf t) {e : Nat}
    (hmem : e ∈ t.entities) : DenseWf (t.extract e).2 := by
  rw [DenseTable.extract_snd h hmem]
  exact denseWf_remove h hmem

theorem denseWf_clear {α : Type _} (t : DenseTable α) : DenseWf t.clear :=
  denseWf_empty

theorem DenseTable.tryRemove_absent {α : Type _} [Inhabited α] (t : DenseTable α) {e : Nat}
    (hmem : e ∉ t.entities) : t.tryRemove e = (false, t) := by
  have hf : t.findIndex e = none := by
    apply List.findIdx?_eq_none_iff.2
    intro x hx
    simp only [beq_eq_false_iff_ne, ne_eq]
    exact fun hcontra => hmem (hcontra ▸ hx)
  unfold DenseTable.tryRemove
  rw [hf]

theorem DenseTable.tryRemove_present {α : Type _} [Inhabited α] {t : DenseTable α}
    (h : DenseWf t) {e : Nat} (hmem : e ∈ t.entities) : t.tryRemove e = (true, t.remove e) := by
  obtain ⟨ci, hci, hget, hidx⟩ := h.index_of_mem hmem
  have hf := h.findIndex_eq hidx
  have hp1 : (t.indexSet.extract e).1 = ci := by
    simp [SparseIndex.extract, SparseIndex.atRead, hidx]
  unfold DenseTable.tryRemove DenseTable.remove
  rw [hf, hp1]
  refine congrArg (Prod.mk true) ?_
  unfold DenseTable.removeImpl
  by_cases hcond : t.components.length ≠ ci + 1
  · rw [if_pos hcond, if_pos hcond]
    have hlast : ci ≠ t.entities.length - 1 := by
      have := h.1
      omega
    have hlne : t.entities.getLastD NullEntity ≠ e := by
      rw [getLastD_eq_getD, ← hget]
      intro hcontra
      exact hlast (h.getD_injective (by have := h.1; omega) hci hcontra).symm
    congr 1
    funext x
    by_cases hxe : x = e
    · subst hxe
      rw [SparseIndex.remove_eq, SparseIndex.remove_eq]
    · rw [SparseIndex.remove_ne _ _ _ hxe, SparseIndex.remove_ne _ _ _ hxe]
      by_cases hxl : x = t.entities.getLastD NullEntity
      · subst hxl
        rw [SparseIndex.setAt_eq, SparseIndex.setAt_eq]
      · rw [SparseIndex.setAt_ne _ _ _ _ hxl, SparseIndex.setAt_ne _ _ _ _ hxl]
        show t.indexSet x = (t.indexSet.extract e).2 x
        rw [show (t.indexSet.extract e).2 = t.indexSet.remove e from rfl]
        rw [SparseIndex.remove_ne _ _ _ hxe]
  · rw [if_neg hcond, if_neg hcond]
    congr 1
    funext x
    by_cases hxe : x = e
    · subst hxe
      rw [SparseIndex.remove_eq, SparseIndex.remove_eq]
    · rw [SparseIndex.remove_ne _ _ _ hxe, SparseIndex.remove_ne _ _ _ hxe]
      show t.indexSet x = (t.indexSet.extract e).2 x
      rw [show (t.indexSet.extract e).2 = t.indexSet.remove e from rfl]
      rw [SparseIndex.remove_ne _ _ _ hxe]

/-! ### Descending compaction (ComponentTable::removeRange and
StableComponentTable::pack share this algorithm)

The source walks the descending hole list with a u32 cursor that may
wrap below zero and "re-overflow in the other side" when truncating; the
cursor is modelled as Int, which yields the same truncation point for
any table smaller than 2^32 entries. -/

/-- Test of entity >= range.begin && entity < range.end. -/
def inEntityRange (r : EntityRange) (e : Nat) : Bool :=
  decide (r.begin_ ≤ e) && decide (e < r.end_)

/-- First loop of ComponentTable::removeRange: collect the dense indices
of the entities inside the range (in ascending position order) while
resetting their sparse slots. -/
def collectRemove (r : EntityRange) : List Nat → Nat → SparseIndex → List Nat × SparseIndex
  | [], _, s => ([], s)
  | e :: rest, i, s =>
    if inEntityRange r e then
      match collectRemove r rest (i + 1) (s.remove e) with
      | (idxs, s') => (i :: idxs, s')
    else collectRemove r rest (i + 1) s

/-- std::sort(rbegin, rend): sort descending. -/
def descSort (l : List Nat) : List Nat :=
  l.mergeSort (fun a b => decide (b ≤ a))

/-- Move-index loop: for each hole (descending), record a (source,
destination) pair unless the hole already sits at the cursor, and
decrement the u32 cursor (modelled as Int). -/
def buildMoves : List Nat → Int → List (Nat × Nat) × Int
  | [], last => ([], last)
  | d :: rest, last =>
    if (d : Int) = last then buildMoves rest (last - 1)
    else
      match buildMoves rest (last - 1) with
      | (ms, l') => ((last.toNat, d) :: ms, l')

/-- Erase-entities loop: entities[dst] = entities[src] and repoint the
sparse slot of the moved entity to dst. -/
def applyMovesE (ents : List Nat) (s : SparseIndex) : List (Nat × Nat) → List Nat × SparseIndex
  | [] => (ents, s)
  | (src, dst) :: ms =>
    applyMovesE (ents.set dst (ents.getD src NullEntity))
      (s.setAt (ents.getD src NullEntity) dst) ms

/-- Erase-components loop: components[dst] = move(components[src]). -/
def applyMovesC {α : Type _} [Inhabited α] (comps : List α) : List (Nat × Nat) → List α
  | [] => comps
  | (src, dst) :: ms => applyMovesC (comps.set dst (comps.getD src default)) ms

/-- ComponentTable::removeRange: collect and unindex the in-range
entities, early-return when none matched, else compact the tail into the
holes (descending) and truncate both dense arrays at the re-overflowed
cursor. -/
def DenseTable.removeRange {α : Type _} [Inhabited α] (t : DenseTable α) (r : EntityRange) :
    DenseTable α :=
  match collectRemove r t.entities 0 t.indexSet with
  | (idxs, s1) =>
    if idxs = [] then { t with indexSet := s1 }
    else
      match buildMoves (descSort idxs) ((t.entities.length : Int) - 1) with
      | (ms, last') =>
        { indexSet := (applyMovesE t.entities s1 ms).2
          entities := (applyMovesE t.entities s1 ms).1.take (last' + 1).toNat
          components := (applyMovesC t.components ms).take (last' + 1).toNat }

/-- Specification recursion for the compaction of entities and sparse
slots: process the descending holes against a virtual length cursor m. -/
def compactES (ents : List Nat) (s : SparseIndex) (m : Nat) : List Nat → List Nat × SparseIndex
  | [] => (ents, s)
  | d :: rest =>
    if d + 1 = m then compactES ents s (m - 1) rest
    else
      compactES (ents.set d (ents.getD (m - 1) NullEntity))
        (s.setAt (ents.getD (m - 1) NullEntity) d) (m - 1) rest

/-- Specification recursion for the compaction of the component array. -/
def compactC {α : Type _} [Inhabited α] (comps : List α) (m : Nat) : List Nat → List α
  | [] => comps
  | d :: rest =>
    if d + 1 = m then compactC comps (m - 1) rest
    else compactC (comps.set d (comps.getD (m - 1) default)) (m - 1) rest

theorem buildMoves_snd : ∀ (D : List Nat) (last : Int),
    (buildMoves D last).2 = last - D.length
  | [], last => by simp [buildMoves]
  | d :: rest, last => by
    unfold buildMoves
    by_cases hd : (d : Int) = last
    · rw [if_pos hd, buildMoves_snd rest (last - 1)]
      simp only [List.length_cons]
      push_cast
      ring
    · rw [if_neg hd]
      have h2 := buildMoves_snd rest (last - 1)
      match hm : buildMoves rest (last - 1) with
      | (ms, l') =>
        rw [hm] at h2
        show l' = last - ((d :: rest).length : Int)
        have h3 : l' = last - 1 - (rest.length : Int) := h2
        simp only [List.length_cons]
        push_cast
        omega

theorem applyMoves_eq_compact {α : Type _} [Inhabited α] :
    ∀ (D : List Nat) (ents : List Nat) (comps : List α) (s : SparseIndex) (m : Nat),
    List.Pairwise (fun a b => b < a) D → (∀ d ∈ D, d < m) →
    applyMovesE ents s (buildMoves D ((m : Int) - 1)).1 = compactES ents s m D ∧
    applyMovesC comps (buildMoves D ((m : Int) - 1)).1 = compactC comps m D
  | [], ents, comps, s, m, _, _ => ⟨rfl, rfl⟩
  | d :: rest, ents, comps, s, m, hdesc, hlt => by
    obtain ⟨hall, hdesc'⟩ := List.pairwise_cons.1 hdesc
    have hdm : d < m := hlt d (List.mem_cons_self d rest)
    have hm1 : 1 ≤ m := by omega
    have hcast : ((m : Int) - 1) - 1 = ((m - 1 : Nat) : Int) - 1 := by push_cast [hm1]; ring
    have hlt' : ∀ x ∈ rest, x < m - 1 := by
      intro x hx
      have := hall x hx
      omega
    unfold buildMoves compactES compactC
    by_cases hd : (d : Int) = (m : Int) - 1
    · have hd2 : d + 1 = m := by omega
      rw [if_pos hd, if_pos hd2, if_pos hd2, hcast]
      exact applyMoves_eq_compact rest ents comps s (m - 1) hdesc' hlt'
    · have hd2 : ¬(d + 1 = m) := by
        intro hc
        exact hd (by omega)
      rw [if_neg hd, if_neg hd2, if_neg hd2]
      have hsrc : ((m : Int) - 1).toNat = m - 1 := by omega
      match hm2 : buildMoves rest (((m : Int) - 1) - 1) with
      | (ms, l') =>
        have heq := applyMoves_eq_compact
          (α := α) rest (ents.set d (ents.getD (m - 1) NullEntity))
          (comps.set d (comps.getD (m - 1) default))
          (s.setAt (ents.getD (m - 1) NullEntity) d) (m - 1) hdesc' hlt'
        rw [← hcast, hm2] at heq
        refine ⟨?_, ?_⟩
        · show applyMovesE ents s ((((m : Int) - 1).toNat, d) :: ms) = _
          unfold applyMovesE
          rw [hsrc]
          exact heq.1
        · show applyMovesC comps ((((m : Int) - 1).toNat, d) :: ms) = _
          unfold applyMovesC
          rw [hsrc]
          exact heq.2

theorem compact_spec {α : Type _} [Inhabited α] :
    ∀ (D : List Nat) (ents : List Nat) (comps : List α) (s : SparseIndex) (m : Nat),
    List.Pairwise (fun a b => b < a) D →
    (∀ d ∈ D, d < m) →
    m ≤ ents.length → m ≤ comps.length →
    (∀ i, i < m → i ∉ D → s (ents.getD i NullEntity) = some i) →
    (∀ i j, i < m → j < m → i ∉ D → j ∉ D →
      ents.getD i NullEntity = ents.getD j NullEntity → i = j) →
    (compactES ents s m D).1.length = ents.length ∧
    (compactC comps m D).length = comps.length ∧
    (∀ i, i < m - D.length →
      (compactES ents s m D).2 ((compactES ents s m D).1.getD i NullEntity) = some i) ∧
    (∀ i, i < m → i ∉ D → ∃ j, j < m - D.length ∧
      (compactES ents s m D).1.getD j NullEntity = ents.getD i NullEntity ∧
      (compactC comps m D).getD j default = comps.getD i default) ∧
    (∀ x, (∀ i, i < m → i ∉ D → ents.getD i NullEntity ≠ x) →
      (compactES ents s m D).2 x = s x) ∧
    (∀ i, m ≤ i → (compactES ents s m D).1.getD i NullEntity = ents.getD i NullEntity) ∧
    (∀ i, m ≤ i → (compactC comps m D).getD i default = comps.getD i default) ∧
    (∀ j, j < m - D.length → ∃ i, i < m ∧ i ∉ D ∧
      (compactES ents s m D).1.getD j NullEntity = ents.getD i NullEntity ∧
      (compactC comps m D).getD j default = comps.getD i default)
  | [], ents, comps, s, m, _, _, hme, hmc, halign, hinj => by
    refine ⟨rfl, rfl, ?_, ?_, fun x _ => rfl, fun i _ => rfl, fun i _ => rfl, ?_⟩
    · intro i hi
      exact halign i (by simpa using hi) (List.not_mem_nil i)
    · intro i hi _
      exact ⟨i, by simpa using hi, rfl, rfl⟩
    · intro j hj
      exact ⟨j, by simpa using hj, List.not_mem_nil j, rfl, rfl⟩
  | d :: rest, ents, comps, s, m, hdesc, hlt, hme, hmc, halign, hinj => by
    obtain ⟨hall, hdesc'⟩ := List.pairwise_cons.1 hdesc
    have hdm : d < m := hlt d (List.mem_cons_self d rest)
    have hm1 : 1 ≤ m := by omega
    have hrest_lt : ∀ x ∈ rest, x < m - 1 := by
      intro x hx
      have := hall x hx
      omega
    have hklen : m - (d :: rest).length = (m - 1) - rest.length := by
      simp only [List.length_cons]
      omega
    unfold compactES compactC
    by_cases hd2 : d + 1 = m
    · rw [if_pos hd2, if_pos hd2]
      have hdd : d = m - 1 := by omega
      have hDnot : ∀ i, i < m - 1 → i ∉ rest → i ∉ d :: rest := by
        intro i hi hir
        simp only [List.mem_cons]
        push_neg
        exact ⟨by omega, hir⟩
      obtain ⟨c1, c2, c3, c4, c5, c6, c7, c9⟩ := compact_spec rest ents comps s (m - 1)
        hdesc' hrest_lt (by omega) (by omega)
        (fun i hi hir => halign i (by omega) (hDnot i hi hir))
        (fun i j hi hj hir hjr heq =>
          hinj i j (by omega) (by omega) (hDnot i hi hir) (hDnot j hj hjr) heq)
      refine ⟨c1, c2, ?_, ?_, ?_, ?_, ?_, ?_⟩
      · intro i hi
        exact c3 i (by rw [hklen] at hi; exact hi)
      · intro i hi hiD
        have hid : i ≠ d := by
          intro hc
          exact hiD (hc ▸ List.mem_cons_self d rest)
        have hir : i ∉ rest := fun hc => hiD (List.mem_cons_of_mem d hc)
        obtain ⟨j, hj, hj2, hj3⟩ := c4 i (by omega) hir
        exact ⟨j, by omega, hj2, hj3⟩
      · intro x hx
        refine c5 x ?_
        intro i hi hir
        exact hx i (by omega) (hDnot i hi hir)
      · intro i hi
        exact c6 i (by omega)
      · intro i hi
        exact c7 i (by omega)
      · intro j hj
        obtain ⟨i, hi, hir, h2, h3⟩ := c9 j (by rw [hklen] at hj; exact hj)
        exact ⟨i, by omega, hDnot i hi hir, h2, h3⟩
    · rw [if_neg hd2, if_neg hd2]
      have hdm1 : d < m - 1 := by omega
      have hm1lt : m - 1 < m := by omega
      have hm1notD : m - 1 ∉ d :: rest := by
        simp only [List.mem_cons]
        push_neg
        refine ⟨by omega, fun hc => ?_⟩
        have := hall _ hc
        omega
      have hlenE : (ents.set d (ents.getD (m - 1) NullEntity)).length = ents.length :=
        List.length_set ..
      have hlenC : (comps.set d (comps.getD (m - 1) default)).length = comps.length :=
        List.length_set ..
      have hEd : (ents.set d (ents.getD (m - 1) NullEntity)).getD d NullEntity =
          ents.getD (m - 1) NullEntity :=
        getD_set_self _ _ _ _ (by omega)
      have hEne : ∀ i, i ≠ d → (ents.set d (ents.getD (m - 1) NullEntity)).getD i NullEntity =
          ents.getD i NullEntity := by
        intro i hi
        exact getD_set_ne _ _ _ _ _ (fun hc => hi hc.symm)
      have hCd : (comps.set d (comps.getD (m - 1) default)).getD d default =
          comps.getD (m - 1) default :=
        getD_set_self _ _ _ _ (by omega)
      have hCne : ∀ i, i ≠ d → (comps.set d (comps.getD (m - 1) default)).getD i default =
          comps.getD i default := by
        intro i hi
        exact getD_set_ne _ _ _ _ _ (fun hc => hi hc.symm)
      have hlast_ne : ∀ i, i < m → i ∉ (d :: rest) → i ≠ m - 1 →
          ents.getD i NullEntity ≠ ents.getD (m - 1) NullEntity := by
        intro i hi hiD hine hc
        exact hine (hinj i (m - 1) hi hm1lt hiD hm1notD hc)
      have hDnot : ∀ i, i < m - 1 → i ∉ rest → i ≠ d → i ∉ d :: rest := by
        intro i _ hir hid
        simp only [List.mem_cons]
        push_neg
        exact ⟨hid, hir⟩
      obtain ⟨c1, c2, c3, c4, c5, c6, c7, c9⟩ := compact_spec rest
        (ents.set d (ents.getD (m - 1) NullEntity))
        (comps.set d (comps.getD (m - 1) default))
        (s.setAt (ents.getD (m - 1) NullEntity) d) (m - 1)
        hdesc' hrest_lt (by omega) (by omega)
        (by
          intro i hi hir
          rcases eq_or_ne i d with hid | hid
          · rw [hid, hEd]
            exact SparseIndex.setAt_eq _ _ _
          · rw [hEne i hid]
            rw [SparseIndex.setAt_ne _ _ _ _
              (hlast_ne i (by omega) (hDnot i hi hir hid) (by omega))]
            exact halign i (by omega) (hDnot i hi hir hid))
        (by
          intro i j hi hj hir hjr heq
          rcases eq_or_ne i d with hid | hid <;> rcases eq_or_ne j d with hjd | hjd
          · exact hid.trans hjd.symm
          · rw [hid, hEd, hEne j hjd] at heq
            exact absurd (hinj (m - 1) j hm1lt (by omega) hm1notD
              (hDnot j hj hjr hjd) heq) (by omega)
          · rw [hjd, hEne i hid, hEd] at heq
            exact absurd (hinj i (m - 1) (by omega) hm1lt
              (hDnot i hi hir hid) hm1notD heq) (by omega)
          · rw [hEne i hid, hEne j hjd] at heq
            exact hinj i j (by omega) (by omega)
              (hDnot i hi hir hid) (hDnot j hj hjr hjd) heq)
      refine ⟨by rw [c1, hlenE], by rw [c2, hlenC], ?_, ?_, ?_, ?_, ?_, ?_⟩
      · intro i hi
        exact c3 i (by rw [hklen] at hi; exact hi)
      · intro i hi hiD
        have hid : i ≠ d := by
          intro hc
          exact hiD (hc ▸ List.mem_cons_self d rest)
        rcases eq_or_ne i (m - 1) with rfl | him
        · obtain ⟨j, hj, hj2, hj3⟩ := c4 d hdm1
            (fun hc => absurd (hall d hc) (by omega))
          refine ⟨j, by omega, ?_, ?_⟩
          · rw [hj2, hEd]
          · rw [hj3, hCd]
        · have hir : i ∉ rest := fun hc => hiD (List.mem_cons_of_mem d hc)
          obtain ⟨j, hj, hj2, hj3⟩ := c4 i (by omega) hir
          refine ⟨j, by omega, ?_, ?_⟩
          · rw [hj2, hEne i hid]
          · rw [hj3, hCne i hid]
      · intro x hx
        have hxlast : ents.getD (m - 1) NullEntity ≠ x := hx (m - 1) hm1lt hm1notD
        rw [c5 x ?_]
        · rw [SparseIndex.setAt_ne _ _ _ _ (Ne.symm hxlast)]
        · intro i hi hir
          rcases eq_or_ne i d with hid | hid
          · rw [hid, hEd]
            exact hxlast
          · rw [hEne i hid]
            exact hx i (by omega) (hDnot i hi hir hid)
      · intro i hi
        rw [c6 i (by omega), hEne i (by omega)]
      · intro i hi
        rw [c7 i (by omega), hCne i (by omega)]
      · intro j hj
        obtain ⟨i, hi, hir, h2, h3⟩ := c9 j (by rw [hklen] at hj; exact hj)
        rcases eq_or_ne i d with hid | hid
        · rw [hid, hEd] at h2
          rw [hid, hCd] at h3
          exact ⟨m - 1, hm1lt, hm1notD, h2, h3⟩
        · rw [hEne i hid] at h2
          rw [hCne i hid] at h3
          exact ⟨i, by omega, hDnot i hi hir hid, h2, h3⟩

theorem collectRemove_sparse (r : EntityRange) :
    ∀ (l : List Nat) (i0 : Nat) (s : SparseIndex) (x : Nat),
    (collectRemove r l i0 s).2 x =
      if x ∈ l ∧ inEntityRange r x = true then none else s x
  | [], i0, s, x => by
    simp [collectRemove]
  | e :: rest, i0, s, x => by
    unfold collectRemove
    by_cases he : inEntityRange r e
    · rw [if_pos he]
      have hrec := collectRemove_sparse r rest (i0 + 1) (s.remove e) x
      match hm : collectRemove r rest (i0 + 1) (s.remove e) with
      | (idxs, s') =>
        rw [hm] at hrec
        show s' x = _
        rw [show s' = (idxs, s').2 from rfl, hrec]
        by_cases hx1 : x ∈ rest ∧ inEntityRange r x = true
        · rw [if_pos hx1, if_pos ⟨List.mem_cons_of_mem e hx1.1, hx1.2⟩]
        · rw [if_neg hx1]
          by_cases hxe : x = e
          · subst hxe
            rw [if_pos ⟨List.mem_cons_self x rest, he⟩]
            exact SparseIndex.remove_eq _ _
          · rw [SparseIndex.remove_ne _ _ _ hxe]
            rw [if_neg ?_]
            intro hc
            rcases List.mem_cons.1 hc.1 with hc1 | hc1
            · exact hxe hc1
            · exact hx1 ⟨hc1, hc.2⟩
    · rw [if_neg he]
      rw [collectRemove_sparse r rest (i0 + 1) s x]
      by_cases hx1 : x ∈ rest ∧ inEntityRange r x = true
      · rw [if_pos hx1, if_pos ⟨List.mem_cons_of_mem e hx1.1, hx1.2⟩]
      · rw [if_neg hx1, if_neg ?_]
        intro hc
        rcases List.mem_cons.1 hc.1 with hc1 | hc1
        · rw [hc1] at hc
          exact he hc.2
        · exact hx1 ⟨hc1, hc.2⟩

theorem collectRemove_idxs (r : EntityRange) :
    ∀ (l : List Nat) (i0 : Nat) (s : SparseIndex),
    ((collectRemove r l i0 s).1.Pairwise (· < ·)) ∧
    (∀ d ∈ (collectRemove r l i0 s).1, i0 ≤ d ∧ d - i0 < l.length ∧
      inEntityRange r (l.getD (d - i0) NullEntity) = true) ∧
    (∀ j, j < l.length → inEntityRange r (l.getD j NullEntity) = true →
      (i0 + j) ∈ (collectRemove r l i0 s).1)
  | [], i0, s => by
    refine ⟨by simp [collectRemove], by simp [collectRemove], ?_⟩
    intro j hj
    exact absurd hj (by simp)
  | e :: rest, i0, s => by
    unfold collectRemove
    by_cases he : inEntityRange r e
    · rw [if_pos he]
      obtain ⟨ih1, ih2, ih3⟩ := collectRemove_idxs r rest (i0 + 1) (s.remove e)
      match hm : collectRemove r rest (i0 + 1) (s.remove e) with
      | (idxs, s') =>
        rw [hm] at ih1 ih2 ih3
        refine ⟨?_, ?_, ?_⟩
        · refine List.pairwise_cons.2 ⟨?_, ih1⟩
          intro d hd
          have := (ih2 d hd).1
          omega
        · intro d hd
          rcases List.mem_cons.1 hd with rfl | hd
          · refine ⟨le_refl _, by simp, ?_⟩
            rw [Nat.sub_self]
            simpa using he
          · obtain ⟨hd1, hd2, hd3⟩ := ih2 d hd
            refine ⟨by omega, by simp only [List.length_cons]; omega, ?_⟩
            have hds : d - i0 = (d - (i0 + 1)) + 1 := by omega
            rw [hds, List.getD_cons_succ]
            exact hd3
        · intro j hj hr
          match j, hj with
          | 0, _ =>
            exact List.mem_cons_self _ _
          | j' + 1, hj =>
            rw [List.getD_cons_succ] at hr
            refine List.mem_cons_of_mem _ ?_
            have := ih3 j' (by simpa using hj) hr
            have harith : i0 + (j' + 1) = (i0 + 1) + j' := by omega
            rw [harith]
            exact this
    · rw [if_neg he]
      obtain ⟨ih1, ih2, ih3⟩ := collectRemove_idxs r rest (i0 + 1) s
      refine ⟨ih1, ?_, ?_⟩
      · intro d hd
        obtain ⟨hd1, hd2, hd3⟩ := ih2 d hd
        refine ⟨by omega, by simp only [List.length_cons]; omega, ?_⟩
        have hds : d - i0 = (d - (i0 + 1)) + 1 := by omega
        rw [hds, List.getD_cons_succ]
        exact hd3
      · intro j hj hr
        match j, hj with
        | 0, _ =>
          rw [List.getD_cons_zero] at hr
          exact absurd hr (by simpa using he)
        | j' + 1, hj =>
          rw [List.getD_cons_succ] at hr
          have := ih3 j' (by simpa using hj) hr
          have harith : i0 + (j' + 1) = (i0 + 1) + j' := by omega
          rw [harith]
          exact this

theorem descSort_perm (l : List Nat) : (descSort l).Perm l :=
  List.mergeSort_perm l _

theorem descSort_strict {l : List Nat} (h : l.Pairwise (· < ·)) :
    (descSort l).Pairwise (fun a b => b < a) := by
  have hsorted : (descSort l).Pairwise (fun a b => b ≤ a) := by
    have hs := @List.sorted_mergeSort Nat (fun a b => decide (b ≤ a))
      (by
        intro a b c hab hbc
        simp only [decide_eq_true_eq] at hab hbc ⊢
        omega)
      (by
        intro a b
        simp only [Bool.or_eq_true, decide_eq_true_eq]
        omega) l
    exact hs.imp (by simp)
  have hnd : (descSort l).Nodup :=
    (descSort_perm l).nodup_iff.2 (h.imp (fun hab => Nat.ne_of_lt hab))
  have hcomb := List.Pairwise.and hsorted hnd
  exact hcomb.imp (by
    intro a b hab
    obtain ⟨h1, h2⟩ := hab
    omega)

theorem nodup_lt_length_le {l : List Nat} (h : l.Nodup) {n : Nat} (hlt : ∀ x ∈ l, x < n) :
    l.length ≤ n := by
  classical
  have hsub : l.toFinset ⊆ Finset.range n := by
    intro x hx
    rw [Finset.mem_range]
    exact hlt x (List.mem_toFinset.1 hx)
  have := Finset.card_le_card hsub
  rw [List.toFinset_card_of_nodup h] at this
  simpa using this

theorem denseWf_removeRange {α : Type _} [Inhabited α] {t : DenseTable α} (h : DenseWf t)
    (r : EntityRange) : DenseWf (t.removeRange r) ∧
    (∀ j, j < (t.removeRange r).entities.length → ∃ i, i < t.entities.length ∧
      (t.removeRange r).entities.getD j NullEntity = t.entities.getD i NullEntity ∧
      (t.removeRange r).components.getD j default = t.components.getD i default) := by
  unfold DenseTable.removeRange
  have hsp := collectRemove_sparse r t.entities 0 t.indexSet
  obtain ⟨hsort, hbounds, hcompl⟩ := collectRemove_idxs r t.entities 0 t.indexSet
  match hcol : collectRemove r t.entities 0 t.indexSet with
  | (idxs, s1) =>
    rw [hcol] at hsp hsort hbounds hcompl
    dsimp only at hsp hsort hbounds hcompl ⊢
    by_cases hempty : idxs = []
    · rw [if_pos hempty]
      refine ⟨⟨h.1, ?_, ?_⟩, fun j hj => ⟨j, hj, rfl, rfl⟩⟩
      · intro i hi
        show s1 (t.entities.getD i NullEntity) = some i
        rw [hsp]
        rw [if_neg ?_]
        · exact h.2.1 i hi
        · intro hc
          have := hcompl i hi hc.2
          rw [hempty] at this
          simp at this
      · intro x hx
        show s1 x = none
        rw [hsp, if_neg (fun hc => hx hc.1)]
        exact h.2.2 x hx
    · rw [if_neg hempty]
      have hDdesc : (descSort idxs).Pairwise (fun a b => b < a) := descSort_strict hsort
      have hDmem : ∀ d ∈ descSort idxs, d ∈ idxs := fun d hd => (descSort_perm idxs).mem_iff.1 hd
      have hDlt : ∀ d ∈ descSort idxs, d < t.entities.length := by
        intro d hd
        have := (hbounds d (hDmem d hd)).2.1
        omega
      have hDlen : (descSort idxs).length = idxs.length := (descSort_perm idxs).length_eq
      have hDnodup : (descSort idxs).Nodup := hDdesc.imp (fun hab => (Nat.ne_of_lt hab).symm)
      have hklen : (descSort idxs).length ≤ t.entities.length :=
        nodup_lt_length_le hDnodup hDlt
      have hlive_align : ∀ i, i < t.entities.length → i ∉ descSort idxs →
          s1 (t.entities.getD i NullEntity) = some i := by
        intro i hi hiD
        rw [hsp, if_neg ?_]
        · exact h.2.1 i hi
        · intro hc
          refine hiD ((descSort_perm idxs).mem_iff.2 ?_)
          simpa using hcompl i hi hc.2
      obtain ⟨c1, c2, c3, c4, c5, c6, c7, c9⟩ := compact_spec (descSort idxs)
        t.entities t.components s1 t.entities.length hDdesc hDlt (le_refl _)
        (le_of_eq h.1) hlive_align
        (fun i j hi hj _ _ heq => nodup_getD_inj h.nodup NullEntity hi hj heq)
      obtain ⟨heqE, heqC⟩ := applyMoves_eq_compact (descSort idxs) t.entities t.components
        s1 t.entities.length hDdesc hDlt
      match hbm : buildMoves (descSort idxs) ((t.entities.length : Int) - 1) with
      | (ms, last') =>
        have hlast' : last' = (t.entities.length : Int) - 1 - (descSort idxs).length := by
          have := buildMoves_snd (descSort idxs) ((t.entities.length : Int) - 1)
          rw [hbm] at this
          exact this
        have hfrom : (last' + 1).toNat = t.entities.length - (descSort idxs).length := by
          rw [hlast']
          omega
        rw [hbm] at heqE heqC
        have hmsE : applyMovesE t.entities s1 ms =
            compactES t.entities s1 t.entities.length (descSort idxs) := heqE
        have hmsC : applyMovesC t.components ms =
            compactC t.components t.entities.length (descSort idxs) := heqC
        rw [hmsE, hmsC, hfrom]
        set D := descSort idxs with hD
        set n := t.entities.length with hn
        set k := D.length with hk
        set ES := compactES t.entities s1 n D with hES
        set CC := compactC t.components n D with hCC
        have hmemtake : ∀ x, x ∈ ES.1.take (n - k) ↔
            ∃ j, j < n - k ∧ ES.1.getD j NullEntity = x := by
          intro x
          rw [mem_iff_getD _ x NullEntity]
          have hlentake : (ES.1.take (n - k)).length = n - k := by
            rw [List.length_take, c1]
            omega
          constructor
          · rintro ⟨j, hj, hx⟩
            rw [hlentake] at hj
            rw [getD_take _ _ _ _ hj] at hx
            exact ⟨j, hj, hx⟩
          · rintro ⟨j, hj, hx⟩
            refine ⟨j, by rw [hlentake]; exact hj, ?_⟩
            rw [getD_take _ _ _ _ hj]
            exact hx
        refine ⟨⟨?_, ?_, ?_⟩, ?_⟩
        · simp only [List.length_take, c1, c2]
          rw [← h.1]
        · intro i hi
          simp only [List.length_take, c1] at hi
          have hi' : i < n - k := by omega
          show ES.2 ((ES.1.take (n - k)).getD i NullEntity) = some i
          rw [getD_take _ _ _ _ hi']
          exact c3 i hi'
        · intro x hx
          show ES.2 x = none
          by_cases hlive : ∃ i, i < n ∧ i ∉ D ∧ t.entities.getD i NullEntity = x
          · obtain ⟨i, hi, hiD, hieq⟩ := hlive
            obtain ⟨j, hj, hj2, _⟩ := c4 i hi hiD
            exact absurd ((hmemtake x).2 ⟨j, hj, by rw [hj2, hieq]⟩) hx
          · push_neg at hlive
            rw [c5 x (fun i hi hiD hc => hlive i hi hiD hc)]
            rw [hsp]
            by_cases hcx : x ∈ t.entities ∧ inEntityRange r x = true
            · rw [if_pos hcx]
            · rw [if_neg hcx]
              refine h.2.2 x ?_
              intro hmem
              obtain ⟨p, hp, hpx⟩ := (mem_iff_getD t.entities x NullEntity).1 hmem
              by_cases hpD : p ∈ D
              · refine hcx ⟨hmem, ?_⟩
                have := (hbounds p (hDmem p hpD)).2.2
                rw [Nat.sub_zero] at this
                rw [← hpx]
                exact this
              · exact hlive p hp hpD hpx
        · intro j hj
          simp only [List.length_take, c1] at hj
          have hj2 : j < n - k := by omega
          obtain ⟨i, hi, _, hE, hC⟩ := c9 j hj2
          refine ⟨i, hi, ?_, ?_⟩
          · show (ES.1.take (n - k)).getD j NullEntity = _
            rw [getD_take _ _ _ _ hj2]
            exact hE
          · show (CC.take (n - k)).getD j default = _
            rw [getD_take _ _ _ _ hj2]
            exact hC

/-! ### Sorting (ComponentTable::sort)

std::sort of _entities under the user comparator is modelled as a stable
merge sort with the complemented comparator (any std::sort output
satisfies the same pairwise ordering); the subsequent patch loop that
re-aligns components and sparse slots by chasing permutation cycles is
modelled with explicit fuel (the loop terminates within length + 1
iterations on well-formed tables, which the correctness proof shows). -/

/-- std::swap of two component cells. -/
def listSwap {α : Type _} [Inhabited α] (l : List α) (i j : Nat) : List α :=
  (l.set i (l.getD j default)).set j (l.getD i default)

/-- Inner while loop of the sort patch: follow one permutation cycle,
swapping components and repointing sparse slots. -/
def sortWalk {α : Type _} [Inhabited α] (ents : List Nat) :
    Nat → Nat → Nat → SparseIndex → List α → SparseIndex × List α
  | 0, _, _, s, comps => (s, comps)
  | fuel + 1, current, next, s, comps =>
    if current = next then (s, comps)
    else
      sortWalk ents fuel next (s.atRead (ents.getD next NullEntity))
        (s.setAt (ents.getD current NullEntity) current)
        (listSwap comps next (s.atRead (ents.getD next NullEntity)))

/-- Outer for loop of the sort patch. -/
def sortPatch {α : Type _} [Inhabited α] (ents : List Nat) (s : SparseIndex)
    (comps : List α) : SparseIndex × List α :=
  (List.range ents.length).foldl
    (fun st fr =>
      sortWalk ents (ents.length + 1) fr (st.1.atRead (ents.getD fr NullEntity)) st.1 st.2)
    (s, comps)

/-- ComponentTable::sort: sort _entities by the comparator, then patch
components and the sparse set. -/
def DenseTable.sort {α : Type _} [Inhabited α] (t : DenseTable α) (cmp : Nat → Nat → Bool) :
    DenseTable α :=
  match sortPatch (t.entities.mergeSort (fun a b => !cmp b a)) t.indexSet t.components with
  | (s', comps') =>
    { indexSet := s'
      entities := t.entities.mergeSort (fun a b => !cmp b a)
      components := comps' }

theorem set_getD_id {α : Type _} (l : List α) (i : Nat) (d : α) (h : i < l.length) :
    l.set i (l.getD i d) = l := by
  apply List.ext_getElem?
  intro j
  rcases eq_or_ne i j with rfl | hij
  · rw [List.getElem?_set_self' ]
    rw [List.getElem?_eq_getElem h, getD_eq_getElem _ _ _ h]
    rfl
  · exact List.getElem?_set_ne hij

theorem listSwap_length {α : Type _} [Inhabited α] (l : List α) (i j : Nat) :
    (listSwap l i j).length = l.length := by
  simp [listSwap]

theorem listSwap_self {α : Type _} [Inhabited α] (l : List α) (i : Nat) (h : i < l.length) :
    listSwap l i i = l := by
  unfold listSwap
  rw [List.set_set, set_getD_id _ _ _ h]

theorem listSwap_getD_fst {α : Type _} [Inhabited α] (l : List α) (i j : Nat)
    (hne : j ≠ i) (hi : i < l.length) :
    (listSwap l i j).getD i default = l.getD j default := by
  unfold listSwap
  rw [getD_set_ne _ _ _ _ _ hne, getD_set_self _ _ _ _ hi]

theorem listSwap_getD_snd {α : Type _} [Inhabited α] (l : List α) (i j : Nat)
    (hj : j < l.length) :
    (listSwap l i j).getD j default = l.getD i default := by
  unfold listSwap
  rw [getD_set_self _ _ _ _ (by simpa using hj)]

theorem listSwap_getD_other {α : Type _} [Inhabited α] (l : List α) (i j pos : Nat)
    (hi : pos ≠ i) (hj : pos ≠ j) :
    (listSwap l i j).getD pos default = l.getD pos default := by
  unfold listSwap
  rw [getD_set_ne _ _ _ _ _ (fun hc => hj hc.symm), getD_set_ne _ _ _ _ _ (fun hc => hi hc.symm)]

theorem sortWalk_spec {α : Type _} [Inhabited α] (ents : List Nat) (hnd : ents.Nodup)
    (gv : Nat → α) :
    ∀ (suffix : List Nat) (current home : Nat) (s : SparseIndex) (comps : List α) (fuel : Nat),
    suffix.length + 2 ≤ fuel →
    (∀ x ∈ current :: suffix ++ [home], x < ents.length) →
    (current :: suffix ++ [home]).Nodup →
    ents.length ≤ comps.length →
    (∀ i, i + 1 < (current :: suffix ++ [home]).length →
      s (ents.getD ((current :: suffix ++ [home]).getD i 0) NullEntity) =
        some ((current :: suffix ++ [home]).getD (i + 1) 0)) →
    s (ents.getD home NullEntity) = some home →
    comps.getD ((suffix ++ [home]).getD 0 0) default = gv home →
    (∀ i, i + 1 < (suffix ++ [home]).length →
      comps.getD ((suffix ++ [home]).getD (i + 1) 0) default =
        gv ((suffix ++ [home]).getD i 0)) →
    (∀ j ∈ current :: suffix,
      (sortWalk ents fuel current ((suffix ++ [home]).getD 0 0) s comps).1
        (ents.getD j NullEntity) = some j) ∧
    (∀ x, (∀ j ∈ current :: suffix, ents.getD j NullEntity ≠ x) →
      (sortWalk ents fuel current ((suffix ++ [home]).getD 0 0) s comps).1 x = s x) ∧
    (∀ j ∈ suffix ++ [home],
      (sortWalk ents fuel current ((suffix ++ [home]).getD 0 0) s comps).2.getD j default
        = gv j) ∧
    (∀ pos, pos ∉ suffix ++ [home] →
      (sortWalk ents fuel current ((suffix ++ [home]).getD 0 0) s comps).2.getD pos default
        = comps.getD pos default) ∧
    (sortWalk ents fuel current ((suffix ++ [home]).getD 0 0) s comps).2.length =
      comps.length
  | [], current, home, s, comps, fuel, hfuel, hbounds, hnodup, hcl, hchain, hhome,
      hcarry, _hpairs => by
    obtain ⟨f1, rfl⟩ : ∃ f1, fuel = f1 + 1 := ⟨fuel - 1, by omega⟩
    have hf1 : 1 ≤ f1 := by omega
    obtain ⟨f2, rfl⟩ : ∃ f2, f1 = f2 + 1 := ⟨f1 - 1, by omega⟩
    have hcur : current < ents.length := hbounds current (List.mem_cons_self ..)
    have hhomelt : home < ents.length := hbounds home (by simp)
    have hch : current ≠ home := by
      have := List.pairwise_cons.1 hnodup
      exact this.1 home (by simp)
    have hP0 : (([] : List Nat) ++ [home]).getD 0 0 = home := rfl
    rw [hP0]
    unfold sortWalk
    rw [if_neg hch]
    have hfol : s.atRead (ents.getD home NullEntity) = home := by
      rw [SparseIndex.atRead, hhome]
      rfl
    rw [hfol]
    have hswap : listSwap comps home home = comps :=
      listSwap_self _ _ (by omega)
    rw [hswap]
    unfold sortWalk
    rw [if_pos rfl]
    refine ⟨?_, ?_, ?_, ?_, rfl⟩
    · intro j hj
      obtain rfl : j = current := by simpa using hj
      exact SparseIndex.setAt_eq _ _ _
    · intro x hx
      exact SparseIndex.setAt_ne _ _ _ _
        (Ne.symm (hx current (List.mem_cons_self ..)))
    · intro j hj
      obtain rfl : j = home := by simpa using hj
      exact hcarry
    · intro pos _
      rfl
  | b :: rest, current, home, s, comps, fuel, hfuel, hbounds, hnodup, hcl, hchain, hhome,
      hcarry, hpairs => by
    obtain ⟨f1, rfl⟩ : ∃ f1, fuel = f1 + 1 := ⟨fuel - 1, by omega⟩
    simp only [List.cons_append] at hbounds hnodup hchain hcarry hpairs ⊢
    simp only [List.length_cons] at hfuel
    have hcur : current < ents.length := hbounds current (List.mem_cons_self ..)
    have hblt : b < ents.length := hbounds b (by simp)
    have hhomelt : home < ents.length := hbounds home (by simp)
    have hrestlt : ∀ x ∈ rest ++ [home], x < ents.length := by
      intro x hx
      exact hbounds x (List.mem_cons_of_mem _ (List.mem_cons_of_mem _ hx))
    have hcb : current ≠ b := by
      have := List.pairwise_cons.1 hnodup
      exact this.1 b (by simp)
    have hcurnot : current ∉ b :: (rest ++ [home]) := by
      have := List.pairwise_cons.1 hnodup
      intro hc
      exact (this.1 current hc) rfl
    have hnodup2 : (b :: (rest ++ [home])).Nodup := (List.pairwise_cons.1 hnodup).2
    have hbnot : b ∉ rest ++ [home] := by
      have := List.pairwise_cons.1 hnodup2
      intro hc
      exact (this.1 b hc) rfl
    have hnodup3 : (rest ++ [home]).Nodup := (List.pairwise_cons.1 hnodup2).2
    have hP0 : (b :: (rest ++ [home])).getD 0 0 = b := rfl
    rw [hP0]
    unfold sortWalk
    rw [if_neg hcb]
    have hrhlen : (rest ++ [home]).length = rest.length + 1 := by simp
    have hb2mem : (rest ++ [home]).getD 0 0 ∈ rest ++ [home] :=
      getD_mem _ _ _ (by omega)
    have hb2lt : (rest ++ [home]).getD 0 0 < ents.length := hrestlt _ hb2mem
    have hchainb : s (ents.getD b NullEntity) = some ((rest ++ [home]).getD 0 0) := by
      have := hchain 1 (by simp)
      exact this
    have hfol : s.atRead (ents.getD b NullEntity) = (rest ++ [home]).getD 0 0 := by
      rw [SparseIndex.atRead, hchainb]
      rfl
    rw [hfol]
    have hentne : ∀ x y, x < ents.length → y < ents.length → x ≠ y →
        ents.getD x NullEntity ≠ ents.getD y NullEntity := by
      intro x y hx hy hxy hc
      exact hxy (nodup_getD_inj hnd NullEntity hx hy hc)
    have hres := sortWalk_spec ents hnd gv rest b home
      (s.setAt (ents.getD current NullEntity) current)
      (listSwap comps b ((rest ++ [home]).getD 0 0)) f1
      (by omega)
      (by
        intro x hx
        exact hbounds x (List.mem_cons_of_mem _ hx))
      hnodup2
      (by rw [listSwap_length]; exact hcl)
      (by
        intro i hi
        simp only [List.cons_append]
        have hi2 : i + 1 < rest.length + 2 := by simpa using hi
        have hmem : (b :: (rest ++ [home])).getD i 0 ∈ b :: (rest ++ [home]) :=
          getD_mem _ _ _ (by simp; omega)
        have hne : (b :: (rest ++ [home])).getD i 0 ≠ current := by
          intro hc
          exact hcurnot (hc ▸ hmem)
        rw [SparseIndex.setAt_ne _ _ _ _ (hentne _ _
          (hbounds _ (List.mem_cons_of_mem _ hmem)) hcur hne)]
        have := hchain (i + 1) (by simp; omega)
        rw [List.getD_cons_succ, List.getD_cons_succ] at this
        exact this)
      (by
        have hne : home ≠ current := by
          intro hc
          exact hcurnot (hc ▸ (by simp : home ∈ b :: (rest ++ [home])))
        rw [SparseIndex.setAt_ne _ _ _ _ (hentne _ _ hhomelt hcur hne)]
        exact hhome)
      (by
        rw [listSwap_getD_snd _ _ _ (by omega)]
        exact hcarry)
      (by
        intro i hi
        have hmem1 : (rest ++ [home]).getD (i + 1) 0 ∈ rest ++ [home] :=
          getD_mem _ _ _ (by omega)
        have hne1 : (rest ++ [home]).getD (i + 1) 0 ≠ b := by
          intro hc
          exact hbnot (hc ▸ hmem1)
        have hne2 : (rest ++ [home]).getD (i + 1) 0 ≠ (rest ++ [home]).getD 0 0 := by
          intro hc
          exact absurd (nodup_getD_inj hnodup3 0 (by omega) (by omega) hc) (by omega)
        rw [listSwap_getD_other _ _ _ _ hne1 hne2]
        have := hpairs (i + 1) (by simp; omega)
        rw [List.getD_cons_succ, List.getD_cons_succ] at this
        exact this)
    obtain ⟨r1, r2, r3, r4, r5⟩ := hres
    have hswaplen : (listSwap comps b ((rest ++ [home]).getD 0 0)).length = comps.length :=
      listSwap_length _ _ _
    refine ⟨?_, ?_, ?_, ?_, by rw [r5, hswaplen]⟩
    · intro j hj
      rcases List.mem_cons.1 hj with hj | hj
      · subst hj
        rw [r2 (ents.getD j NullEntity) ?_]
        · exact SparseIndex.setAt_eq _ _ _
        · intro j2 hj2
          have hj2mem : j2 ∈ b :: (rest ++ [home]) := by
            rcases List.mem_cons.1 hj2 with hj2 | hj2
            · rw [hj2]
              exact List.mem_cons_self ..
            · exact List.mem_cons_of_mem _ (List.mem_append_left _ hj2)
          refine hentne j2 j (hbounds j2 (List.mem_cons_of_mem _ hj2mem)) hcur ?_
          intro hc
          rw [hc] at hj2mem
          exact hcurnot hj2mem
      · exact r1 j hj
    · intro x hx
      rw [r2 x (fun j hj => hx j (List.mem_cons_of_mem _ hj))]
      exact SparseIndex.setAt_ne _ _ _ _
        (Ne.symm (hx current (List.mem_cons_self ..)))
    · intro j hj
      rcases List.mem_cons.1 hj with hjb | hj
      · rw [hjb]
        have hneb : (rest ++ [home]).getD 0 0 ≠ b := by
          intro hc
          rw [hc] at hb2mem
          exact hbnot hb2mem
        rw [r4 _ hbnot]
        rw [listSwap_getD_fst _ _ _ hneb (by omega)]
        have := hpairs 0 (by simp)
        rw [List.getD_cons_succ, hP0] at this
        exact this
      · exact r3 j hj
    · intro pos hpos
      have hpos1 : pos ∉ rest ++ [home] := by
        intro hc
        exact hpos (List.mem_cons_of_mem _ hc)
      have hpos2 : pos ≠ b := by
        intro hc
        exact hpos (hc ▸ List.mem_cons_self ..)
      have hpos3 : pos ≠ (rest ++ [home]).getD 0 0 := by
        intro hc
        exact hpos1 (hc ▸ hb2mem)
      rw [r4 pos hpos1]
      exact listSwap_getD_other _ _ _ _ hpos2 hpos3

theorem getD_map_range (g : Nat → Nat) (m i : Nat) (h : i < m) :
    ((List.range m).map g).getD i 0 = g i := by
  rw [getD_eq_getElem _ _ _ (by simpa using h)]
  simp

theorem nodup_of_getD_inj {l : List Nat}
    (h : ∀ i j, i < j → j < l.length → l.getD i 0 ≠ l.getD j 0) : l.Nodup := by
  rw [List.nodup_iff_injective_getElem]
  intro a b hab
  by_contra hne
  rcases Nat.lt_or_ge a.1 b.1 with h1 | h1
  · refine h a.1 b.1 h1 b.2 ?_
    rw [getD_eq_getElem _ _ _ a.2, getD_eq_getElem _ _ _ b.2]
    exact hab
  · have h2 : b.1 < a.1 := by
      rcases Nat.lt_or_ge b.1 a.1 with h2 | h2
      · exact h2
      · exact absurd (Fin.ext (by omega)) hne
    refine h b.1 a.1 h2 a.2 ?_
    rw [getD_eq_getElem _ _ _ a.2, getD_eq_getElem _ _ _ b.2]
    exact hab.symm

theorem iterate_lt_of_lt (p : Nat → Nat) (n : Nat) (hpn : ∀ j, j < n → p j < n) :
    ∀ (m x : Nat), x < n → p^[m] x < n := by
  intro m
  induction m with
  | zero =>
    intro x hx
    simpa using hx
  | succ m ih =>
    intro x hx
    rw [Function.iterate_succ_apply]
    exact ih (p x) (hpn x hx)

theorem iterate_inj_of_inj (p : Nat → Nat) (n : Nat) (hpn : ∀ j, j < n → p j < n)
    (hpinj : ∀ i j, i < n → j < n → p i = p j → i = j) :
    ∀ (m x y : Nat), x < n → y < n → p^[m] x = p^[m] y → x = y := by
  intro m
  induction m with
  | zero =>
    intro x y _ _ h
    simpa using h
  | succ m ih =>
    intro x y hx hy h
    rw [Function.iterate_succ_apply', Function.iterate_succ_apply'] at h
    exact ih x y hx hy (hpinj _ _ (iterate_lt_of_lt p n hpn m x hx)
      (iterate_lt_of_lt p n hpn m y hy) h)

theorem iterate_period_exists (p : Nat → Nat) (n : Nat) (f : Nat) (hf : f < n)
    (hpn : ∀ j, j < n → p j < n)
    (hpinj : ∀ i j, i < n → j < n → p i = p j → i = j) :
    ∃ m, 0 < m ∧ p^[m] f = f := by
  by_contra hno
  push_neg at hno
  have key : ∀ u v : Nat, u ≤ v → p^[u] f = p^[v] f → u = v := by
    intro u v huv heq
    by_contra hne
    have hlt : u < v := by omega
    have hsplit : p^[u] (p^[v - u] f) = p^[v] f := by
      rw [← Function.iterate_add_apply]
      have hv : u + (v - u) = v := by omega
      rw [hv]
    have hfeq : f = p^[v - u] f :=
      iterate_inj_of_inj p n hpn hpinj u f (p^[v - u] f) hf
        (iterate_lt_of_lt p n hpn _ f hf) (heq.trans hsplit.symm)
    exact hno (v - u) (by omega) hfeq.symm
  have hnodup : ((List.range (n + 1)).map (fun i => p^[i] f)).Nodup := by
    apply nodup_of_getD_inj
    intro a b hab hb
    simp only [List.length_map, List.length_range] at hb
    rw [getD_map_range _ _ _ (by omega), getD_map_range _ _ _ (by omega)]
    intro hc
    exact absurd (key a b (by omega) hc) (by omega)
  have hbnd2 : ∀ x ∈ (List.range (n + 1)).map (fun i => p^[i] f), x < n := by
    intro x hx
    obtain ⟨i, _, rfl⟩ := List.mem_map.1 hx
    exact iterate_lt_of_lt p n hpn i f hf
  have hlen := nodup_lt_length_le hnodup hbnd2
  simp at hlen

theorem sortWalk_orbit_spec {α : Type _} [Inhabited α] (ents : List Nat) (hnd : ents.Nodup)
    (q : Nat → Nat) (f k fuel : Nat) (s1 : SparseIndex) (comps1 : List α) (gv : Nat → α)
    (hk0 : 0 < k)
    (hper : q^[k] f = f)
    (hmin : ∀ m, 0 < m → m < k → q^[m] f ≠ f)
    (hdist : ∀ a b, a < b → b < k → q^[a] f ≠ q^[b] f)
    (hbnd : ∀ i, q^[i] f < ents.length)
    (hfuel : k + 1 ≤ fuel)
    (hcl : ents.length ≤ comps1.length)
    (hq : ∀ i, i < k → s1 (ents.getD (q^[i] f) NullEntity) = some (q^[i + 1] f))
    (hval : ∀ i, i < k → comps1.getD (q^[i + 1] f) default = gv (q^[i] f)) :
    (∀ i, i < k →
      (sortWalk ents fuel f (s1.atRead (ents.getD f NullEntity)) s1 comps1).1
        (ents.getD (q^[i] f) NullEntity) = some (q^[i] f)) ∧
    (∀ x, (∀ i, i < k → ents.getD (q^[i] f) NullEntity ≠ x) →
      (sortWalk ents fuel f (s1.atRead (ents.getD f NullEntity)) s1 comps1).1 x = s1 x) ∧
    (∀ i, i < k →
      (sortWalk ents fuel f (s1.atRead (ents.getD f NullEntity)) s1 comps1).2.getD
        (q^[i] f) default = gv (q^[i] f)) ∧
    (∀ pos, (∀ i, i < k → q^[i] f ≠ pos) →
      (sortWalk ents fuel f (s1.atRead (ents.getD f NullEntity)) s1 comps1).2.getD
        pos default = comps1.getD pos default) ∧
    (sortWalk ents fuel f (s1.atRead (ents.getD f NullEntity)) s1 comps1).2.length =
      comps1.length := by
  have hentne : ∀ x y, x < ents.length → y < ents.length → x ≠ y →
      ents.getD x NullEntity ≠ ents.getD y NullEntity := by
    intro x y hx hy hxy hc
    exact hxy (nodup_getD_inj hnd NullEntity hx hy hc)
  have hq0 := hq 0 hk0
  simp only [Function.iterate_zero_apply] at hq0
  have hread : s1.atRead (ents.getD f NullEntity) = q^[0 + 1] f := by
    rw [SparseIndex.atRead, hq0]
    rfl
  rw [hread]
  rcases Nat.lt_or_ge k 2 with hk1 | hk2
  · have hkeq : k = 1 := by omega
    have hq1 : q^[0 + 1] f = f := by
      rw [show 0 + 1 = k from by omega, hper]
    rw [hq1]
    obtain ⟨f2, rfl⟩ : ∃ f2, fuel = f2 + 1 := ⟨fuel - 1, by omega⟩
    unfold sortWalk
    rw [if_pos rfl]
    refine ⟨?_, ?_, ?_, ?_, rfl⟩
    · intro i hi
      obtain rfl : i = 0 := by omega
      have h0 := hq 0 (by omega)
      rw [hq1] at h0
      simpa using h0
    · intro x _
      rfl
    · intro i hi
      obtain rfl : i = 0 := by omega
      have h0 := hval 0 (by omega)
      rw [hq1] at h0
      simpa using h0
    · intro pos _
      rfl
  · obtain ⟨f1, rfl⟩ : ∃ f1, fuel = f1 + 1 := ⟨fuel - 1, by omega⟩
    unfold sortWalk
    have hne01 : f ≠ q^[0 + 1] f := by
      intro hc
      exact hmin (0 + 1) (by omega) (by omega) hc.symm
    rw [if_neg hne01]
    have hread2 : s1.atRead (ents.getD (q^[0 + 1] f) NullEntity) = q^[0 + 1 + 1] f := by
      have h1 := hq (0 + 1) (by omega)
      rw [SparseIndex.atRead, h1]
      rfl
    rw [hread2]
    have hgetL : ∀ i, i < k - 1 →
        (((List.range (k - 2)).map (fun j => q^[j + 2] f) ++ [f]).getD i 0) = q^[i + 2] f := by
      intro i hi
      rcases Nat.lt_or_ge i (k - 2) with h2 | h2
      · rw [getD_append_left _ _ _ _ (by simpa using h2), getD_map_range _ _ _ h2]
      · rw [getD_append_right _ _ _ _ (by simpa using h2)]
        simp only [List.length_map, List.length_range]
        have h0 : i - (k - 2) = 0 := by omega
        rw [h0, show i + 2 = k from by omega, hper]
        rfl
    have h02 : q^[0 + 1 + 1] f =
        ((List.range (k - 2)).map (fun j => q^[j + 2] f) ++ [f]).getD 0 0 := by
      rw [hgetL 0 (by omega)]
    rw [h02]
    have hgetFL : ∀ i, i < k →
        ((q^[0 + 1] f :: ((List.range (k - 2)).map (fun j => q^[j + 2] f) ++ [f])).getD
          i 0) = q^[i + 1] f := by
      intro i hi
      cases i with
      | zero => rfl
      | succ i =>
        rw [show i + 1 + 1 = i + 2 from by omega, List.getD_cons_succ, hgetL i (by omega)]
    have hlenFL :
        (q^[0 + 1] f :: ((List.range (k - 2)).map (fun j => q^[j + 2] f) ++ [f])).length
          = k := by
      simp only [List.length_cons, List.length_append, List.length_map, List.length_range,
        List.length_singleton, List.length_nil]
      omega
    have hndFL :
        (q^[0 + 1] f :: ((List.range (k - 2)).map (fun j => q^[j + 2] f) ++ [f])).Nodup := by
      apply nodup_of_getD_inj
      intro a b hab hb
      rw [hlenFL] at hb
      rw [hgetFL a (by omega), hgetFL b hb]
      rcases Nat.lt_or_ge (b + 1) k with hbk | hbk
      · exact hdist (a + 1) (b + 1) (by omega) hbk
      · rw [show b + 1 = k from by omega, hper]
        intro hc
        exact hmin (a + 1) (by omega) (by omega) hc
    have hmemFL : ∀ j, j ∈ q^[0 + 1] f ::
        ((List.range (k - 2)).map (fun i => q^[i + 2] f) ++ [f]) →
        ∃ i, i < k ∧ j = q^[i] f := by
      intro j hj
      rcases List.mem_cons.1 hj with hj | hj
      · exact ⟨0 + 1, by omega, hj⟩
      · rcases List.mem_append.1 hj with hj | hj
        · obtain ⟨i, hi, rfl⟩ := List.mem_map.1 hj
          have hik : i < k - 2 := List.mem_range.1 hi
          exact ⟨i + 2, by omega, rfl⟩
        · have hjf : j = f := by simpa using hj
          exact ⟨0, by omega, by rw [hjf]; simp⟩
    have hmem_of : ∀ i, 1 ≤ i → i < k → q^[i] f ∈ q^[0 + 1] f ::
        (List.range (k - 2)).map (fun j => q^[j + 2] f) := by
      intro i h1 hik
      rcases Nat.eq_or_lt_of_le h1 with h1 | h1
      · rw [show i = 0 + 1 from by omega]
        exact List.mem_cons_self ..
      · refine List.mem_cons_of_mem _ (List.mem_map.2 ⟨i - 2, List.mem_range.2 (by omega), ?_⟩)
        rw [show i - 2 + 2 = i from by omega]
    have hmemR_of : ∀ i, i < k → i ≠ 1 → q^[i] f ∈
        (List.range (k - 2)).map (fun j => q^[j + 2] f) ++ [f] := by
      intro i hik hne1
      rcases Nat.eq_zero_or_pos i with h0 | h0
      · refine List.mem_append_right _ ?_
        rw [h0]
        simp
      · refine List.mem_append_left _ (List.mem_map.2 ⟨i - 2, List.mem_range.2 (by omega), ?_⟩)
        rw [show i - 2 + 2 = i from by omega]
    have hnotmemR : ∀ i, i < k → i ≠ 0 → (∀ a, a < k → q^[a] f ≠ q^[i] f → True) → q^[i] f ∉
        (List.range (k - 2)).map (fun j => q^[j + 2] f) ++ [f] → True := fun _ _ _ _ _ =>
      trivial
    have hres := sortWalk_spec ents hnd gv
      ((List.range (k - 2)).map (fun j => q^[j + 2] f)) (q^[0 + 1] f) f
      (s1.setAt (ents.getD f NullEntity) f)
      (listSwap comps1 (q^[0 + 1] f)
        (((List.range (k - 2)).map (fun j => q^[j + 2] f) ++ [f]).getD 0 0)) f1
      (by simp only [List.length_map, List.length_range]; omega)
      (by
        intro x hx
        obtain ⟨i, _, rfl⟩ := hmemFL x hx
        exact hbnd i)
      hndFL
      (by rw [listSwap_length]; exact hcl)
      (by
        intro i hi
        simp only [List.cons_append] at hi ⊢
        rw [hlenFL] at hi
        rw [hgetFL i (by omega), hgetFL (i + 1) (by omega)]
        have hne : q^[i + 1] f ≠ f := by
          intro hc
          exact hmin (i + 1) (by omega) (by omega) hc
        have hflt : f < ents.length := by simpa using hbnd 0
        rw [SparseIndex.setAt_ne _ _ _ _ (hentne _ _ (hbnd (i + 1)) hflt hne)]
        exact hq (i + 1) (by omega))
      (SparseIndex.setAt_eq _ _ _)
      (by
        rw [hgetL 0 (by omega)]
        rw [listSwap_getD_snd comps1 (q^[0 + 1] f) (q^[0 + 2] f) (by
          have h2 := hbnd (0 + 2)
          omega)]
        have h0 := hval 0 (by omega)
        simp only [Function.iterate_zero_apply] at h0
        exact h0)
      (by
        intro i hi
        simp only [List.length_append, List.length_map, List.length_range,
          List.length_singleton, List.length_cons, List.length_nil] at hi
        rw [hgetL (i + 1) (by omega), hgetL i (by omega), hgetL 0 (by omega)]
        have hne1 : q^[i + 1 + 2] f ≠ q^[0 + 1] f := by
          rcases Nat.lt_or_ge (i + 1 + 2) k with hik | hik
          · exact fun hc => hdist (0 + 1) (i + 1 + 2) (by omega) hik hc.symm
          · rw [show i + 1 + 2 = k from by omega, hper]
            exact fun hc => hmin (0 + 1) (by omega) (by omega) hc.symm
        have hne2 : q^[i + 1 + 2] f ≠ q^[0 + 2] f := by
          rcases Nat.lt_or_ge (i + 1 + 2) k with hik | hik
          · exact fun hc => hdist (0 + 2) (i + 1 + 2) (by omega) hik hc.symm
          · rw [show i + 1 + 2 = k from by omega, hper]
            exact fun hc => hmin (0 + 2) (by omega) (by omega) hc.symm
        rw [listSwap_getD_other _ _ _ _ hne1 hne2]
        have h2 := hval (i + 2) (by omega)
        rw [show i + 2 + 1 = i + 1 + 2 from by omega] at h2
        exact h2)
    obtain ⟨r1, r2, r3, r4, r5⟩ := hres
    refine ⟨?_, ?_, ?_, ?_, by rw [r5, listSwap_length]⟩
    · intro i hi
      rcases Nat.eq_zero_or_pos i with h0 | h0
      · subst h0
        simp only [Function.iterate_zero_apply]
        rw [r2 (ents.getD f NullEntity) ?_]
        · exact SparseIndex.setAt_eq _ _ _
        · intro j hj
          obtain ⟨a, hak, rfl⟩ : ∃ a, a < k ∧ j = q^[a] f := by
            rcases List.mem_cons.1 hj with hj | hj
            · exact ⟨0 + 1, by omega, hj⟩
            · obtain ⟨a, ha, rfl⟩ := List.mem_map.1 hj
              have := List.mem_range.1 ha
              exact ⟨a + 2, by omega, rfl⟩
          have hane : q^[a] f ≠ f := by
            intro hc
            rcases Nat.eq_zero_or_pos a with ha0 | ha0
            · rcases List.mem_cons.1 hj with hj | hj
              · rw [ha0] at hj
                simp only [Function.iterate_zero_apply] at hj
                exact hne01 hj
              · obtain ⟨a2, ha2, heq⟩ := List.mem_map.1 hj
                rw [ha0] at heq
                simp only [Function.iterate_zero_apply] at heq
                have := List.mem_range.1 ha2
                exact hmin (a2 + 2) (by omega) (by omega) heq
            · exact hmin a ha0 hak hc
          exact hentne _ _ (hbnd a) (by simpa using hbnd 0) hane
      · exact r1 _ (hmem_of i h0 hi)
    · intro x hx
      rw [r2 x ?_]
      · refine SparseIndex.setAt_ne _ _ _ _ ?_
        have := hx 0 (by omega)
        simp only [Function.iterate_zero_apply] at this
        exact Ne.symm this
      · intro j hj
        obtain ⟨a, hak, rfl⟩ := hmemFL j (by
          rcases List.mem_cons.1 hj with hj | hj
          · exact List.mem_cons.2 (Or.inl hj)
          · exact List.mem_cons.2 (Or.inr (List.mem_append_left _ hj)))
        exact hx a hak
    · intro i hi
      rcases Nat.lt_or_ge i 2 with hi2 | hi2
      · rcases Nat.eq_zero_or_pos i with h0 | h0
        · subst h0
          simp only [Function.iterate_zero_apply]
          have := r3 f (List.mem_append_right _ (by simp))
          exact this
        · obtain rfl : i = 1 := by omega
          have hpos1 : q^[1] f ∉
              (List.range (k - 2)).map (fun j => q^[j + 2] f) ++ [f] := by
            intro hc
            rcases List.mem_append.1 hc with hc | hc
            · obtain ⟨a, ha, heq⟩ := List.mem_map.1 hc
              have := List.mem_range.1 ha
              exact hdist 1 (a + 2) (by omega) (by omega) heq.symm
            · have : q^[1] f = f := by simpa using hc
              exact hmin 1 (by omega) (by omega) this
          rw [r4 _ hpos1, hgetL 0 (by omega)]
          have hne21 : q^[0 + 2] f ≠ q^[0 + 1] f := by
            rcases Nat.lt_or_ge k 3 with h3 | h3
            · rw [show 0 + 2 = k from by omega, hper]
              exact hne01
            · exact fun hc => hdist (0 + 1) (0 + 2) (by omega) (by omega) hc.symm
          have key : (listSwap comps1 (q^[0 + 1] f) (q^[0 + 2] f)).getD (q^[0 + 1] f) default
              = gv (q^[0 + 1] f) := by
            rw [listSwap_getD_fst _ _ _ hne21 (by
              have h2 := hbnd (0 + 1)
              omega)]
            have h1 := hval (0 + 1) (by omega)
            rw [show 0 + 1 + 1 = 0 + 2 from by omega] at h1
            exact h1
          exact key
      · exact r3 _ (hmemR_of i hi (by omega))
    · intro pos hpos
      have hposR : pos ∉ (List.range (k - 2)).map (fun j => q^[j + 2] f) ++ [f] := by
        intro hc
        rcases List.mem_append.1 hc with hc | hc
        · obtain ⟨a, ha, heq⟩ := List.mem_map.1 hc
          have := List.mem_range.1 ha
          exact hpos (a + 2) (by omega) heq
        · have hcf : pos = f := by simpa using hc
          refine hpos 0 (by omega) ?_
          simpa using hcf.symm
      rw [r4 _ hposR, hgetL 0 (by omega)]
      have hpos2 : pos ≠ q^[0 + 2] f := by
        rcases Nat.lt_or_ge k 3 with h3 | h3
        · rw [show 0 + 2 = k from by omega, hper]
          have := hpos 0 (by omega)
          simp only [Function.iterate_zero_apply] at this
          exact Ne.symm this
        · exact Ne.symm (hpos (0 + 2) (by omega))
      exact listSwap_getD_other _ _ _ _ (Ne.symm (hpos (0 + 1) (by omega))) hpos2

theorem sortPatch_spec {α : Type _} [Inhabited α] (ents : List Nat) (hnd : ents.Nodup)
    (s : SparseIndex) (comps : List α) (p : Nat → Nat) (gv : Nat → α)
    (hpn : ∀ j, j < ents.length → p j < ents.length)
    (hpinj : ∀ i j, i < ents.length → j < ents.length → p i = p j → i = j)
    (hsp : ∀ j, j < ents.length → s (ents.getD j NullEntity) = some (p j))
    (hcl : ents.length ≤ comps.length)
    (hgv : ∀ j, j < ents.length → comps.getD (p j) default = gv j) :
    (∀ j, j < ents.length →
      (sortPatch ents s comps).1 (ents.getD j NullEntity) = some j) ∧
    (∀ x, (∀ j, j < ents.length → ents.getD j NullEntity ≠ x) →
      (sortPatch ents s comps).1 x = s x) ∧
    (∀ j, j < ents.length → (sortPatch ents s comps).2.getD j default = gv j) ∧
    (∀ pos, ents.length ≤ pos →
      (sortPatch ents s comps).2.getD pos default = comps.getD pos default) ∧
    (sortPatch ents s comps).2.length = comps.length := by
  have hentne : ∀ x y, x < ents.length → y < ents.length → x ≠ y →
      ents.getD x NullEntity ≠ ents.getD y NullEntity := by
    intro x y hx hy hxy hc
    exact hxy (nodup_getD_inj hnd NullEntity hx hy hc)
  have main : ∀ f, f ≤ ents.length → ∃ D : Set Nat, ∃ s1 : SparseIndex, ∃ comps1 : List α,
      (List.range f).foldl
        (fun st fr =>
          sortWalk ents (ents.length + 1) fr (st.1.atRead (ents.getD fr NullEntity))
            st.1 st.2) (s, comps) = (s1, comps1) ∧
      (∀ j, j ∈ D → j < ents.length) ∧
      (∀ j, j < f → j ∈ D) ∧
      (∀ j, j < ents.length → (j ∈ D ↔ p j ∈ D)) ∧
      (∀ j, j ∈ D → s1 (ents.getD j NullEntity) = some j) ∧
      (∀ j, j < ents.length → j ∉ D → s1 (ents.getD j NullEntity) = some (p j)) ∧
      (∀ x, (∀ j, j < ents.length → ents.getD j NullEntity ≠ x) → s1 x = s x) ∧
      (∀ j, j ∈ D → comps1.getD j default = gv j) ∧
      (∀ j, j < ents.length → j ∉ D → comps1.getD j default = comps.getD j default) ∧
      (∀ pos, ents.length ≤ pos → comps1.getD pos default = comps.getD pos default) ∧
      comps1.length = comps.length := by
    intro f
    induction f with
    | zero =>
      intro _
      refine ⟨∅, s, comps, rfl, ?_, ?_, ?_, ?_, ?_, ?_, ?_, ?_, ?_, rfl⟩
      · intro j hj
        simp at hj
      · intro j hj
        omega
      · intro j _
        simp
      · intro j hj
        simp at hj
      · intro j hj _
        exact hsp j hj
      · intro x _
        rfl
      · intro j hj
        simp at hj
      · intro j _ _
        rfl
      · intro pos _
        rfl
    | succ f ih =>
      intro hfn
      obtain ⟨D, s1, comps1, heq, c1, c2, c3, c4, c5, c6, c7, c8, c9, c10⟩ := ih (by omega)
      have hfn2 : f < ents.length := by omega
      rw [List.range_succ, List.foldl_append, heq]
      simp only [List.foldl_cons, List.foldl_nil]
      by_cases hfD : f ∈ D
      · have hwalk : sortWalk ents (ents.length + 1) f
            (s1.atRead (ents.getD f NullEntity)) s1 comps1 = (s1, comps1) := by
          have hread : s1.atRead (ents.getD f NullEntity) = f := by
            rw [SparseIndex.atRead, c4 f hfD]
            rfl
          rw [hread]
          unfold sortWalk
          rw [if_pos rfl]
        refine ⟨D, s1, comps1, hwalk, c1, ?_, c3, c4, c5, c6, c7, c8, c9, c10⟩
        intro j hj
        rcases Nat.lt_or_ge j f with hj2 | hj2
        · exact c2 j hj2
        · have hjf : j = f := by omega
          rw [hjf]
          exact hfD
      · have hex : ∃ m, 0 < m ∧ p^[m] f = f :=
          iterate_period_exists p ents.length f hfn2 hpn hpinj
        obtain ⟨k, hk0, hper, hmin⟩ :
            ∃ k, 0 < k ∧ p^[k] f = f ∧ ∀ m, 0 < m → m < k → p^[m] f ≠ f :=
          ⟨Nat.find hex, (Nat.find_spec hex).1, (Nat.find_spec hex).2,
            fun m h0 hm hc => Nat.find_min hex hm ⟨h0, hc⟩⟩
        have hbnd : ∀ i, p^[i] f < ents.length :=
          fun i => iterate_lt_of_lt p ents.length hpn i f hfn2
        have hOD : ∀ i, p^[i] f ∉ D := by
          intro i
          induction i with
          | zero => simpa using hfD
          | succ i ih2 =>
            intro hc
            rw [Function.iterate_succ_apply'] at hc
            exact ih2 ((c3 (p^[i] f) (hbnd i)).2 hc)
        have hdist : ∀ a b, a < b → b < k → p^[a] f ≠ p^[b] f := by
          intro a b hab hbk hc
          have hsplit : p^[a] (p^[b - a] f) = p^[b] f := by
            rw [← Function.iterate_add_apply]
            rw [show a + (b - a) = b from by omega]
          have hfeq : f = p^[b - a] f :=
            iterate_inj_of_inj p ents.length hpn hpinj a f (p^[b - a] f) hfn2 (hbnd _)
              (hc.trans hsplit.symm)
          exact hmin (b - a) (by omega) (by omega) hfeq.symm
        have hkn : k ≤ ents.length := by
          have hnodupO : ((List.range k).map (fun i => p^[i] f)).Nodup := by
            apply nodup_of_getD_inj
            intro a b hab hb
            simp only [List.length_map, List.length_range] at hb
            rw [getD_map_range _ _ _ (by omega), getD_map_range _ _ _ hb]
            exact hdist a b hab hb
          have hbndO : ∀ x ∈ (List.range k).map (fun i => p^[i] f), x < ents.length := by
            intro x hx
            obtain ⟨i, _, rfl⟩ := List.mem_map.1 hx
            exact hbnd i
          have := nodup_lt_length_le hnodupO hbndO
          simpa using this
        have hq : ∀ i, i < k → s1 (ents.getD (p^[i] f) NullEntity) = some (p^[i + 1] f) := by
          intro i _
          rw [Function.iterate_succ_apply']
          exact c5 (p^[i] f) (hbnd i) (hOD i)
        have hval : ∀ i, i < k → comps1.getD (p^[i + 1] f) default = gv (p^[i] f) := by
          intro i _
          rw [c8 (p^[i + 1] f) (hbnd (i + 1)) (hOD (i + 1))]
          rw [Function.iterate_succ_apply']
          exact hgv (p^[i] f) (hbnd i)
        have hcl1 : ents.length ≤ comps1.length := by
          rw [c10]
          exact hcl
        obtain ⟨w1, w2, w3, w4, w5⟩ := sortWalk_orbit_spec ents hnd p f k
          (ents.length + 1) s1 comps1 gv hk0 hper hmin hdist hbnd (by omega) hcl1 hq hval
        refine ⟨D ∪ {y | ∃ i, i < k ∧ y = p^[i] f},
          (sortWalk ents (ents.length + 1) f
            (s1.atRead (ents.getD f NullEntity)) s1 comps1).1,
          (sortWalk ents (ents.length + 1) f
            (s1.atRead (ents.getD f NullEntity)) s1 comps1).2,
          rfl, ?_, ?_, ?_, ?_, ?_, ?_, ?_, ?_, ?_, by rw [w5, c10]⟩
        · intro j hj
          rcases hj with hj | hj
          · exact c1 j hj
          · obtain ⟨i, _, rfl⟩ := hj
            exact hbnd i
        · intro j hj
          rcases Nat.lt_or_ge j f with hj2 | hj2
          · exact Or.inl (c2 j hj2)
          · refine Or.inr ⟨0, hk0, ?_⟩
            simp
            omega
        · intro j hjn
          constructor
          · intro hj
            rcases hj with hj | hj
            · exact Or.inl ((c3 j hjn).1 hj)
            · obtain ⟨i, hik, rfl⟩ := hj
              rcases Nat.lt_or_ge (i + 1) k with hik2 | hik2
              · refine Or.inr ⟨i + 1, hik2, ?_⟩
                rw [Function.iterate_succ_apply']
              · refine Or.inr ⟨0, hk0, ?_⟩
                have : p (p^[i] f) = p^[i + 1] f := (Function.iterate_succ_apply' p i f).symm
                rw [this, show i + 1 = k from by omega, hper]
                simp
          · intro hj
            rcases hj with hj | hj
            · exact Or.inl ((c3 j hjn).2 hj)
            · obtain ⟨i, hik, hpj⟩ := hj
              rcases Nat.eq_zero_or_pos i with hi0 | hi0
              · have h1 : p (p^[k - 1] f) = f := by
                  rw [(Function.iterate_succ_apply' p (k - 1) f).symm]
                  rw [show Nat.succ (k - 1) = k from by omega, hper]
                have hpk : p j = p (p^[k - 1] f) := by
                  rw [hpj, hi0, h1]
                  simp
                have := hpinj j (p^[k - 1] f) hjn (hbnd _) hpk
                exact Or.inr ⟨k - 1, by omega, this⟩
              · have h1 : p (p^[i - 1] f) = p^[i] f := by
                  rw [(Function.iterate_succ_apply' p (i - 1) f).symm]
                  rw [show Nat.succ (i - 1) = i from by omega]
                have hpk : p j = p (p^[i - 1] f) := by
                  rw [hpj, ← h1]
                have := hpinj j (p^[i - 1] f) hjn (hbnd _) hpk
                exact Or.inr ⟨i - 1, by omega, this⟩
        · intro j hj
          rcases hj with hj | hj
          · rw [w2 (ents.getD j NullEntity) ?_]
            · exact c4 j hj
            · intro i hik
              refine hentne _ _ (hbnd i) (c1 j hj) ?_
              intro hc
              exact hOD i (hc ▸ hj)
          · obtain ⟨i, hik, rfl⟩ := hj
            exact w1 i hik
        · intro j hjn hj
          rw [w2 (ents.getD j NullEntity) ?_]
          · exact c5 j hjn fun hc => hj (Or.inl hc)
          · intro i hik
            refine hentne _ _ (hbnd i) hjn ?_
            intro hc
            exact hj (Or.inr ⟨i, hik, hc.symm⟩)
        · intro x hx
          rw [w2 x ?_]
          · exact c6 x hx
          · intro i hik
            exact hx (p^[i] f) (hbnd i)
        · intro j hj
          rcases hj with hj | hj
          · rw [w4 j ?_]
            · exact c7 j hj
            · intro i hik hc
              exact hOD i (hc ▸ hj)
          · obtain ⟨i, hik, rfl⟩ := hj
            exact w3 i hik
        · intro j hjn hj
          rw [w4 j ?_]
          · exact c8 j hjn fun hc => hj (Or.inl hc)
          · intro i hik hc
            exact hj (Or.inr ⟨i, hik, hc.symm⟩)
        · intro pos hpos
          rw [w4 pos ?_]
          · exact c9 pos hpos
          · intro i hik hc
            have := hbnd i
            omega
  obtain ⟨D, s2, comps2, heq, c1, c2, c3, c4, c5, c6, c7, c8, c9, c10⟩ :=
    main ents.length (le_refl _)
  have hres : sortPatch ents s comps = (s2, comps2) := by
    unfold sortPatch
    exact heq
  rw [hres]
  exact ⟨fun j hj => c4 j (c2 j hj), c6, fun j hj => c7 j (c2 j hj), c9, c10⟩

theorem dense_sort_wf {α : Type _} [Inhabited α] (t : DenseTable α) (cmp : Nat → Nat → Bool)
    (h : DenseWf t) :
    DenseWf (t.sort cmp) ∧
    (t.sort cmp).entities = t.entities.mergeSort (fun a b => !cmp b a) ∧
    (∀ e, e ∈ t.entities → (t.sort cmp).get e = t.get e) := by
  have hperm : (t.entities.mergeSort (fun a b => !cmp b a)).Perm t.entities :=
    List.mergeSort_perm t.entities _
  have hnd : (t.entities.mergeSort (fun a b => !cmp b a)).Nodup :=
    hperm.nodup_iff.2 h.nodup
  have hlen : (t.entities.mergeSort (fun a b => !cmp b a)).length = t.entities.length :=
    hperm.length_eq
  have hpval : ∀ j, j < (t.entities.mergeSort (fun a b => !cmp b a)).length →
      t.indexSet ((t.entities.mergeSort (fun a b => !cmp b a)).getD j NullEntity) =
        some (t.indexSet.atRead
          ((t.entities.mergeSort (fun a b => !cmp b a)).getD j NullEntity)) ∧
      t.indexSet.atRead ((t.entities.mergeSort (fun a b => !cmp b a)).getD j NullEntity) <
        t.entities.length ∧
      t.entities.getD (t.indexSet.atRead
        ((t.entities.mergeSort (fun a b => !cmp b a)).getD j NullEntity)) NullEntity =
        (t.entities.mergeSort (fun a b => !cmp b a)).getD j NullEntity := by
    intro j hj
    have hmem : (t.entities.mergeSort (fun a b => !cmp b a)).getD j NullEntity ∈ t.entities :=
      hperm.mem_iff.1 (getD_mem _ _ _ hj)
    obtain ⟨oi, hoi, hget, hsome⟩ := h.index_of_mem hmem
    have hread : t.indexSet.atRead
        ((t.entities.mergeSort (fun a b => !cmp b a)).getD j NullEntity) = oi := by
      rw [SparseIndex.atRead, hsome]
      rfl
    rw [hread]
    exact ⟨hsome, hoi, hget⟩
  obtain ⟨P1, P2, P3, P4, P5⟩ := sortPatch_spec (t.entities.mergeSort (fun a b => !cmp b a))
    hnd t.indexSet t.components
    (fun j => t.indexSet.atRead
      ((t.entities.mergeSort (fun a b => !cmp b a)).getD j NullEntity))
    (fun j => t.components.getD (t.indexSet.atRead
      ((t.entities.mergeSort (fun a b => !cmp b a)).getD j NullEntity)) default)
    (by
      intro j hj
      rw [hlen]
      exact ((hpval j hj).2).1)
    (by
      intro i j hi hj heq
      have h1 := hpval i hi
      have h2 := hpval j hj
      refine nodup_getD_inj hnd NullEntity hi hj ?_
      rw [← h1.2.2, ← h2.2.2]
      exact congrArg (fun z => t.entities.getD z NullEntity) heq)
    (fun j hj => (hpval j hj).1)
    (by
      rw [hlen, h.1])
    (fun j hj => rfl)
  have hsort : t.sort cmp =
      { indexSet := (sortPatch (t.entities.mergeSort (fun a b => !cmp b a))
          t.indexSet t.components).1
        entities := t.entities.mergeSort (fun a b => !cmp b a)
        components := (sortPatch (t.entities.mergeSort (fun a b => !cmp b a))
          t.indexSet t.components).2 } := by
    unfold DenseTable.sort
    rfl
  refine ⟨⟨?_, ?_, ?_⟩, by rw [hsort], ?_⟩
  · rw [hsort]
    show (t.entities.mergeSort (fun a b => !cmp b a)).length = _
    rw [hlen, h.1, ← P5]
  · intro i hi
    rw [hsort] at hi ⊢
    exact P1 i hi
  · intro e he
    rw [hsort] at he ⊢
    show (sortPatch (t.entities.mergeSort (fun a b => !cmp b a))
      t.indexSet t.components).1 e = none
    rw [P2 e ?_]
    · refine h.2.2 e ?_
      intro hc
      exact he (hperm.mem_iff.2 hc)
    · intro j hj hc
      exact he (hc ▸ getD_mem _ _ _ hj)
  · intro e he
    have hmem : e ∈ t.entities.mergeSort (fun a b => !cmp b a) := hperm.mem_iff.2 he
    obtain ⟨j, hj, hget⟩ :=
      (mem_iff_getD (t.entities.mergeSort (fun a b => !cmp b a)) e NullEntity).1 hmem
    rw [hsort]
    show (sortPatch (t.entities.mergeSort (fun a b => !cmp b a))
        t.indexSet t.components).2.getD
      ((sortPatch (t.entities.mergeSort (fun a b => !cmp b a))
        t.indexSet t.components).1.atRead e) default = t.get e
    have hs : (sortPatch (t.entities.mergeSort (fun a b => !cmp b a))
        t.indexSet t.components).1 e = some j := by
      rw [← hget]
      exact P1 j hj
    have hsread : (sortPatch (t.entities.mergeSort (fun a b => !cmp b a))
        t.indexSet t.components).1.atRead e = j := by
      rw [SparseIndex.atRead, hs]
      rfl
    rw [hsread, P3 j hj, hget]
    rfl

theorem dense_sort_sorted {α : Type _} [Inhabited α] (t : DenseTable α)
    (cmp : Nat → Nat → Bool)
    (hasym : ∀ a b, cmp a b = true → cmp b a = false)
    (hneg : ∀ a b c, cmp b a = false → cmp c b = false → cmp c a = false)
    (h : DenseWf t) :
    (t.sort cmp).entities.Pairwise (fun a b => cmp b a = false) := by
  obtain ⟨_, hE, _⟩ := dense_sort_wf t cmp h
  rw [hE]
  have hs := @List.sorted_mergeSort Nat (fun a b => !cmp b a)
    (by
      intro a b c hab hbc
      simp only [Bool.not_eq_true', Bool.not_eq_false'] at hab hbc ⊢
      exact hneg a b c hab hbc)
    (by
      intro a b
      simp only [Bool.or_eq_true, Bool.not_eq_true', Bool.not_eq_false']
      cases hcab : cmp a b with
      | false => exact Or.inr rfl
      | true => exact Or.inl (hasym a b hcab))
    t.entities
  exact hs.imp (by
    intro a b hab
    simpa using hab)

/-! ### Operation sequences over the dense table

The public interface of the dense ComponentTable, together with a ghost
record of the component value most recently written for each entity;
the stepwise invariant couples the packed arrays to that record. -/

theorem getD_replicate {α : Type _} (n j : Nat) (v d : α) (h : j < n) :
    (List.replicate n v).getD j d = v := by
  rw [getD_eq_getElem _ _ _ (by simpa using h)]
  simp

def updateFn {α : Type _} (f : Nat → α) (e : Nat) (v : α) : Nat → α :=
  fun x => if x = e then v else f x

/-- One operation of the dense ComponentTable interface. -/
inductive DenseOp (α : Type _) where
  | add (e : Nat) (v : α)
  | tryAdd (e : Nat) (v : α)
  | addRange (r : EntityRange) (v : α)
  | remove (e : Nat)
  | tryRemove (e : Nat)
  | removeRange (r : EntityRange)
  | extract (e : Nat)
  | sort (cmp : Nat → Nat → Bool)
  | clear

/-- Release-build effect of each operation on the table. -/
def DenseOp.apply {α : Type _} [Inhabited α] (t : DenseTable α) : DenseOp α → DenseTable α
  | .add e v => t.add e v
  | .tryAdd e v => t.tryAdd e v
  | .addRange r v => t.addRange r v
  | .remove e => t.remove e
  | .tryRemove e => (t.tryRemove e).2
  | .removeRange r => t.removeRange r
  | .extract e => (t.extract e).2
  | .sort cmp => t.sort cmp
  | .clear => t.clear

/-- The documented (kFAssert-checked) precondition of each operation. -/
def DenseOp.pre {α : Type _} (t : DenseTable α) : DenseOp α → Prop
  | .add e _ => e ∉ t.entities
  | .tryAdd _ _ => True
  | .addRange r _ => ∀ x ∈ t.entities, x < r.begin_ ∨ r.end_ ≤ x
  | .remove e => e ∈ t.entities
  | .tryRemove _ => True
  | .removeRange _ => True
  | .extract e => e ∈ t.entities
  | .sort _ => True
  | .clear => True

/-- Effect of each operation on the ghost value record. -/
def DenseOp.model {α : Type _} (f : Nat → α) : DenseOp α → Nat → α
  | .add e v => updateFn f e v
  | .tryAdd e v => updateFn f e v
  | .addRange r v => fun x => if inEntityRange r x then v else f x
  | .remove _ => f
  | .tryRemove _ => f
  | .removeRange _ => f
  | .extract _ => f
  | .sort _ => f
  | .clear => f

/-- The C1 invariant: well-formed packed storage whose component cells
hold, position by position, the ghost value of the entity stored there. -/
def DenseInv {α : Type _} [Inhabited α] (f : Nat → α) (t : DenseTable α) : Prop :=
  DenseWf t ∧
  ∀ i, i < t.entities.length → t.components.getD i default = f (t.entities.getD i NullEntity)

theorem DenseInv.get_eq {α : Type _} [Inhabited α] {f : Nat → α} {t : DenseTable α}
    (h : DenseInv f t) : ∀ e ∈ t.entities, t.get e = f e := by
  intro e he
  obtain ⟨i, hi, hget, hsome⟩ := h.1.index_of_mem he
  show t.components.getD (t.indexSet.atRead e) default = f e
  have hread : t.indexSet.atRead e = i := by
    rw [SparseIndex.atRead, hsome]
    rfl
  rw [hread, h.2 i hi, hget]

theorem denseInv_of_get {α : Type _} [Inhabited α] {f : Nat → α} {t : DenseTable α}
    (hwf : DenseWf t) (hget : ∀ e ∈ t.entities, t.get e = f e) : DenseInv f t := by
  refine ⟨hwf, ?_⟩
  intro i hi
  have hmem := getD_mem t.entities i NullEntity hi
  have hg := hget _ hmem
  have hread : t.indexSet.atRead (t.entities.getD i NullEntity) = i := by
    rw [SparseIndex.atRead, hwf.2.1 i hi]
    rfl
  show t.components.getD i default = _
  have hg2 : t.components.getD (t.indexSet.atRead (t.entities.getD i NullEntity)) default
      = f (t.entities.getD i NullEntity) := hg
  rw [hread] at hg2
  exact hg2

theorem denseInv_addImpl {α : Type _} [Inhabited α] {f : Nat → α} {t : DenseTable α}
    (h : DenseInv f t) {e : Nat} (he : e ∉ t.entities) (v : α) :
    DenseInv (updateFn f e v) (t.addImpl e v) := by
  have hlen := h.1.1
  refine ⟨denseWf_addImpl h.1 he v, ?_⟩
  intro i hi
  simp only [DenseTable.addImpl, List.length_append, List.length_cons, List.length_nil] at hi
  show (t.components ++ [v]).getD i default =
    updateFn f e v ((t.entities ++ [e]).getD i NullEntity)
  by_cases hilt : i < t.entities.length
  · rw [getD_append_left _ _ _ _ hilt, getD_append_left _ _ _ _ (by omega)]
    rw [h.2 i hilt]
    unfold updateFn
    rw [if_neg ?_]
    intro hc
    exact he (hc ▸ getD_mem _ _ _ hilt)
  · rw [getD_append_right _ _ _ _ (by omega), getD_append_right _ _ _ _ (by omega)]
    rw [show i - t.components.length = 0 from by omega,
      show i - t.entities.length = 0 from by omega]
    show v = updateFn f e v e
    unfold updateFn
    rw [if_pos rfl]

theorem denseInv_add {α : Type _} [Inhabited α] {f : Nat → α} {t : DenseTable α}
    (h : DenseInv f t) {e : Nat} (he : e ∉ t.entities) (v : α) :
    DenseInv (updateFn f e v) (t.add e v) :=
  denseInv_addImpl h he v

theorem denseInv_tryAdd {α : Type _} [Inhabited α] {f : Nat → α} {t : DenseTable α}
    (h : DenseInv f t) (e : Nat) (v : α) :
    DenseInv (updateFn f e v) (t.tryAdd e v) := by
  unfold DenseTable.tryAdd
  match hf : t.findIndex e with
  | some i =>
    obtain ⟨hilt, hgq⟩ := DenseTable.findIndex_some hf
    have hsome : t.indexSet e = some i := by
      rw [← hgq]
      exact h.1.2.1 i hilt
    have hread : t.indexSet.atRead e = i := by
      rw [SparseIndex.atRead, hsome]
      rfl
    refine ⟨⟨by simpa using h.1.1, h.1.2.1, h.1.2.2⟩, ?_⟩
    intro j hj
    show (t.components.set (t.indexSet.atRead e) v).getD j default =
      updateFn f e v (t.entities.getD j NullEntity)
    rw [hread]
    by_cases hji : j = i
    · subst hji
      rw [getD_set_self _ _ _ _ (by rw [← h.1.1]; exact hilt)]
      rw [hgq]
      unfold updateFn
      rw [if_pos rfl]
    · rw [getD_set_ne _ _ _ _ _ (fun hc => hji hc.symm)]
      rw [h.2 j hj]
      unfold updateFn
      rw [if_neg ?_]
      intro hc
      exact hji (nodup_getD_inj h.1.nodup NullEntity hj hilt (hc.trans hgq.symm))
  | none =>
    exact denseInv_addImpl h (DenseTable.findIndex_none hf) v

theorem denseInv_addRange {α : Type _} [Inhabited α] {f : Nat → α} {t : DenseTable α}
    (h : DenseInv f t) {r : EntityRange}
    (hpre : ∀ x ∈ t.entities, x < r.begin_ ∨ r.end_ ≤ x) (v : α) :
    DenseInv (fun x => if inEntityRange r x then v else f x) (t.addRange r v) := by
  have hlen := h.1.1
  refine ⟨denseWf_addRange h.1 hpre v, ?_⟩
  intro i hi
  simp only [DenseTable.addRange, List.length_append, List.length_map,
    List.length_range] at hi
  show (t.components ++ List.replicate (r.end_ - r.begin_) v).getD i default =
    if inEntityRange r ((t.entities ++ (List.range (r.end_ - r.begin_)).map
      (fun j => r.begin_ + j)).getD i NullEntity) then v
    else f ((t.entities ++ (List.range (r.end_ - r.begin_)).map
      (fun j => r.begin_ + j)).getD i NullEntity)
  by_cases hilt : i < t.entities.length
  · rw [getD_append_left _ _ _ _ hilt, getD_append_left _ _ _ _ (by omega)]
    have hmem := getD_mem t.entities i NullEntity hilt
    rw [if_neg ?_]
    · exact h.2 i hilt
    · intro hc
      simp only [inEntityRange, Bool.and_eq_true, decide_eq_true_eq] at hc
      rcases hpre _ hmem with h1 | h1 <;> omega
  · have hj : i - t.entities.length < r.end_ - r.begin_ := by omega
    rw [getD_append_right _ _ _ _ (by omega), getD_append_right _ _ _ _ (by omega)]
    rw [getD_map_range_add _ _ _ _ hj]
    rw [show i - t.components.length = i - t.entities.length from by omega]
    rw [getD_replicate _ _ _ _ hj]
    rw [if_pos ?_]
    simp only [inEntityRange, Bool.and_eq_true, decide_eq_true_eq]
    omega

theorem denseInv_removeImpl_core {α : Type _} [Inhabited α] (ents : List Nat) (comps : List α)
    (f : Nat → α) (ci : Nat)
    (hlen : ents.length = comps.length) (hci : ci < ents.length)
    (hInv : ∀ i, i < ents.length → comps.getD i default = f (ents.getD i NullEntity)) :
    ∀ i, i < ents.length - 1 →
      (comps.set ci (comps.getLastD default)).dropLast.getD i default =
        f ((ents.set ci (ents.getLastD NullEntity)).dropLast.getD i NullEntity) := by
  intro i hi
  rw [getD_dropLast _ _ _ (by simp only [List.length_set]; omega),
    getD_dropLast _ _ _ (by simp only [List.length_set]; omega)]
  by_cases hic : ci = i
  · subst hic
    rw [getD_set_self _ _ _ _ (by omega), getD_set_self _ _ _ _ (by omega)]
    rw [getLastD_eq_getD, getLastD_eq_getD, ← hlen]
    exact hInv (ents.length - 1) (by omega)
  · rw [getD_set_ne _ _ _ _ _ hic, getD_set_ne _ _ _ _ _ hic]
    exact hInv i (by omega)

theorem denseInv_dropLast_core {α : Type _} [Inhabited α] (ents : List Nat) (comps : List α)
    (f : Nat → α) (hlen : ents.length = comps.length)
    (hInv : ∀ i, i < ents.length → comps.getD i default = f (ents.getD i NullEntity)) :
    ∀ i, i < ents.length - 1 →
      comps.dropLast.getD i default = f (ents.dropLast.getD i NullEntity) := by
  intro i hi
  rw [getD_dropLast _ _ _ (by omega), getD_dropLast _ _ _ (by omega)]
  exact hInv i (by omega)

theorem denseInv_removeImpl {α : Type _} [Inhabited α] (t : DenseTable α) (e ci : Nat)
    (f : Nat → α)
    (hlen : t.entities.length = t.components.length)
    (hci : ci < t.entities.length)
    (hent : t.entities.getD ci NullEntity = e)
    (halign : ∀ i, i < t.entities.length → i ≠ ci →
      t.indexSet (t.entities.getD i NullEntity) = some i)
    (habsent : ∀ x, x ∉ t.entities → t.indexSet x = none)
    (hnodup : t.entities.Nodup)
    (hInv : ∀ i, i < t.entities.length →
      t.components.getD i default = f (t.entities.getD i NullEntity)) :
    DenseInv f (t.removeImpl e ci) := by
  refine ⟨denseWf_removeImpl t e ci hlen hci hent halign habsent hnodup, ?_⟩
  unfold DenseTable.removeImpl
  by_cases hcond : t.components.length ≠ ci + 1
  · rw [if_pos hcond]
    intro i hi
    simp only [List.length_dropLast, List.length_set] at hi
    exact denseInv_removeImpl_core t.entities t.components f ci hlen hci hInv i hi
  · rw [if_neg hcond]
    intro i hi
    simp only [List.length_dropLast] at hi
    exact denseInv_dropLast_core t.entities t.components f hlen hInv i hi

theorem denseInv_remove {α : Type _} [Inhabited α] {f : Nat → α} {t : DenseTable α}
    (h : DenseInv f t) {e : Nat} (hmem : e ∈ t.entities) : DenseInv f (t.remove e) := by
  obtain ⟨ci, hci, hget, hidx⟩ := h.1.index_of_mem hmem
  unfold DenseTable.remove
  have hp1 : (t.indexSet.extract e).1 = ci := by
    simp [SparseIndex.extract, SparseIndex.atRead, hidx]
  rw [hp1]
  refine denseInv_removeImpl
    { t with indexSet := (t.indexSet.extract e).2 } e ci f h.1.1 hci hget ?_ ?_
    h.1.nodup h.2
  · intro i hi hici
    have hne : t.entities.getD i NullEntity ≠ e := by
      intro hc
      exact hici (h.1.getD_injective hi hci (hc.trans hget.symm))
    show (t.indexSet.remove e) (t.entities.getD i NullEntity) = some i
    rw [SparseIndex.remove_ne _ _ _ hne]
    exact h.1.2.1 i hi
  · intro x hx
    by_cases hxe : x = e
    · subst hxe
      exact SparseIndex.remove_eq _ _
    · show (t.indexSet.remove e) x = none
      rw [SparseIndex.remove_ne _ _ _ hxe]
      exact h.1.2.2 x hx

theorem denseInv_tryRemove {α : Type _} [Inhabited α] {f : Nat → α} {t : DenseTable α}
    (h : DenseInv f t) (e : Nat) : DenseInv f (t.tryRemove e).2 := by
  unfold DenseTable.tryRemove
  cases hf : t.findIndex e with
  | some i =>
    obtain ⟨hlt, hget⟩ := DenseTable.findIndex_some hf
    exact denseInv_removeImpl t e i f h.1.1 hlt hget (fun j hj _ => h.1.2.1 j hj)
      h.1.2.2 h.1.nodup h.2
  | none => exact h

theorem denseInv_extract {α : Type _} [Inhabited α] {f : Nat → α} {t : DenseTable α}
    (h : DenseInv f t) {e : Nat} (hmem : e ∈ t.entities) : DenseInv f (t.extract e).2 := by
  rw [DenseTable.extract_snd h.1 hmem]
  exact denseInv_remove h hmem

theorem denseInv_removeRange {α : Type _} [Inhabited α] {f : Nat → α} {t : DenseTable α}
    (h : DenseInv f t) (r : EntityRange) : DenseInv f (t.removeRange r) := by
  obtain ⟨hwf, hpair⟩ := denseWf_removeRange h.1 r
  refine ⟨hwf, ?_⟩
  intro j hj
  obtain ⟨i, hi, hE, hC⟩ := hpair j hj
  rw [hC, hE]
  exact h.2 i hi

theorem denseInv_sort {α : Type _} [Inhabited α] {f : Nat → α} {t : DenseTable α}
    (h : DenseInv f t) (cmp : Nat → Nat → Bool) : DenseInv f (t.sort cmp) := by
  obtain ⟨hwf, hE, hget⟩ := dense_sort_wf t cmp h.1
  refine denseInv_of_get hwf ?_
  intro e he
  have hmem : e ∈ t.entities := by
    rw [hE] at he
    exact (List.mergeSort_perm t.entities _).mem_iff.1 he
  rw [hget e hmem]
  exact h.get_eq e hmem

theorem denseInv_clear {α : Type _} [Inhabited α] (f : Nat → α) (t : DenseTable α) :
    DenseInv f t.clear := by
  refine ⟨denseWf_clear t, ?_⟩
  intro i hi
  simp [DenseTable.clear] at hi

theorem denseInv_step {α : Type _} [Inhabited α] {f : Nat → α} {t : DenseTable α}
    (h : DenseInv f t) (op : DenseOp α) (hpre : op.pre t) :
    DenseInv (DenseOp.model f op) (DenseOp.apply t op) := by
  cases op with
  | add e v => exact denseInv_add h hpre v
  | tryAdd e v => exact denseInv_tryAdd h e v
  | addRange r v => exact denseInv_addRange h hpre v
  | remove e => exact denseInv_remove h hpre
  | tryRemove e => exact denseInv_tryRemove h e
  | removeRange r => exact denseInv_removeRange h r
  | extract e => exact denseInv_extract h hpre
  | sort cmp => exact denseInv_sort h cmp
  | clear => exact denseInv_clear f t

/-- Run a sequence of operations left to right. -/
def denseRun {α : Type _} [Inhabited α] (t : DenseTable α) : List (DenseOp α) → DenseTable α
  | [] => t
  | op :: ops => denseRun (DenseOp.apply t op) ops

/-- The ghost value record after a sequence of operations. -/
def denseModelRun {α : Type _} (f : Nat → α) : List (DenseOp α) → Nat → α
  | [] => f
  | op :: ops => denseModelRun (DenseOp.model f op) ops

/-- Every operation of the sequence satisfies its precondition in the
state where it runs. -/
def densePreOk {α : Type _} [Inhabited α] (t : DenseTable α) : List (DenseOp α) → Prop
  | [] => True
  | op :: ops => op.pre t ∧ densePreOk (DenseOp.apply t op) ops

theorem denseInv_run {α : Type _} [Inhabited α] :
    ∀ (ops : List (DenseOp α)) (f : Nat → α) (t : DenseTable α),
    DenseInv f t → densePreOk t ops → DenseInv (denseModelRun f ops) (denseRun t ops)
  | [], _f, _t, h, _ => h
  | op :: ops, f, t, h, hpre =>
    denseInv_run ops (DenseOp.model f op) (DenseOp.apply t op)
      (denseInv_step h op hpre.1) hpre.2

theorem densePreOk_append {α : Type _} [Inhabited α] :
    ∀ (ops1 ops2 : List (DenseOp α)) (t : DenseTable α),
    densePreOk t (ops1 ++ ops2) → densePreOk t ops1
  | [], _, _, _ => trivial
  | op :: ops1, ops2, t, h => ⟨h.1, densePreOk_append ops1 ops2 (DenseOp.apply t op) h.2⟩

/-- C1: for every sequence of dense-table operations (add, tryAdd,
addRange, remove, tryRemove, removeRange, extract, sort, clear) whose
precondition holds at each step, after every operation (i.e. after every
prefix `ops` of a valid sequence `ops ++ rest`) the dense table
satisfies: count equals entities.len() equals components.len(), the
sparse index maps entities[i] back to i for every position i, and
components[i] holds the live value recorded for entities[i]. -/
theorem dense_table_invariant_all_ops {α : Type _} [Inhabited α] (f0 : Nat → α)
    (ops rest : List (DenseOp α))
    (hpre : densePreOk (DenseTable.empty (α := α)) (ops ++ rest)) :
    (denseRun DenseTable.empty ops).count = (denseRun DenseTable.empty ops).entities.length ∧
    (denseRun DenseTable.empty ops).entities.length =
      (denseRun (DenseTable.empty (α := α)) ops).components.length ∧
    (∀ i, i < (denseRun DenseTable.empty ops).entities.length →
      (denseRun DenseTable.empty ops).indexSet
        ((denseRun DenseTable.empty ops).entities.getD i NullEntity) = some i ∧
      (denseRun DenseTable.empty ops).components.getD i default =
        denseModelRun f0 ops ((denseRun DenseTable.empty ops).entities.getD i NullEntity)) := by
  have hinv0 : DenseInv f0 (DenseTable.empty (α := α)) := by
    refine ⟨denseWf_empty, ?_⟩
    intro i hi
    simp [DenseTable.empty] at hi
  have h := denseInv_run ops f0 DenseTable.empty hinv0 (densePreOk_append ops rest _ hpre)
  exact ⟨rfl, h.1.1, fun i hi => ⟨h.1.2.1 i hi, h.2 i hi⟩⟩

theorem dense_table_invariant_all_ops_witness :
    densePreOk (DenseTable.empty (α := Nat))
      ([DenseOp.add 1 10, DenseOp.add 2 20, DenseOp.remove 1] ++ [DenseOp.clear]) ∧
    ((denseRun DenseTable.empty [DenseOp.add 1 10, DenseOp.add 2 20,
        DenseOp.remove 1]).count =
      (denseRun DenseTable.empty [DenseOp.add 1 10, DenseOp.add 2 20,
        DenseOp.remove 1]).entities.length ∧
    (denseRun DenseTable.empty [DenseOp.add 1 10, DenseOp.add 2 20,
        DenseOp.remove 1]).entities.length =
      (denseRun (DenseTable.empty (α := Nat)) [DenseOp.add 1 10, DenseOp.add 2 20,
        DenseOp.remove 1]).components.length ∧
    (∀ i, i < (denseRun DenseTable.empty [DenseOp.add 1 10, DenseOp.add 2 20,
        DenseOp.remove 1]).entities.length →
      (denseRun DenseTable.empty [DenseOp.add 1 10, DenseOp.add 2 20,
        DenseOp.remove 1]).indexSet
        ((denseRun DenseTable.empty [DenseOp.add 1 10, DenseOp.add 2 20,
          DenseOp.remove 1]).entities.getD i NullEntity) = some i ∧
      (denseRun DenseTable.empty [DenseOp.add 1 10, DenseOp.add 2 20,
        DenseOp.remove 1]).components.getD i default =
        denseModelRun (fun _ => 0) [DenseOp.add 1 10, DenseOp.add 2 20, DenseOp.remove 1]
          ((denseRun DenseTable.empty [DenseOp.add 1 10, DenseOp.add 2 20,
            DenseOp.remove 1]).entities.getD i NullEntity))) := by
  have hpre : densePreOk (DenseTable.empty (α := Nat))
      ([DenseOp.add 1 10, DenseOp.add 2 20, DenseOp.remove 1] ++ [DenseOp.clear]) := by
    simp only [List.cons_append, List.nil_append, densePreOk, DenseOp.pre, DenseOp.apply,
      DenseTable.add, DenseTable.addImpl, DenseTable.remove, DenseTable.removeImpl,
      DenseTable.empty]
    refine ⟨by decide, by decide, ?_, trivial, trivial⟩
    decide
  exact ⟨hpre, dense_table_invariant_all_ops (fun _ => 0)
    [DenseOp.add 1 10, DenseOp.add 2 20, DenseOp.remove 1] [DenseOp.clear] hpre⟩

/-- C3: on a well-formed dense table, remove(e) of a present entity is a
swap-remove: with idx = indices.extract(e), unless e holds the last
position the last components entry moves into position idx, the sparse
slot of the moved last entity is repointed to idx, entities[idx] is
overwritten with that last entity and both tails are popped; when
idx = len - 1 only the pops happen.  Consequently after add(1,a),
add(2,b), add(3,c) and remove(1) the entities vector is [3, 2], count is
2 and get(2), get(3) still return their original values. -/
theorem dense_remove_swap_remove {α : Type _} [Inhabited α] :
    (∀ (t : DenseTable α), DenseWf t → ∀ e ∈ t.entities,
      (t.remove e).entities.length = t.entities.length - 1 ∧
      (t.remove e).components.length = t.components.length - 1 ∧
      ((t.indexSet.extract e).1 ≠ t.entities.length - 1 →
        (t.remove e).entities =
          (t.entities.set (t.indexSet.extract e).1 (t.entities.getLastD NullEntity)).dropLast ∧
        (t.remove e).components =
          (t.components.set (t.indexSet.extract e).1
            (t.components.getLastD default)).dropLast ∧
        (t.remove e).indexSet (t.entities.getLastD NullEntity) =
          some (t.indexSet.extract e).1) ∧
      ((t.indexSet.extract e).1 = t.entities.length - 1 →
        (t.remove e).entities = t.entities.dropLast ∧
        (t.remove e).components = t.components.dropLast)) ∧
    (∀ a b c : α,
      ((((DenseTable.empty.add 1 a).add 2 b).add 3 c).remove 1).entities = [3, 2] ∧
      ((((DenseTable.empty.add 1 a).add 2 b).add 3 c).remove 1).count = 2 ∧
      ((((DenseTable.empty.add 1 a).add 2 b).add 3 c).remove 1).get 2 = b ∧
      ((((DenseTable.empty.add 1 a).add 2 b).add 3 c).remove 1).get 3 = c) := by
  constructor
  · intro t h e hmem
    obtain ⟨ci, hci, hget, hidx⟩ := h.index_of_mem hmem
    have hp1 : (t.indexSet.extract e).1 = ci := by
      simp [SparseIndex.extract, SparseIndex.atRead, hidx]
    have hlen := h.1
    rw [hp1]
    unfold DenseTable.remove DenseTable.removeImpl
    rw [hp1]
    by_cases hcond : t.components.length ≠ ci + 1
    · rw [if_pos hcond]
      have hlast : ci ≠ t.entities.length - 1 := by omega
      refine ⟨by simp only [List.length_dropLast, List.length_set],
        by simp only [List.length_dropLast, List.length_set], ?_, ?_⟩
      · intro _
        refine ⟨rfl, rfl, ?_⟩
        have hlastlt : t.entities.length - 1 < t.entities.length := by omega
        have hlne : t.entities.getLastD NullEntity ≠ e := by
          rw [getLastD_eq_getD, ← hget]
          intro hcontra
          exact hlast (h.getD_injective hlastlt hci hcontra).symm
        show ((((t.indexSet.extract e).2).setAt (t.entities.getLastD NullEntity) ci).remove e)
          (t.entities.getLastD NullEntity) = some ci
        rw [SparseIndex.remove_ne _ _ _ hlne, SparseIndex.setAt_eq]
      · intro hc
        exact absurd hc hlast
    · rw [if_neg hcond]
      exact ⟨by simp only [List.length_dropLast],
        by simp only [List.length_dropLast], fun hc => absurd (by omega) hc,
        fun _ => ⟨rfl, rfl⟩⟩
  · intro a b c
    exact ⟨rfl, rfl, rfl, rfl⟩

theorem dense_remove_swap_remove_witness :
    DenseWf (denseRun DenseTable.empty [DenseOp.add 1 (10 : Nat), DenseOp.add 2 20]) ∧
    1 ∈ (denseRun DenseTable.empty [DenseOp.add 1 (10 : Nat), DenseOp.add 2 20]).entities ∧
    ((denseRun DenseTable.empty [DenseOp.add 1 (10 : Nat),
        DenseOp.add 2 20]).remove 1).entities.length =
      (denseRun DenseTable.empty [DenseOp.add 1 (10 : Nat),
        DenseOp.add 2 20]).entities.length - 1 := by
  have hinv0 : DenseInv (fun _ => (0 : Nat)) (DenseTable.empty (α := Nat)) := by
    refine ⟨denseWf_empty, ?_⟩
    intro i hi
    simp [DenseTable.empty] at hi
  have hpre : densePreOk (DenseTable.empty (α := Nat))
      [DenseOp.add 1 10, DenseOp.add 2 20] := by
    simp only [densePreOk, DenseOp.pre, DenseOp.apply, DenseTable.add, DenseTable.addImpl,
      DenseTable.empty]
    refine ⟨by decide, by decide, trivial⟩
  have hwf := (denseInv_run [DenseOp.add 1 10, DenseOp.add 2 20] (fun _ => 0)
    DenseTable.empty hinv0 hpre).1
  have hmem : 1 ∈ (denseRun DenseTable.empty
      [DenseOp.add 1 (10 : Nat), DenseOp.add 2 20]).entities := by decide
  exact ⟨hwf, hmem,
    ((dense_remove_swap_remove.1 (denseRun DenseTable.empty
      [DenseOp.add 1 (10 : Nat), DenseOp.add 2 20]) hwf 1 hmem).1)⟩

/-- C8 (dense half): tryRemove(e) returns false and leaves the table
unchanged when e is absent, and otherwise has exactly the effect of
remove(e) and returns true. -/
theorem dense_tryRemove_spec {α : Type _} [Inhabited α] (t : DenseTable α) (h : DenseWf t)
    (e : Nat) :
    (e ∉ t.entities → t.tryRemove e = (false, t)) ∧
    (e ∈ t.entities → t.tryRemove e = (true, t.remove e)) :=
  ⟨fun habs => DenseTable.tryRemove_absent t habs,
    fun hmem => DenseTable.tryRemove_present h hmem⟩

/-! ### Stable component table (kF::ECS::StableComponentTable,
src/unnamed/part_001)

Components live in fixed pages and never move on add/remove; a removed
slot holds a destroyed component (modelled as none) and a NullEntity
entry, and its index is pushed on the tombstone stack.  Component
storage is slot-indexed: page p, slot c is flat index
p * ComponentPageSize + c, so the paged array is one Option list whose
cells beyond the constructed pages simply read none. -/

structure StableComponentTable (α : Type _) where
  indexSet : SparseIndex
  entities : List Nat
  components : List (Option α)
  tombstones : List Nat

def StableComponentTable.empty {α : Type _} : StableComponentTable α :=
  ⟨SparseIndex.empty, [], [], []⟩

/-- StableComponentTable::insertComponent: make sure the page of the
slot exists (fresh cells read as destroyed), then construct in place. -/
def StableComponentTable.insertComponent {α : Type _} (comps : List (Option α)) (i : Nat)
    (v : α) : List (Option α) :=
  (comps ++ List.replicate (i + 1 - comps.length) none).set i (some v)

/-- StableComponentTable::addImpl: reuse the most recently pushed
tombstone (back of the stack) or append a fresh slot, then register the
sparse index and construct the component. -/
def StableComponentTable.addImpl {α : Type _} (t : StableComponentTable α) (e : Nat) (v : α) :
    StableComponentTable α :=
  if t.tombstones.isEmpty then
    { indexSet := t.indexSet.add e t.entities.length
      entities := t.entities ++ [e]
      components := StableComponentTable.insertComponent t.components t.entities.length v
      tombstones := t.tombstones }
  else
    { indexSet := t.indexSet.add e (t.tombstones.getLastD 0)
      entities := t.entities.set (t.tombstones.getLastD 0) e
      components := StableComponentTable.insertComponent t.components
        (t.tombstones.getLastD 0) v
      tombstones := t.tombstones.dropLast }

/-- StableComponentTable::add: the kFAssert (entity absent) is
debug-only, release semantics forward to addImpl. -/
def StableComponentTable.add {α : Type _} (t : StableComponentTable α) (e : Nat) (v : α) :
    StableComponentTable α :=
  t.addImpl e v

/-- StableComponentTable::findIndex: position of the entity in the
entities vector (linear find), none standing for NullEntityIndex. -/
def StableComponentTable.findIndex {α : Type _} (t : StableComponentTable α) (e : Nat) :
    Option Nat :=
  List.findIdx? (fun x => x == e) t.entities

/-- StableComponentTable::tryAdd (component overload): overwrite through
get when present, else addImpl. -/
def StableComponentTable.tryAdd {α : Type _} (t : StableComponentTable α) (e : Nat) (v : α) :
    StableComponentTable α :=
  match t.findIndex e with
  | some _ => { t with components := t.components.set (t.indexSet.atRead e) (some v) }
  | none => t.addImpl e v

/-- StableComponentTable::removeImpl: destroy the component at the
slot, clear the sparse index, null the entity entry, push the slot on
the tombstone stack.  No other slot is touched. -/
def StableComponentTable.removeImpl {α : Type _} (t : StableComponentTable α) (e : Nat)
    (i : Nat) : StableComponentTable α :=
  { indexSet := t.indexSet.remove e
    entities := t.entities.set i NullEntity
    components := t.components.set i none
    tombstones := t.tombstones ++ [i] }

/-- StableComponentTable::remove: removeImpl at the index extracted from
the sparse set (extract already clears the slot, removeImpl clears it a
second time). -/
def StableComponentTable.remove {α : Type _} (t : StableComponentTable α) (e : Nat) :
    StableComponentTable α :=
  StableComponentTable.removeImpl { t with indexSet := (t.indexSet.extract e).2 } e
    (t.indexSet.extract e).1

/-- StableComponentTable::tryRemove: false on a missing entity, else
removeImpl at the linear-scan index and true. -/
def StableComponentTable.tryRemove {α : Type _} (t : StableComponentTable α) (e : Nat) :
    Bool × StableComponentTable α :=
  match t.findIndex e with
  | some i => (true, t.removeImpl e i)
  | none => (false, t)

/-- StableComponentTable::extract: move the component value out, then
removeImpl at the already-extracted index. -/
def StableComponentTable.extract {α : Type _} (t : StableComponentTable α) (e : Nat) :
    Option α × StableComponentTable α :=
  (t.components.getD (t.indexSet.extract e).1 none,
    StableComponentTable.removeImpl { t with indexSet := (t.indexSet.extract e).2 } e
      (t.indexSet.extract e).1)

/-- Erase-components loop of pack: construct-move the source slot into
the destination slot, then destroy the source slot. -/
def applyMovesO {α : Type _} (comps : List (Option α)) : List (Nat × Nat) → List (Option α)
  | [] => comps
  | (src, dst) :: ms =>
    applyMovesO ((comps.set dst (comps.getD src none)).set src none) ms

/-- StableComponentTable::pack: no-op on an empty tombstone stack, else
sort the tombstones descending, move live tail slots into the holes
against the wrapping u32 cursor (modelled as Int), truncate entities at
cursor + 1, clear the tombstones, and construct-move/destroy the
component cells along the same moves. -/
def StableComponentTable.pack {α : Type _} (t : StableComponentTable α) :
    StableComponentTable α :=
  if t.tombstones.isEmpty then t
  else
    match buildMoves (descSort t.tombstones) ((t.entities.length : Int) - 1) with
    | (ms, last') =>
      { indexSet := (applyMovesE t.entities t.indexSet ms).2
        entities := (applyMovesE t.entities t.indexSet ms).1.take (last' + 1).toNat
        components := applyMovesO t.components ms
        tombstones := [] }

/-- StableComponentTable::sort: pack (so the patch runs over a
tombstone-free dense prefix), std::sort the entities, then run the same
cycle-chase as the dense table, swapping component cells by slot. -/
def StableComponentTable.sort {α : Type _} (t : StableComponentTable α)
    (cmp : Nat → Nat → Bool) : StableComponentTable α :=
  { indexSet := (sortPatch ((t.pack).entities.mergeSort (fun a b => !cmp b a))
      (t.pack).indexSet (t.pack).components).1
    entities := (t.pack).entities.mergeSort (fun a b => !cmp b a)
    components := (sortPatch ((t.pack).entities.mergeSort (fun a b => !cmp b a))
      (t.pack).indexSet (t.pack).components).2
    tombstones := (t.pack).tombstones }

/-- Modelled from the spec: StableComponentTable::count is the number of
live components, entities.size() minus tombstones.size()
(StableComponentTable.hpp is not part of the provided sources). -/
def StableComponentTable.count {α : Type _} (t : StableComponentTable α) : Nat :=
  t.entities.length - t.tombstones.length

/-- Well-formedness of a stable table: components cover the entity
slots, live slots are aligned in the sparse index, a slot holds
NullEntity exactly when it is a tombstone, tombstones are distinct
in-range destroyed slots, and absent entities (and the NullEntity
sentinel) have a null sparse slot. -/
def StableWf {α : Type _} (t : StableComponentTable α) : Prop :=
  t.entities.length ≤ t.components.length ∧
  (∀ i, i < t.entities.length → t.entities.getD i NullEntity ≠ NullEntity →
    t.indexSet (t.entities.getD i NullEntity) = some i) ∧
  (∀ i, i < t.entities.length →
    (t.entities.getD i NullEntity = NullEntity ↔ i ∈ t.tombstones)) ∧
  t.tombstones.Nodup ∧
  (∀ d ∈ t.tombstones, d < t.entities.length) ∧
  (∀ d ∈ t.tombstones, t.components.getD d none = none) ∧
  (∀ e, e ∉ t.entities → t.indexSet e = none) ∧
  t.indexSet NullEntity = none

/-- Specification recursion for the component moves of pack, with the
destroy of the moved-from cell. -/
def compactO {α : Type _} (comps : List (Option α)) (m : Nat) : List Nat → List (Option α)
  | [] => comps
  | d :: rest =>
    if d + 1 = m then compactO comps (m - 1) rest
    else compactO ((comps.set d (comps.getD (m - 1) none)).set (m - 1) none) (m - 1) rest

theorem applyMovesO_eq_compactO {α : Type _} :
    ∀ (D : List Nat) (comps : List (Option α)) (m : Nat),
    List.Pairwise (fun a b => b < a) D → (∀ d ∈ D, d < m) →
    applyMovesO comps (buildMoves D ((m : Int) - 1)).1 = compactO comps m D
  | [], comps, m, _, _ => rfl
  | d :: rest, comps, m, hdesc, hlt => by
    obtain ⟨hall, hdesc'⟩ := List.pairwise_cons.1 hdesc
    have hdm : d < m := hlt d (List.mem_cons_self d rest)
    have hm1 : 1 ≤ m := by omega
    have hcast : ((m : Int) - 1) - 1 = ((m - 1 : Nat) : Int) - 1 := by push_cast [hm1]; ring
    have hlt' : ∀ x ∈ rest, x < m - 1 := by
      intro x hx
      have := hall x hx
      omega
    unfold buildMoves compactO
    by_cases hd : (d : Int) = (m : Int) - 1
    · have hd2 : d + 1 = m := by omega
      rw [if_pos hd, if_pos hd2, hcast]
      exact applyMovesO_eq_compactO rest comps (m - 1) hdesc' hlt'
    · have hd2 : ¬(d + 1 = m) := by
        intro hc
        exact hd (by omega)
      rw [if_neg hd, if_neg hd2]
      have hsrc : ((m : Int) - 1).toNat = m - 1 := by omega
      match hm2 : buildMoves rest (((m : Int) - 1) - 1) with
      | (ms, l') =>
        have heq := applyMovesO_eq_compactO rest
          ((comps.set d (comps.getD (m - 1) none)).set (m - 1) none) (m - 1) hdesc' hlt'
        rw [← hcast, hm2] at heq
        show applyMovesO comps ((((m : Int) - 1).toNat, d) :: ms) = _
        unfold applyMovesO
        rw [hsrc]
        exact heq

theorem compactO_length {α : Type _} :
    ∀ (D : List Nat) (comps : List (Option α)) (m : Nat),
    (compactO comps m D).length = comps.length
  | [], _, _ => rfl
  | d :: rest, comps, m => by
    unfold compactO
    by_cases hd : d + 1 = m
    · rw [if_pos hd]
      exact compactO_length rest comps (m - 1)
    · rw [if_neg hd]
      rw [compactO_length rest _ (m - 1)]
      simp

/-- Below the final live length the destroy writes of pack are
invisible: compactO agrees with the destroy-free compactC recursion. -/
theorem compactO_eq_compactC {α : Type _} :
    ∀ (D : List Nat) (comps1 comps2 : List (Option α)) (m : Nat),
    List.Pairwise (fun a b => b < a) D →
    (∀ d ∈ D, d < m) →
    m ≤ comps1.length → m ≤ comps2.length →
    (∀ pos, pos < m → comps1.getD pos none = comps2.getD pos none) →
    ∀ pos, pos < m - D.length →
      (compactO comps1 m D).getD pos none = (compactC comps2 m D).getD pos none
  | [], comps1, comps2, m, _, _, _, _, hagree, pos, hpos => by
    show comps1.getD pos none = comps2.getD pos none
    exact hagree pos (by simpa using hpos)
  | d :: rest, comps1, comps2, m, hdesc, hlt, hl1, hl2, hagree, pos, hpos => by
    obtain ⟨hall, hdesc'⟩ := List.pairwise_cons.1 hdesc
    have hdm : d < m := hlt d (List.mem_cons_self d rest)
    simp only [List.length_cons] at hpos
    unfold compactO compactC
    by_cases hd : d + 1 = m
    · rw [if_pos hd, if_pos hd]
      have hlt' : ∀ x ∈ rest, x < m - 1 := by
        intro x hx
        have := hall x hx
        omega
      refine compactO_eq_compactC rest comps1 comps2 (m - 1) hdesc' hlt'
        (by omega) (by omega) (fun p hp => hagree p (by omega)) pos (by omega)
    · rw [if_neg hd, if_neg hd]
      have hdm1 : d < m - 1 := by omega
      have hlt' : ∀ x ∈ rest, x < m - 1 := by
        intro x hx
        have := hall x hx
        omega
      refine compactO_eq_compactC rest _ _ (m - 1) hdesc' hlt'
        (by simp only [List.length_set]; omega) (by simp only [List.length_set]; omega)
        ?_ pos (by omega)
      intro p hp
      rw [getD_set_ne _ _ _ _ _ (by omega)]
      by_cases hpd : d = p
      · subst hpd
        rw [getD_set_self _ _ _ _ (by omega), getD_set_self _ _ _ _ (by omega)]
        exact hagree (m - 1) (by omega)
      · rw [getD_set_ne _ _ _ _ _ hpd, getD_set_ne _ _ _ _ _ hpd]
        exact hagree p (by omega)

theorem descSort_strict_of_nodup {l : List Nat} (h : l.Nodup) :
    (descSort l).Pairwise (fun a b => b < a) := by
  have hsorted : (descSort l).Pairwise (fun a b => b ≤ a) := by
    have hs := @List.sorted_mergeSort Nat (fun a b => decide (b ≤ a))
      (by
        intro a b c hab hbc
        simp only [decide_eq_true_eq] at hab hbc ⊢
        omega)
      (by
        intro a b
        simp only [Bool.or_eq_true, decide_eq_true_eq]
        omega) l
    exact hs.imp (by simp)
  have hnd : (descSort l).Nodup := (descSort_perm l).nodup_iff.2 h
  have hcomb := List.Pairwise.and hsorted hnd
  exact hcomb.imp (by
    intro a b hab
    obtain ⟨h1, h2⟩ := hab
    omega)

theorem stable_pack_spec {α : Type _} (t : StableComponentTable α) (h : StableWf t) :
    (t.pack).tombstones = [] ∧
    (t.pack).entities.length = t.entities.length - t.tombstones.length ∧
    (t.pack).components.length = t.components.length ∧
    (∀ i, i < (t.pack).entities.length →
      (t.pack).indexSet ((t.pack).entities.getD i NullEntity) = some i) ∧
    (∀ i, i < t.entities.length → i ∉ t.tombstones →
      ∃ j, j < (t.pack).entities.length ∧
      (t.pack).entities.getD j NullEntity = t.entities.getD i NullEntity ∧
      (t.pack).components.getD j none = t.components.getD i none) ∧
    (∀ j, j < (t.pack).entities.length → ∃ i, i < t.entities.length ∧ i ∉ t.tombstones ∧
      (t.pack).entities.getD j NullEntity = t.entities.getD i NullEntity ∧
      (t.pack).components.getD j none = t.components.getD i none) ∧
    (∀ x, (∀ i, i < t.entities.length → i ∉ t.tombstones →
      t.entities.getD i NullEntity ≠ x) → (t.pack).indexSet x = t.indexSet x) := by
  obtain ⟨hle, halign, hnull, hndT, hbndT, _hnoneT, _habs, _hnulls⟩ := h
  unfold StableComponentTable.pack
  by_cases hemp : t.tombstones = []
  · rw [if_pos (by rw [hemp]; rfl)]
    refine ⟨hemp, by rw [hemp]; rfl, rfl, ?_, ?_, ?_, fun x _ => rfl⟩
    · intro i hi
      refine halign i hi ?_
      intro hc
      have := (hnull i hi).1 hc
      rw [hemp] at this
      simp at this
    · intro i hi _
      exact ⟨i, hi, rfl, rfl⟩
    · intro j hj
      refine ⟨j, hj, ?_, rfl, rfl⟩
      rw [hemp]
      simp
  · rw [if_neg (fun hc => hemp (List.isEmpty_iff.1 hc))]
    have hDdesc : (descSort t.tombstones).Pairwise (fun a b => b < a) :=
      descSort_strict_of_nodup hndT
    have hDmem : ∀ d, d ∈ descSort t.tombstones ↔ d ∈ t.tombstones :=
      fun d => (descSort_perm t.tombstones).mem_iff
    have hDlt : ∀ d ∈ descSort t.tombstones, d < t.entities.length :=
      fun d hd => hbndT d ((hDmem d).1 hd)
    have hDlen : (descSort t.tombstones).length = t.tombstones.length :=
      (descSort_perm t.tombstones).length_eq
    have hDnodup : (descSort t.tombstones).Nodup :=
      hDdesc.imp (fun hab => (Nat.ne_of_lt hab).symm)
    have hklen : (descSort t.tombstones).length ≤ t.entities.length :=
      nodup_lt_length_le hDnodup hDlt
    have hlive_align : ∀ i, i < t.entities.length → i ∉ descSort t.tombstones →
        t.indexSet (t.entities.getD i NullEntity) = some i := by
      intro i hi hiD
      refine halign i hi ?_
      intro hc
      exact hiD ((hDmem i).2 ((hnull i hi).1 hc))
    obtain ⟨c1, _c2, c3, c4, c5, _c6, _c7, c9⟩ := compact_spec (descSort t.tombstones)
      t.entities t.components t.indexSet t.entities.length hDdesc hDlt (le_refl _) hle
      hlive_align
      (fun i j hi hj hiD hjD heq => by
        have h1 := hlive_align i hi hiD
        have h2 := hlive_align j hj hjD
        rw [heq] at h1
        exact Option.some.inj (h1.symm.trans h2))
    obtain ⟨heqE, _⟩ := applyMoves_eq_compact (α := Option α) (descSort t.tombstones)
      t.entities t.components t.indexSet t.entities.length hDdesc hDlt
    have heqO := applyMovesO_eq_compactO (descSort t.tombstones) t.components
      t.entities.length hDdesc hDlt
    have hbridge := compactO_eq_compactC (descSort t.tombstones) t.components t.components
      t.entities.length hDdesc hDlt hle hle (fun p _ => rfl)
    match hbm : buildMoves (descSort t.tombstones) ((t.entities.length : Int) - 1) with
    | (ms, last') =>
      have hlast' : last' = (t.entities.length : Int) - 1 - (descSort t.tombstones).length := by
        have := buildMoves_snd (descSort t.tombstones) ((t.entities.length : Int) - 1)
        rw [hbm] at this
        exact this
      have hfrom : (last' + 1).toNat =
          t.entities.length - (descSort t.tombstones).length := by
        rw [hlast']
        omega
      rw [hbm] at heqE heqO
      dsimp only
      have hmsE : applyMovesE t.entities t.indexSet ms =
          compactES t.entities t.indexSet t.entities.length (descSort t.tombstones) := heqE
      have hmsO : applyMovesO t.components ms =
          compactO t.components t.entities.length (descSort t.tombstones) := heqO
      rw [hmsE, hmsO, hfrom]
      have hlentake : ((compactES t.entities t.indexSet t.entities.length
          (descSort t.tombstones)).1.take
            (t.entities.length - (descSort t.tombstones).length)).length =
          t.entities.length - (descSort t.tombstones).length := by
        rw [List.length_take, c1]
        omega
      refine ⟨rfl, ?_, ?_, ?_, ?_, ?_, ?_⟩
      · show ((compactES t.entities t.indexSet t.entities.length
          (descSort t.tombstones)).1.take
            (t.entities.length - (descSort t.tombstones).length)).length = _
        rw [hlentake, hDlen]
      · show (compactO t.components t.entities.length (descSort t.tombstones)).length = _
        exact compactO_length _ _ _
      · intro i hi
        rw [hlentake] at hi
        show (compactES t.entities t.indexSet t.entities.length (descSort t.tombstones)).2
          (((compactES t.entities t.indexSet t.entities.length
            (descSort t.tombstones)).1.take
              (t.entities.length - (descSort t.tombstones).length)).getD i NullEntity) =
          some i
        rw [getD_take _ _ _ _ hi]
        exact c3 i hi
      · intro i hi hiT
        have hiD : i ∉ descSort t.tombstones := fun hc => hiT ((hDmem i).1 hc)
        obtain ⟨j, hj, hjE, hjC⟩ := c4 i hi hiD
        refine ⟨j, by rw [hlentake]; exact hj, ?_, ?_⟩
        · show ((compactES t.entities t.indexSet t.entities.length
            (descSort t.tombstones)).1.take
              (t.entities.length - (descSort t.tombstones).length)).getD j NullEntity = _
          rw [getD_take _ _ _ _ hj]
          exact hjE
        · show (compactO t.components t.entities.length
            (descSort t.tombstones)).getD j none = _
          rw [hbridge j hj]
          exact hjC
      · intro j hj
        rw [hlentake] at hj
        obtain ⟨i, hi, hiD, hjE, hjC⟩ := c9 j hj
        refine ⟨i, hi, fun hc => hiD ((hDmem i).2 hc), ?_, ?_⟩
        · show ((compactES t.entities t.indexSet t.entities.length
            (descSort t.tombstones)).1.take
              (t.entities.length - (descSort t.tombstones).length)).getD j NullEntity = _
          rw [getD_take _ _ _ _ hj]
          exact hjE
        · show (compactO t.components t.entities.length
            (descSort t.tombstones)).getD j none = _
          rw [hbridge j hj]
          exact hjC
      · intro x hx
        show (compactES t.entities t.indexSet t.entities.length (descSort t.tombstones)).2 x
          = t.indexSet x
        exact c5 x (fun i hi hiD => hx i hi (fun hc => hiD ((hDmem i).2 hc)))

theorem stable_findIndex_some {α : Type _} {t : StableComponentTable α}
    {e : Nat} {i : Nat} (h : t.findIndex e = some i) :
    i < t.entities.length ∧ t.entities.getD i NullEntity = e := by
  obtain ⟨hlt, hp, _⟩ := List.findIdx?_eq_some_iff_getElem.1 h
  refine ⟨hlt, ?_⟩
  rw [getD_eq_getElem _ _ _ hlt]
  exact Nat.eq_of_beq_eq_true (by simpa using hp)

theorem stable_findIndex_none {α : Type _} {t : StableComponentTable α}
    {e : Nat} (h : t.findIndex e = none) : e ∉ t.entities := by
  intro hmem
  have := List.findIdx?_eq_none_iff.1 h e hmem
  simp at this

theorem SparseIndex.remove_remove (s : SparseIndex) (e : Nat) :
    (s.remove e).remove e = s.remove e := by
  funext x
  by_cases hxe : x = e
  · subst hxe
    rw [SparseIndex.remove_eq, SparseIndex.remove_eq]
  · rw [SparseIndex.remove_ne _ _ _ hxe, SparseIndex.remove_ne _ _ _ hxe]

/-- On a well-formed stable table, the sparse slot of a live slot's
entity points at that slot; hence tryRemove at the scan index equals
remove at the extracted index. -/
theorem stable_tryRemove_present {α : Type _} {t : StableComponentTable α} (h : StableWf t)
    {e : Nat} (hnn : e ≠ NullEntity) (hmem : e ∈ t.entities) :
    t.tryRemove e = (true, t.remove e) := by
  obtain ⟨i, hi, hget⟩ := (mem_iff_getD t.entities e NullEntity).1 hmem
  have hf : t.findIndex e = some (t.entities.findIdx (fun x => x == e)) := by
    unfold StableComponentTable.findIndex
    rw [List.findIdx?_eq_some_iff_findIdx_eq]
    constructor
    · have := List.findIdx_lt_length_of_exists (p := fun x => x == e)
        ⟨e, hmem, by simp⟩
      exact this
    · rfl
  obtain ⟨hflt, hfget⟩ := stable_findIndex_some hf
  have hidx : t.indexSet e = some (t.entities.findIdx (fun x => x == e)) := by
    have halz := h.2.1 _ hflt (by rw [hfget]; exact hnn)
    rw [hfget] at halz
    exact halz
  have hp1 : (t.indexSet.extract e).1 = t.entities.findIdx (fun x => x == e) := by
    simp [SparseIndex.extract, SparseIndex.atRead, hidx]
  unfold StableComponentTable.tryRemove
  rw [hf]
  unfold StableComponentTable.remove StableComponentTable.removeImpl
  rw [hp1]
  show (true, _) = (true, _)
  refine congrArg _ ?_
  show ({ indexSet := t.indexSet.remove e, .. } : StableComponentTable α) = _
  have hs2 : (t.indexSet.extract e).2 = t.indexSet.remove e := rfl
  rw [hs2, SparseIndex.remove_remove]

theorem stable_tryRemove_absent {α : Type _} (t : StableComponentTable α) {e : Nat}
    (hmem : e ∉ t.entities) : t.tryRemove e = (false, t) := by
  have hf : t.findIndex e = none := by
    apply List.findIdx?_eq_none_iff.2
    intro x hx
    simp only [beq_eq_false_iff_ne, ne_eq]
    exact fun hcontra => hmem (hcontra ▸ hx)
  unfold StableComponentTable.tryRemove
  rw [hf]

/-- Sorting a well-formed stable table: entities are the merge-sorted
packed entities, tombstones stay cleared, the sparse index is realigned
position by position, and every live entity keeps its component value at
its new position. -/
theorem stable_sort_wf {α : Type _} (t : StableComponentTable α) (cmp : Nat → Nat → Bool)
    (h : StableWf t) :
    (t.sort cmp).entities = (t.pack).entities.mergeSort (fun a b => !cmp b a) ∧
    (t.sort cmp).tombstones = [] ∧
    (∀ i, i < (t.sort cmp).entities.length →
      (t.sort cmp).indexSet ((t.sort cmp).entities.getD i NullEntity) = some i) ∧
    (∀ i, i < t.entities.length → i ∉ t.tombstones →
      ∃ j, j < (t.sort cmp).entities.length ∧
        (t.sort cmp).entities.getD j NullEntity = t.entities.getD i NullEntity ∧
        (t.sort cmp).components.getD j none = t.components.getD i none) := by
  obtain ⟨hT0, hlenP, hlenC, halignP, hfwd, _hbwd, _huntouched⟩ := stable_pack_spec t h
  have hndP : (t.pack).entities.Nodup := by
    apply nodup_of_getD_inj
    intro a b hab hb hc
    have ha2 : a < (t.pack).entities.length := by omega
    have k1 : (t.pack).entities.getD a NullEntity = (t.pack).entities.getD a 0 := by
      rw [getD_eq_getElem _ _ _ ha2]
      rw [getD_eq_getElem _ _ _ ha2]
    have k2 : (t.pack).entities.getD b NullEntity = (t.pack).entities.getD b 0 := by
      rw [getD_eq_getElem _ _ _ hb]
      rw [getD_eq_getElem _ _ _ hb]
    have h1 := halignP a ha2
    have h2 := halignP b hb
    rw [k1, hc, ← k2] at h1
    have := Option.some.inj (h1.symm.trans h2)
    omega
  have hperm : ((t.pack).entities.mergeSort (fun a b => !cmp b a)).Perm (t.pack).entities :=
    List.mergeSort_perm (t.pack).entities _
  have hnd : ((t.pack).entities.mergeSort (fun a b => !cmp b a)).Nodup :=
    hperm.nodup_iff.2 hndP
  have hlen : ((t.pack).entities.mergeSort (fun a b => !cmp b a)).length =
      (t.pack).entities.length := hperm.length_eq
  have hpval : ∀ j, j < ((t.pack).entities.mergeSort (fun a b => !cmp b a)).length →
      (t.pack).indexSet (((t.pack).entities.mergeSort (fun a b => !cmp b a)).getD j
        NullEntity) = some ((t.pack).indexSet.atRead
          (((t.pack).entities.mergeSort (fun a b => !cmp b a)).getD j NullEntity)) ∧
      (t.pack).indexSet.atRead (((t.pack).entities.mergeSort
        (fun a b => !cmp b a)).getD j NullEntity) < (t.pack).entities.length ∧
      (t.pack).entities.getD ((t.pack).indexSet.atRead
        (((t.pack).entities.mergeSort (fun a b => !cmp b a)).getD j NullEntity)) NullEntity =
        ((t.pack).entities.mergeSort (fun a b => !cmp b a)).getD j NullEntity := by
    intro j hj
    have hmem : ((t.pack).entities.mergeSort (fun a b => !cmp b a)).getD j NullEntity ∈
        (t.pack).entities :=
      hperm.mem_iff.1 (getD_mem _ _ _ hj)
    obtain ⟨oi, hoi, hget⟩ := (mem_iff_getD _ _ NullEntity).1 hmem
    have hsome := halignP oi hoi
    rw [hget] at hsome
    have hread : (t.pack).indexSet.atRead
        (((t.pack).entities.mergeSort (fun a b => !cmp b a)).getD j NullEntity) = oi := by
      rw [SparseIndex.atRead, hsome]
      rfl
    rw [hread]
    exact ⟨hsome, hoi, hget⟩
  have hclP : ((t.pack).entities.mergeSort (fun a b => !cmp b a)).length ≤
      (t.pack).components.length := by
    rw [hlen, hlenP, hlenC]
    have := h.1
    omega
  obtain ⟨P1, P2, P3, P4, P5⟩ := sortPatch_spec
    ((t.pack).entities.mergeSort (fun a b => !cmp b a)) hnd
    (t.pack).indexSet (t.pack).components
    (fun j => (t.pack).indexSet.atRead
      (((t.pack).entities.mergeSort (fun a b => !cmp b a)).getD j NullEntity))
    (fun j => (t.pack).components.getD ((t.pack).indexSet.atRead
      (((t.pack).entities.mergeSort (fun a b => !cmp b a)).getD j NullEntity)) default)
    (by
      intro j hj
      rw [hlen]
      exact ((hpval j hj).2).1)
    (by
      intro i j hi hj heq
      have h1 := hpval i hi
      have h2 := hpval j hj
      refine nodup_getD_inj hnd NullEntity hi hj ?_
      rw [← h1.2.2, ← h2.2.2]
      exact congrArg (fun z => (t.pack).entities.getD z NullEntity) heq)
    (fun j hj => (hpval j hj).1)
    hclP
    (fun j hj => rfl)
  refine ⟨rfl, hT0, ?_, ?_⟩
  · intro i hi
    exact P1 i hi
  · intro i hi hiT
    obtain ⟨j, hj, hjE, hjC⟩ := hfwd i hi hiT
    have hmem : (t.pack).entities.getD j NullEntity ∈
        (t.pack).entities.mergeSort (fun a b => !cmp b a) :=
      hperm.mem_iff.2 (getD_mem _ _ _ hj)
    obtain ⟨j2, hj2, hget2⟩ := (mem_iff_getD _ _ NullEntity).1 hmem
    refine ⟨j2, ?_, ?_, ?_⟩
    · show j2 < ((t.pack).entities.mergeSort (fun a b => !cmp b a)).length
      exact hj2
    · show ((t.pack).entities.mergeSort (fun a b => !cmp b a)).getD j2 NullEntity = _
      rw [hget2, hjE]
    · have hpj2 : (t.pack).indexSet.atRead
          (((t.pack).entities.mergeSort (fun a b => !cmp b a)).getD j2 NullEntity) = j := by
        rw [hget2, SparseIndex.atRead, halignP j hj]
        rfl
      have hval2 : (sortPatch ((t.pack).entities.mergeSort (fun a b => !cmp b a))
          (t.pack).indexSet (t.pack).components).2.getD j2 default =
          (t.pack).components.getD ((t.pack).indexSet.atRead
            (((t.pack).entities.mergeSort (fun a b => !cmp b a)).getD j2 NullEntity))
            default := P3 j2 hj2
      rw [hpj2] at hval2
      show (sortPatch ((t.pack).entities.mergeSort (fun a b => !cmp b a))
        (t.pack).indexSet (t.pack).components).2.getD j2 (default : Option α) =
        t.components.getD i none
      rw [hval2]
      exact hjC


/-- C4: on a stable table whose sparse index maps the present entity e
to slot i, remove(e) destroys only e's component cell, nulls only e's
entity entry, pushes i on the tombstone stack, and leaves every other
slot's entity and component untouched (no swap); a subsequent add pops
exactly that most recently pushed tombstone (LIFO) and constructs the
new component in the reclaimed slot i instead of appending. -/
theorem stable_remove_frame_lifo {α : Type _} (t : StableComponentTable α) (e i : Nat)
    (hidx : t.indexSet e = some i) (hcl : i < t.components.length) :
    (t.remove e).entities = t.entities.set i NullEntity ∧
    (t.remove e).components = t.components.set i none ∧
    (t.remove e).tombstones = t.tombstones ++ [i] ∧
    (∀ j, j ≠ i → (t.remove e).components.getD j none = t.components.getD j none ∧
      (t.remove e).entities.getD j NullEntity = t.entities.getD j NullEntity) ∧
    (∀ (e2 : Nat) (v : α),
      ((t.remove e).add e2 v).entities = t.entities.set i e2 ∧
      ((t.remove e).add e2 v).components.length = t.components.length ∧
      ((t.remove e).add e2 v).components.getD i none = some v ∧
      ((t.remove e).add e2 v).tombstones = t.tombstones ∧
      ((t.remove e).add e2 v).indexSet e2 = some i) := by
  have hp1 : (t.indexSet.extract e).1 = i := by
    simp [SparseIndex.extract, SparseIndex.atRead, hidx]
  have hrem : t.remove e =
      { indexSet := ((t.indexSet.extract e).2).remove e
        entities := t.entities.set i NullEntity
        components := t.components.set i none
        tombstones := t.tombstones ++ [i] } := by
    unfold StableComponentTable.remove StableComponentTable.removeImpl
    rw [hp1]
  rw [hrem]
  refine ⟨rfl, rfl, rfl, ?_, ?_⟩
  · intro j hj
    exact ⟨getD_set_ne _ _ _ _ _ (fun hc => hj hc.symm),
      getD_set_ne _ _ _ _ _ (fun hc => hj hc.symm)⟩
  · intro e2 v
    unfold StableComponentTable.add StableComponentTable.addImpl
    rw [if_neg (by
      intro hc
      have := List.isEmpty_iff.1 hc
      simp at this)]
    have hlastD : (t.tombstones ++ [i]).getLastD 0 = i := by simp
    dsimp only
    rw [hlastD]
    have hsetlen : (t.components.set i none).length = t.components.length := by
      simp
    refine ⟨?_, ?_, ?_, by simp, SparseIndex.add_eq _ _ _⟩
    · rw [List.set_set]
    · unfold StableComponentTable.insertComponent
      rw [hsetlen, show i + 1 - t.components.length = 0 from by omega]
      simp
    · unfold StableComponentTable.insertComponent
      rw [hsetlen, show i + 1 - t.components.length = 0 from by omega]
      show ((t.components.set i none ++ []).set i (some v)).getD i none = some v
      rw [List.append_nil]
      rw [getD_set_self _ _ _ _ (by simpa using hcl)]

def stableC4Table : StableComponentTable Nat :=
  { indexSet := SparseIndex.empty.add 1 0
    entities := [1]
    components := [some 5]
    tombstones := [] }

theorem stable_remove_frame_lifo_witness :
    stableC4Table.indexSet 1 = some 0 ∧
    (0 : Nat) < stableC4Table.components.length ∧
    (stableC4Table.remove 1).entities = [1].set 0 NullEntity := by
  refine ⟨rfl, by decide, ?_⟩
  exact (stable_remove_frame_lifo stableC4Table 1 0 rfl (by decide)).1

/-- C5: pack() is a no-op when the tombstone stack is empty; otherwise
it compacts live tail slots into the sorted-descending holes, truncates
entities to the live count, and clears the tombstones: afterwards
tombstones is empty, entities.len() equals the live count, every
previously live entity is still present with its component value, and
the sparse index maps entities[i] back to i for all i — including the
all-tombstone case where the descending cursor wraps below zero and
entities becomes empty. -/
theorem stable_pack_correct {α : Type _} (t : StableComponentTable α) (h : StableWf t) :
    (t.tombstones = [] → t.pack = t) ∧
    (t.pack).tombstones = [] ∧
    (t.pack).entities.length = t.count ∧
    (∀ i, i < (t.pack).entities.length →
      (t.pack).indexSet ((t.pack).entities.getD i NullEntity) = some i) ∧
    (∀ i, i < t.entities.length → i ∉ t.tombstones →
      ∃ j, j < (t.pack).entities.length ∧
        (t.pack).entities.getD j NullEntity = t.entities.getD i NullEntity ∧
        (t.pack).components.getD j none = t.components.getD i none) := by
  obtain ⟨hT0, hlenP, _hlenC, halignP, hfwd, _, _⟩ := stable_pack_spec t h
  refine ⟨?_, hT0, hlenP, halignP, hfwd⟩
  intro hemp
  unfold StableComponentTable.pack
  rw [if_pos (by rw [hemp]; rfl)]

def stableC5Table : StableComponentTable Nat :=
  { indexSet := SparseIndex.empty
    entities := [NullEntity, NullEntity]
    components := [none, none]
    tombstones := [0, 1] }

theorem stable_pack_correct_witness :
    StableWf stableC5Table ∧
    (stableC5Table.pack).entities.length = stableC5Table.count ∧
    (stableC5Table.pack).tombstones = [] := by
  have hwf : StableWf stableC5Table := by
    refine ⟨by decide, ?_, by decide, by decide, by decide, by decide, fun e _ => rfl, rfl⟩
    intro i hi hne
    exfalso
    refine hne ?_
    have hi2 : i < 2 := by simpa [stableC5Table] using hi
    interval_cases i <;> rfl
  have h := stable_pack_correct _ hwf
  exact ⟨hwf, h.2.2.1, h.2.1⟩

theorem mergeSort_pairwise_cmp_false (cmp : Nat → Nat → Bool)
    (hasym : ∀ a b, cmp a b = true → cmp b a = false)
    (hneg : ∀ a b c, cmp b a = false → cmp c b = false → cmp c a = false)
    (l : List Nat) :
    (l.mergeSort (fun a b => !cmp b a)).Pairwise (fun a b => cmp b a = false) := by
  have hs := @List.sorted_mergeSort Nat (fun a b => !cmp b a)
    (by
      intro a b c hab hbc
      simp only [Bool.not_eq_true', Bool.not_eq_false'] at hab hbc ⊢
      exact hneg a b c hab hbc)
    (by
      intro a b
      simp only [Bool.or_eq_true, Bool.not_eq_true', Bool.not_eq_false']
      cases hcab : cmp a b with
      | false => exact Or.inr rfl
      | true => exact Or.inl (hasym a b hcab))
    l
  exact hs.imp (by
    intro a b hab
    simpa using hab)

/-- Shared witness table: a well-formed dense table holding entities 1
and 2. -/
def denseWitnessTable : DenseTable Nat :=
  denseRun DenseTable.empty [DenseOp.add 1 10, DenseOp.add 2 20]

theorem denseWitnessTable_wf : DenseWf denseWitnessTable := by
  have hinv0 : DenseInv (fun _ => (0 : Nat)) (DenseTable.empty (α := Nat)) := by
    refine ⟨denseWf_empty, ?_⟩
    intro i hi
    simp [DenseTable.empty] at hi
  have hpre : densePreOk (DenseTable.empty (α := Nat))
      [DenseOp.add 1 10, DenseOp.add 2 20] := by
    simp only [densePreOk, DenseOp.pre, DenseOp.apply, DenseTable.add, DenseTable.addImpl,
      DenseTable.empty]
    refine ⟨by decide, by decide, trivial⟩
  exact (denseInv_run [DenseOp.add 1 10, DenseOp.add 2 20] (fun _ => 0)
    DenseTable.empty hinv0 hpre).1

/-- C6: under a strict-weak-order comparator (asymmetry and transitive
incomparability stated on the boolean comparison), sort(cmp) on either
table kind totally orders the entities, re-establishes the alignment
indices.get(entities[i]) == i, and keeps every entity's component value,
now located at the entity's new position; on a stable table the
entities come from the pack()ed (tombstone-free) sequence and the
tombstone stack stays empty. -/
theorem table_sort_correct {α : Type _} [Inhabited α] (cmp : Nat → Nat → Bool)
    (hasym : ∀ a b, cmp a b = true → cmp b a = false)
    (hneg : ∀ a b c, cmp b a = false → cmp c b = false → cmp c a = false) :
    (∀ t : DenseTable α, DenseWf t →
      (t.sort cmp).entities.Pairwise (fun a b => cmp b a = false) ∧
      DenseWf (t.sort cmp) ∧
      (∀ e ∈ t.entities, (t.sort cmp).get e = t.get e)) ∧
    (∀ t : StableComponentTable α, StableWf t →
      (t.sort cmp).entities.Pairwise (fun a b => cmp b a = false) ∧
      (t.sort cmp).entities = (t.pack).entities.mergeSort (fun a b => !cmp b a) ∧
      (t.sort cmp).tombstones = [] ∧
      (∀ i, i < (t.sort cmp).entities.length →
        (t.sort cmp).indexSet ((t.sort cmp).entities.getD i NullEntity) = some i) ∧
      (∀ i, i < t.entities.length → i ∉ t.tombstones →
        ∃ j, j < (t.sort cmp).entities.length ∧
          (t.sort cmp).entities.getD j NullEntity = t.entities.getD i NullEntity ∧
          (t.sort cmp).components.getD j none = t.components.getD i none)) := by
  constructor
  · intro t h
    obtain ⟨hwf, _, hget⟩ := dense_sort_wf t cmp h
    exact ⟨dense_sort_sorted t cmp hasym hneg h, hwf, hget⟩
  · intro t h
    obtain ⟨hE, hT, halign, hval⟩ := stable_sort_wf t cmp h
    refine ⟨?_, hE, hT, halign, hval⟩
    rw [hE]
    exact mergeSort_pairwise_cmp_false cmp hasym hneg _

def stableC6Table : StableComponentTable Nat :=
  { indexSet := (SparseIndex.empty.add 5 0).add 3 1
    entities := [5, 3]
    components := [some 50, some 30]
    tombstones := [] }

theorem stableC6Table_wf : StableWf stableC6Table := by
  refine ⟨by decide, by decide, by decide, by decide, by decide, by decide, ?_, rfl⟩
  intro e he
  have h3 : e ≠ 3 := fun hc => he (by rw [hc]; decide)
  have h5 : e ≠ 5 := fun hc => he (by rw [hc]; decide)
  show ((SparseIndex.empty.add 5 0).add 3 1) e = none
  rw [SparseIndex.add_ne _ _ _ _ h3, SparseIndex.add_ne _ _ _ _ h5]
  rfl

theorem table_sort_correct_witness :
    (∀ a b : Nat, decide (a < b) = true → decide (b < a) = false) ∧
    (∀ a b c : Nat, decide (b < a) = false → decide (c < b) = false →
      decide (c < a) = false) ∧
    DenseWf denseWitnessTable ∧
    StableWf stableC6Table ∧
    ((denseWitnessTable.sort (fun a b => decide (a < b))).entities.Pairwise
      (fun a b => decide (b < a) = false) ∧
      DenseWf (denseWitnessTable.sort (fun a b => decide (a < b))) ∧
      (∀ e ∈ denseWitnessTable.entities,
        (denseWitnessTable.sort (fun a b => decide (a < b))).get e =
          denseWitnessTable.get e)) ∧
    ((stableC6Table.sort (fun a b => decide (a < b))).entities.Pairwise
      (fun a b => decide (b < a) = false) ∧
      (stableC6Table.sort (fun a b => decide (a < b))).entities =
        (stableC6Table.pack).entities.mergeSort (fun a b => !decide (b < a)) ∧
      (stableC6Table.sort (fun a b => decide (a < b))).tombstones = [] ∧
      (∀ i, i < (stableC6Table.sort (fun a b => decide (a < b))).entities.length →
        (stableC6Table.sort (fun a b => decide (a < b))).indexSet
          ((stableC6Table.sort (fun a b => decide (a < b))).entities.getD i NullEntity) =
            some i) ∧
      (∀ i, i < stableC6Table.entities.length → i ∉ stableC6Table.tombstones →
        ∃ j, j < (stableC6Table.sort (fun a b => decide (a < b))).entities.length ∧
          (stableC6Table.sort (fun a b => decide (a < b))).entities.getD j NullEntity =
            stableC6Table.entities.getD i NullEntity ∧
          (stableC6Table.sort (fun a b => decide (a < b))).components.getD j none =
            stableC6Table.components.getD i none)) := by
  have h1 : ∀ a b : Nat, decide (a < b) = true → decide (b < a) = false := by
    intro a b h
    simp only [decide_eq_true_eq] at h
    simp only [decide_eq_false_iff_not]
    omega
  have h2 : ∀ a b c : Nat, decide (b < a) = false → decide (c < b) = false →
      decide (c < a) = false := by
    intro a b c hab hbc
    simp only [decide_eq_false_iff_not] at hab hbc ⊢
    omega
  have h := table_sort_correct (α := Nat) (fun a b => decide (a < b)) h1 h2
  exact ⟨h1, h2, denseWitnessTable_wf, stableC6Table_wf,
    h.1 denseWitnessTable denseWitnessTable_wf, h.2 stableC6Table stableC6Table_wf⟩

/-- C8: tryRemove(e) on either table kind returns false and leaves the
table completely unchanged when e is absent, and otherwise performs
exactly the effect of remove(e) and returns true; absence is a normal,
non-aborting outcome. -/
theorem table_tryRemove_correct {α : Type _} [Inhabited α] :
    (∀ t : DenseTable α, DenseWf t → ∀ e : Nat,
      (e ∉ t.entities → t.tryRemove e = (false, t)) ∧
      (e ∈ t.entities → t.tryRemove e = (true, t.remove e))) ∧
    (∀ t : StableComponentTable α, StableWf t → ∀ e : Nat, e ≠ NullEntity →
      (e ∉ t.entities → t.tryRemove e = (false, t)) ∧
      (e ∈ t.entities → t.tryRemove e = (true, t.remove e))) := by
  constructor
  · intro t h e
    exact ⟨fun habs => DenseTable.tryRemove_absent t habs,
      fun hmem => DenseTable.tryRemove_present h hmem⟩
  · intro t h e hnn
    exact ⟨fun habs => stable_tryRemove_absent t habs,
      fun hmem => stable_tryRemove_present h hnn hmem⟩

def stableC8Table : StableComponentTable Nat :=
  { indexSet := (SparseIndex.empty.add 5 0).add 3 1
    entities := [5, 3]
    components := [some 50, some 30]
    tombstones := [] }

theorem stableC8Table_wf : StableWf stableC8Table := by
  refine ⟨by decide, by decide, by decide, by decide, by decide, by decide, ?_, rfl⟩
  intro e he
  have h3 : e ≠ 3 := fun hc => he (by rw [hc]; decide)
  have h5 : e ≠ 5 := fun hc => he (by rw [hc]; decide)
  show ((SparseIndex.empty.add 5 0).add 3 1) e = none
  rw [SparseIndex.add_ne _ _ _ _ h3, SparseIndex.add_ne _ _ _ _ h5]
  rfl

theorem table_tryRemove_correct_witness :
    DenseWf denseWitnessTable ∧
    StableWf stableC8Table ∧
    (3 : Nat) ≠ NullEntity ∧
    ((7 ∉ denseWitnessTable.entities →
      denseWitnessTable.tryRemove 7 = (false, denseWitnessTable)) ∧
     (7 ∈ denseWitnessTable.entities →
      denseWitnessTable.tryRemove 7 = (true, denseWitnessTable.remove 7))) ∧
    ((3 ∉ stableC8Table.entities →
      stableC8Table.tryRemove 3 = (false, stableC8Table)) ∧
     (3 ∈ stableC8Table.entities →
      stableC8Table.tryRemove 3 = (true, stableC8Table.remove 3))) := by
  have h := table_tryRemove_correct (α := Nat)
  exact ⟨denseWitnessTable_wf, stableC8Table_wf, by decide,
    h.1 denseWitnessTable denseWitnessTable_wf 7,
    h.2 stableC8Table stableC8Table_wf 3 (by decide)⟩

/-! ### Iterator advance (StableComponentTable::IteratorType::operator++)

The while loop checks `_index == max` before incrementing, increments,
then reads `entities.at(_index)`; the model returns the landing index
together with the list of indices at which the entities vector is read,
so out-of-range accesses are observable. -/

def iterAdvance (ents : List Nat) (max : Nat) : Nat → Nat → Nat × List Nat
  | 0, idx => (idx, [])
  | fuel + 1, idx =>
    if idx = max then (idx, [])
    else
      if ents.getD (idx + 1) NullEntityIndex != NullEntityIndex then (idx + 1, [idx + 1])
      else
        match iterAdvance ents max fuel (idx + 1) with
        | (fi, rs) => (fi, (idx + 1) :: rs)

/-- C9: refuted — on a stable table whose entities vector is [1] (size
1, slot 0 live), advancing the iterator positioned at index 0 performs a
read of the entities vector at index 1 = size: operator++ increments
first and only then tests `entities.at(_index) != NullEntityIndex`, so
the advance from the last slot accesses one past the end instead of
confining its reads to indices strictly below size. -/
theorem iterator_advance_out_of_range_read :
    (iterAdvance [1] 1 2 0).2 = [1] ∧
    ¬(∀ r ∈ (iterAdvance [1] 1 2 0).2, r < 1) := by
  decide

/-! ### Double slot clear in StableComponentTable::extract (C10) -/

/-- Modelled from the spec: StableComponentTable::extract with the inner
`_indexSet.remove` of removeImpl replaced by the debug-checked
SparseSet remove (spec section 4.1: the slot must currently be
non-null); none models the assertion firing.  extract first calls
`_indexSet.extract(entity)` (which already clears the slot) and then
lets removeImpl clear it a second time. -/
def StableComponentTable.extractChecked {α : Type _} (t : StableComponentTable α) (e : Nat) :
    Option (Option α × StableComponentTable α) :=
  match ((t.indexSet.extract e).2).removeChecked e with
  | none => none
  | some s2 =>
    some (t.components.getD (t.indexSet.extract e).1 none,
      { indexSet := s2
        entities := t.entities.set (t.indexSet.extract e).1 NullEntity
        components := t.components.set (t.indexSet.extract e).1 none
        tombstones := t.tombstones ++ [(t.indexSet.extract e).1] })

def stableC10Table : StableComponentTable Nat :=
  { indexSet := SparseIndex.empty.add 1 0
    entities := [1]
    components := [some 7]
    tombstones := [] }

/-- C10: refuted — on a table where entity 1 is present at slot 0 (the
sparse slot is non-null before the call), extract(1) reaches the inner
`_indexSet.remove` of removeImpl with the slot already cleared by the
outer `_indexSet.extract`, so the debug-checked remove observes a null
slot and the modelled assertion fires (extractChecked returns none): the
slot is cleared twice, not once. -/
theorem stable_extract_double_clear :
    stableC10Table.indexSet 1 = some 0 ∧
    stableC10Table.extractChecked 1 = none := by
  constructor
  · rfl
  · rfl

end KubeECS
